import Mathlib

/-!
# Receipt processor: validation predicate and points engine

A shallow embedding of `main.go` (`isValidItem`, `isValidReceipt`,
`calculatePoints`) together with the parts of the Go runtime and standard
library the three functions call: 64-bit `int` arithmetic, IEEE-754 binary64
values with `strconv.ParseFloat`, `math.Ceil`, the anchored character-class
patterns of `regexp`, `strings.TrimSpace` and `time.Parse` for the two layouts
in use.  Strings are sequences of Unicode characters (valid UTF-8), `int` is 64
bits wide, and float64 arithmetic rounds to nearest, ties to even.  Every
definition of the program and of the library is executable.
-/

namespace ReceiptProcessor

/-! ## Go `int`: 64-bit two's complement -/

/-- Smallest value of a 64-bit Go `int`. -/
def minInt : Int := -(2 ^ 63)

/-- Largest value of a 64-bit Go `int`. -/
def maxInt : Int := 2 ^ 63 - 1

/-- Reduction of a mathematical integer to the 64-bit two's complement range. -/
def wrapInt (x : Int) : Int := (x + 2 ^ 63) % 2 ^ 64 - 2 ^ 63

/-- Go `a + b` on `int`: addition wraps around on overflow. -/
def addInt (a b : Int) : Int := wrapInt (a + b)

/-! ## IEEE-754 binary64 -/

/-- A float64 value: NaN, an infinity, or the finite number
`(-1)^neg * mant * 2^exp`.  The two zeros are `fin false 0 _` and
`fin true 0 _`; no operation used by the program tells them apart. -/
inductive F64 where
  | nan : F64
  | inf (neg : Bool) : F64
  | fin (neg : Bool) (mant : Nat) (exp : Int) : F64
deriving DecidableEq

/-- Number of binary digits of `n`, computed with `fuel` halvings. -/
def bitLenAux : Nat → Nat → Nat
  | 0, _ => 0
  | fuel + 1, n => if n = 0 then 0 else bitLenAux fuel (n / 2) + 1

/-- Number of binary digits of `n` (`0` for `0`). -/
def bitLen (n : Nat) : Nat := bitLenAux n n

/-- Numerator of `n / (d * 2 ^ q)` once the power of two is cleared. -/
def scaleNum (n : Nat) (q : Int) : Nat := if 0 ≤ q then n else n * 2 ^ (-q).toNat

/-- Denominator of `n / (d * 2 ^ q)` once the power of two is cleared. -/
def scaleDen (d : Nat) (q : Int) : Nat := if 0 ≤ q then d * 2 ^ q.toNat else d

/-- The integer `e` with `2^e ≤ n / d < 2^(e+1)`, for positive `n` and `d`. -/
def floorLog2 (n d : Nat) : Int :=
  let e0 : Int := (bitLen n : Int) - (bitLen d : Int)
  if scaleDen d e0 ≤ scaleNum n e0 then e0 else e0 - 1

/-- The exponent of the last place of the float64 nearest to `n / d`: 52
below the exponent of `n / d`, and never below `-1074` (gradual underflow). -/
def lastPlace (n d : Nat) : Int := max (floorLog2 n d) (-1022) - 52

/-- The integer nearest to `n / (d * 2 ^ q)`, ties to even. -/
def roundedMant (n d : Nat) (q : Int) : Nat :=
  let num := scaleNum n q
  let den := scaleDen d q
  let m := num / den
  let r := num % den
  if den < 2 * r ∨ (2 * r = den ∧ m % 2 = 1) then m + 1 else m

/-- The float64 nearest to `(-1)^neg * n / d`, ties to even, with gradual
underflow and overflow to infinity: 53 significant bits, exponents of the
last place from `-1074` to `971`. -/
def roundNearestEven (neg : Bool) (n d : Nat) : F64 :=
  if n = 0 then F64.fin neg 0 0
  else if 1023 < floorLog2 n d then F64.inf neg
  else if lastPlace n d = 971 ∧ 2 ^ 53 ≤ roundedMant n d (lastPlace n d) then F64.inf neg
  else F64.fin neg (roundedMant n d (lastPlace n d)) (lastPlace n d)

/-- The float64 nearest to `(-1)^neg * m * 2^e`. -/
def roundDyadic (neg : Bool) (m : Nat) (e : Int) : F64 :=
  roundNearestEven neg (m * 2 ^ e.toNat) (2 ^ (-e).toNat)

namespace F64

/-- Go `x * y` on float64. -/
def mul : F64 → F64 → F64
  | nan, _ => nan
  | _, nan => nan
  | inf a, inf b => inf (a != b)
  | inf a, fin b m _ => if m = 0 then nan else inf (a != b)
  | fin a m _, inf b => if m = 0 then nan else inf (a != b)
  | fin a m e, fin b k f => roundDyadic (a != b) (m * k) (e + f)

/-- Go `x <= 0` on float64 (false for NaN). -/
def leZero : F64 → Bool
  | nan => false
  | inf neg => neg
  | fin neg m _ => neg || m == 0

/-- Go `x == y` on float64 (false when either side is NaN; the zeros are equal). -/
def eq : F64 → F64 → Bool
  | inf a, inf b => a == b
  | fin a m e, fin b k f =>
      (m == 0 && k == 0) ||
        (a == b && m * 2 ^ (e - min e f).toNat == k * 2 ^ (f - min e f).toNat)
  | _, _ => false

/-- Go `math.Ceil`: the least integer value not below `x`; NaN and the
infinities are returned unchanged. -/
def ceil : F64 → F64
  | nan => nan
  | inf neg => inf neg
  | fin neg m e =>
      if 0 ≤ e then fin neg m e
      else
        let d := 2 ^ (-e).toNat
        if neg then fin true (m / d) 0
        else fin false (if m % d = 0 then m / d else m / d + 1) 0

/-- The integer part of a finite float64, rounded toward zero. -/
def truncFin (neg : Bool) (m : Nat) (e : Int) : Int :=
  let a : Nat := if 0 ≤ e then m * 2 ^ e.toNat else m / 2 ^ (-e).toNat
  if neg then -(a : Int) else (a : Int)

/-- Go `int(x)` for a float64 `x`: truncation toward zero.  When the value
does not fit in `int` (NaN, infinities, magnitude beyond the range) the
language leaves the result to the implementation; the amd64 result, the
smallest `int`, is used here. -/
def toInt : F64 → Int
  | nan => minInt
  | inf _ => minInt
  | fin neg m e =>
      let t := truncFin neg m e
      if minInt ≤ t ∧ t ≤ maxInt then t else minInt

/-- Go `float64(n)` for an `int` `n`: the nearest float64. -/
def ofInt (n : Int) : F64 := roundNearestEven (decide (n < 0)) n.natAbs 1

/-- The constant `100` as a float64. -/
def hundred : F64 := fin false 100 0

/-- The constant `0.2` as a float64: the nearest float64 to one fifth. -/
def oneFifth : F64 := roundNearestEven false 2 10

end F64

/-! ## `strconv.ParseFloat` -/

/-- The two error kinds of `strconv`. -/
inductive NumError where
  | errSyntax : NumError
  | errRange : NumError
deriving DecidableEq

/-- Decimal digit test on one character. -/
def isDigit (c : Char) : Bool := decide (48 ≤ c.toNat ∧ c.toNat ≤ 57)

/-- Value of a decimal digit character. -/
def digitVal (c : Char) : Nat := c.toNat - 48

/-- ASCII lower-casing as in `commonPrefixLenIgnoreCase`. -/
def lowerAscii (c : Char) : Char :=
  if 65 ≤ c.toNat ∧ c.toNat ≤ 90 then Char.ofNat (c.toNat + 32) else c

/-- Test `'a' <= lower(c) && lower(c) <= 'f'` of `readFloat`. -/
def isHexLetter (c : Char) : Bool :=
  decide ((97 ≤ c.toNat ∧ c.toNat ≤ 102) ∨ (65 ≤ c.toNat ∧ c.toNat ≤ 70))

/-- Value of a hexadecimal letter. -/
def hexLetterVal (c : Char) : Nat := (lowerAscii c).toNat - 97 + 10

/-- Length of the longest common beginning of `s` and `p`, ignoring the case
of `s` (`p` is lower case). -/
def commonLenIgnoreCase : List Char → List Char → Nat
  | c :: s, p :: ps => if lowerAscii c = p then commonLenIgnoreCase s ps + 1 else 0
  | _, _ => 0

/-- Function `special` of `strconv`: the value and the number of characters
read when `s` starts with an infinity or NaN spelling. -/
def special (s : List Char) : Option (F64 × Nat) :=
  let infCase (sign : Bool) (nsign : Nat) (t : List Char) : Option (F64 × Nat) :=
    let n := commonLenIgnoreCase t "infinity".data
    let n := if 3 < n ∧ n < 8 then 3 else n
    if n = 3 ∨ n = 8 then some (F64.inf sign, nsign + n) else none
  match s with
  | [] => none
  | c :: t =>
      if c = '+' then infCase false 1 t
      else if c = '-' then infCase true 1 t
      else if c = 'i' ∨ c = 'I' then infCase false 0 s
      else if c = 'n' ∨ c = 'N' then
        if commonLenIgnoreCase s "nan".data = 3 then some (F64.nan, 3) else none
      else none

/-- State of the digit loop of `readFloat`. -/
structure MantState where
  sawdot : Bool
  sawdigits : Bool
  nd : Nat
  dp : Int
  mant : Nat
  underscores : Bool

/-- The digit loop of `readFloat` in base `base`: reads digits, one point and
underscores, and returns the state with the unread rest.  All significant
digits are kept in `mant`. -/
def readMant (base : Nat) : List Char → MantState → MantState × List Char
  | [], st => (st, [])
  | c :: cs, st =>
      if c = '_' then readMant base cs { st with underscores := true }
      else if c = '.' then
        if st.sawdot then (st, c :: cs)
        else readMant base cs { st with sawdot := true, dp := st.nd }
      else if isDigit c then
        if c = '0' ∧ st.nd = 0 then
          readMant base cs { st with sawdigits := true, dp := st.dp - 1 }
        else
          readMant base cs
            { st with sawdigits := true, nd := st.nd + 1, mant := st.mant * base + digitVal c }
      else if base = 16 ∧ isHexLetter c then
        readMant base cs
          { st with sawdigits := true, nd := st.nd + 1, mant := st.mant * 16 + hexLetterVal c }
      else (st, c :: cs)

/-- The exponent digit loop of `readFloat`: digits and underscores; the
accumulated exponent stops growing at 10000. -/
def readExpDigits : List Char → Nat → Bool → Nat × Bool × List Char
  | [], e, u => (e, u, [])
  | c :: cs, e, u =>
      if c = '_' then readExpDigits cs e true
      else if isDigit c then readExpDigits cs (if e < 10000 then e * 10 + digitVal c else e) u
      else (e, u, c :: cs)

/-- The scan of `underscoreOK` after the sign and base prefix; `saw` is
`0` at the beginning, `1` after a digit or base prefix, `2` after an
underscore and `3` after anything else. -/
def underscoreScan (hex : Bool) : List Char → Nat → Bool
  | [], saw => saw != 2
  | c :: cs, saw =>
      if isDigit c || (hex && isHexLetter c) then underscoreScan hex cs 1
      else if c = '_' then
        if saw != 1 then false else underscoreScan hex cs 2
      else if saw = 2 then false
      else underscoreScan hex cs 3

/-- Function `underscoreOK` of `strconv`: underscores only separate digits. -/
def underscoreOK (s : List Char) : Bool :=
  let s := match s with
    | c :: t => if c = '-' ∨ c = '+' then t else s
    | [] => s
  match s with
  | a :: b :: t =>
      if a = '0' ∧ (lowerAscii b = 'b' ∨ lowerAscii b = 'o' ∨ lowerAscii b = 'x') then
        underscoreScan (lowerAscii b = 'x') t 1
      else underscoreScan false s 0
  | _ => underscoreScan false s 0

/-- Result of `readFloat`: the number read is `(-1)^neg * mant * B^exp` with
`B = 2` when `hex` and `B = 10` otherwise; `rest` is the unread text. -/
structure ReadFloat where
  mant : Nat
  exp : Int
  neg : Bool
  hex : Bool
  rest : List Char

/-- Function `readFloat` of `strconv`, keeping every digit of the mantissa. -/
def readFloat (s : List Char) : Option ReadFloat :=
  match s with
  | [] => none
  | c0 :: t0 =>
      let neg := decide (c0 = '-')
      let s1 := if c0 = '+' ∨ c0 = '-' then t0 else s
      let hex : Bool := match s1 with
        | a :: b :: _ :: _ => decide (a = '0' ∧ lowerAscii b = 'x')
        | _ => false
      let s2 := if hex then s1.drop 2 else s1
      let base := if hex then 16 else 10
      let (st, s3) := readMant base s2 ⟨false, false, 0, 0, 0, false⟩
      if !st.sawdigits then none
      else
        let dp : Int := if st.sawdot then st.dp else st.nd
        let dp : Int := if hex then dp * 4 else dp
        let ndMant : Int := if hex then (st.nd : Int) * 4 else st.nd
        let expChar := if hex then 'p' else 'e'
        let finish (dp : Int) (u : Bool) (rest : List Char) : Option ReadFloat :=
          if u && !underscoreOK (s.take (s.length - rest.length)) then none
          else some ⟨st.mant, dp - ndMant, neg, hex, rest⟩
        match s3 with
        | c :: s4 =>
            if lowerAscii c = expChar then
              match s4 with
              | [] => none
              | d :: s5 =>
                  let esign : Int := if d = '-' then -1 else 1
                  let s6 := if d = '+' ∨ d = '-' then s5 else s4
                  match s6 with
                  | [] => none
                  | f :: _ =>
                      if !isDigit f then none
                      else
                        let (e, u, rest) := readExpDigits s6 0 st.underscores
                        finish (dp + (e : Int) * esign) u rest
            else if hex then none
            else finish dp st.underscores s3
        | [] => if hex then none else finish dp st.underscores s3

/-- Go `strconv.ParseFloat(s, 64)`: the value and the error.  A well-formed
number yields the nearest float64; one that rounds to an infinity yields that
infinity with `errRange`; anything else yields `0` with `errSyntax`.  Every
digit of the numeral is kept here, while `strconv` keeps the first 800 digits
of a long numeral, so the result can differ from that of Go on numerals with
more than 800 digits. -/
def parseFloat (s : String) : F64 × Option NumError :=
  let synErr : F64 × Option NumError := (F64.fin false 0 0, some NumError.errSyntax)
  match special s.data with
  | some (v, n) => if n = s.data.length then (v, none) else synErr
  | none =>
      match readFloat s.data with
      | none => synErr
      | some r =>
          if r.rest ≠ [] then synErr
          else
            let v :=
              if r.hex then roundDyadic r.neg r.mant r.exp
              else roundNearestEven r.neg (r.mant * 10 ^ r.exp.toNat) (10 ^ (-r.exp).toNat)
            match v with
            | F64.inf _ => (v, some NumError.errRange)
            | _ => (v, none)

/-! ## `time.Parse` for the layouts `2006-01-02` and `15:04` -/

/-- The fields of a Go `time.Time` that the program reads. -/
structure Time where
  year : Nat
  month : Nat
  day : Nat
  hour : Nat
  minute : Nat
deriving DecidableEq

/-- The zero `Time{}`: January 1, year 1, 00:00 UTC.  `time.Parse` returns it
together with every error. -/
def Time.zero : Time := ⟨1, 1, 1, 0, 0⟩

/-- Function `getnum` of package `time`: one or two leading digits, exactly
two when `fixed`. -/
def getnum (s : List Char) (fixed : Bool) : Option (Nat × List Char) :=
  match s with
  | [] => none
  | a :: t =>
      if !isDigit a then none
      else
        match t with
        | [] => if fixed then none else some (digitVal a, t)
        | b :: u =>
            if isDigit b then some (digitVal a * 10 + digitVal b, u)
            else if fixed then none
            else some (digitVal a, t)

/-- Function `isLeap` of package `time`. -/
def isLeap (year : Nat) : Bool :=
  year % 4 == 0 && (year % 100 != 0 || year % 400 == 0)

/-- Function `daysIn` of package `time`. -/
def daysIn (month year : Nat) : Nat :=
  if month = 2 then (if isLeap year then 29 else 28)
  else if month = 4 ∨ month = 6 ∨ month = 9 ∨ month = 11 then 30
  else 31

/-- The successful runs of `time.Parse("2006-01-02", value)`: a four-digit
year, `-`, a two-digit month in `1..12`, `-`, a two-digit day that exists in
that month, and nothing after it. -/
def parseDateFields (value : List Char) : Option Time :=
  match value with
  | y1 :: y2 :: y3 :: y4 :: v1 =>
      if !(isDigit y1 && isDigit y2 && isDigit y3 && isDigit y4) then none
      else
        let year := ((digitVal y1 * 10 + digitVal y2) * 10 + digitVal y3) * 10 + digitVal y4
        match v1 with
        | sep1 :: v2 =>
            if sep1 ≠ '-' then none
            else
              match getnum v2 true with
              | none => none
              | some (month, v3) =>
                  if month = 0 ∨ 12 < month then none
                  else
                    match v3 with
                    | sep2 :: v4 =>
                        if sep2 ≠ '-' then none
                        else
                          match getnum v4 true with
                          | none => none
                          | some (day, v5) =>
                              if v5 ≠ [] then none
                              else if day < 1 ∨ daysIn month year < day then none
                              else some ⟨year, month, day, 0, 0⟩
                    | [] => none
        | [] => none
  | _ => none

/-- The successful runs of `time.Parse("15:04", value)`: a one- or two-digit
hour below 24, `:`, a two-digit minute below 60, and nothing after it.  The
date fields default to January 1 of year 0. -/
def parseClockFields (value : List Char) : Option Time :=
  match getnum value false with
  | none => none
  | some (hour, v1) =>
      if 24 ≤ hour then none
      else
        match v1 with
        | sep :: v2 =>
            if sep ≠ ':' then none
            else
              match getnum v2 true with
              | none => none
              | some (minute, v3) =>
                  if 60 ≤ minute then none
                  else if v3 ≠ [] then none
                  else some ⟨0, 1, 1, hour, minute⟩
        | [] => none

/-- Go `time.Parse("2006-01-02", value)`: the time and whether an error is
returned; with an error the time is `Time{}`. -/
def timeParseDate (value : String) : Time × Bool :=
  match parseDateFields value.data with
  | some t => (t, false)
  | none => (Time.zero, true)

/-- Go `time.Parse("15:04", value)`: the time and whether an error is
returned; with an error the time is `Time{}`. -/
def timeParseClock (value : String) : Time × Bool :=
  match parseClockFields value.data with
  | some t => (t, false)
  | none => (Time.zero, true)

/-! ## `regexp` character classes and `strings.TrimSpace` -/

/-- Class `[a-zA-Z0-9]`. -/
def isAlnum (c : Char) : Bool :=
  decide ((97 ≤ c.toNat ∧ c.toNat ≤ 122) ∨ (65 ≤ c.toNat ∧ c.toNat ≤ 90) ∨
    (48 ≤ c.toNat ∧ c.toNat ≤ 57))

/-- Class `\w` of Go regular expressions: `[0-9A-Za-z_]`. -/
def isWordChar (c : Char) : Bool := isAlnum c || c == '_'

/-- Class `\s` of Go regular expressions: tab, line feed, form feed, carriage
return and space. -/
def isPerlSpace (c : Char) : Bool :=
  decide (c.toNat = 9 ∨ c.toNat = 10 ∨ c.toNat = 12 ∨ c.toNat = 13 ∨ c.toNat = 32)

/-- Class `[\w\s\-&]` of the retailer pattern. -/
def retailerClass (c : Char) : Bool := isWordChar c || isPerlSpace c || c == '-' || c == '&'

/-- Class `[\w\s\-]` of the item description pattern. -/
def descriptionClass (c : Char) : Bool := isWordChar c || isPerlSpace c || c == '-'

/-- `MatchString` for a pattern `^[cls]+$`: the match starts at the beginning
of the text, reads one or more characters of the class and must stop at the
end of the text. -/
def matchClassPlus (cls : Char → Bool) : List Char → Bool
  | [] => false
  | c :: cs => cls c && (cs.isEmpty || matchClassPlus cls cs)

/-- `FindAllString(s, -1)` for a pattern that is one character class: the
successive one-character matches, left to right. -/
def findAllClass (cls : Char → Bool) : List Char → List String
  | [] => []
  | c :: cs => if cls c then String.singleton c :: findAllClass cls cs else findAllClass cls cs

/-- Go `unicode.IsSpace`. -/
def isUnicodeSpace (c : Char) : Bool :=
  decide ((9 ≤ c.toNat ∧ c.toNat ≤ 13) ∨ c.toNat = 32 ∨ c.toNat = 133 ∨ c.toNat = 160 ∨
    c.toNat = 5760 ∨ (8192 ≤ c.toNat ∧ c.toNat ≤ 8202) ∨ c.toNat = 8232 ∨ c.toNat = 8233 ∨
    c.toNat = 8239 ∨ c.toNat = 8287 ∨ c.toNat = 12288)

/-- Go `strings.TrimSpace`: the text without leading and trailing white space. -/
def trimSpace (s : List Char) : List Char :=
  ((s.dropWhile isUnicodeSpace).reverse.dropWhile isUnicodeSpace).reverse

/-- Go `len` of a string: its number of bytes in UTF-8. -/
def byteLen (s : List Char) : Nat := (s.map Char.utf8Size).sum

/-! ## The program -/

/-- Type `Item` of `main.go`. -/
structure Item where
  ShortDescription : String
  Price : String
deriving DecidableEq

/-- Type `Receipt` of `main.go`. -/
structure Receipt where
  Retailer : String
  PurchaseDate : String
  PurchaseTime : String
  Items : List Item
  Total : String
deriving DecidableEq

/-- Body of the loop over the items in `calculatePoints`. -/
def itemStep (points : Int) (item : Item) : Int :=
  let (itemPrice, err) := parseFloat item.Price
  if err ≠ none then points
  else if byteLen (trimSpace item.ShortDescription.data) % 3 = 0 then
    addInt points (F64.toInt (F64.ceil (F64.mul itemPrice F64.oneFifth)))
  else points

/-- Function `calculatePoints` of `main.go`. -/
def calculatePoints (receipt : Receipt) : Int :=
  let points : Int := 0
  let alphaNumericCount := (findAllClass isAlnum receipt.Retailer.data).length
  let points := addInt points alphaNumericCount
  let (totalValue, err) := parseFloat receipt.Total
  let points :=
    if err = none then
      let points :=
        if F64.eq totalValue (F64.ofInt (F64.toInt totalValue)) then addInt points 50
        else points
      if Int.tmod (F64.toInt (F64.mul totalValue F64.hundred)) 25 = 0 then addInt points 25
      else points
    else points
  let points := addInt points (wrapInt (((receipt.Items.length / 2 : Nat) : Int) * 5))
  let points := receipt.Items.foldl itemStep points
  let parsedDate := (timeParseDate receipt.PurchaseDate).1
  let points := if parsedDate.day % 2 = 1 then addInt points 6 else points
  let parsedTime := (timeParseClock receipt.PurchaseTime).1
  let points := if 14 ≤ parsedTime.hour ∧ parsedTime.hour < 16 then addInt points 10 else points
  points

/-- Function `isValidItem` of `main.go`. -/
def isValidItem (item : Item) : Bool :=
  if item.ShortDescription = "" ∨
      ¬ matchClassPlus descriptionClass item.ShortDescription.data = true then false
  else
    let (itemPrice, err) := parseFloat item.Price
    if err ≠ none ∨ F64.leZero itemPrice = true then false
    else true

/-- The loop over the items in `isValidReceipt`. -/
def allItemsValid : List Item → Bool
  | [] => true
  | item :: rest => if !isValidItem item then false else allItemsValid rest

/-- Function `isValidReceipt` of `main.go`. -/
def isValidReceipt (receipt : Receipt) : Bool :=
  if receipt.Retailer = "" ∨ ¬ matchClassPlus retailerClass receipt.Retailer.data = true then false
  else if receipt.Items.length = 0 then false
  else allItemsValid receipt.Items

/-! ## The request handlers -/

/-- A Go string as the handlers see it: a sequence of bytes. -/
abbrev GoString := List Nat

/-- The UTF-8 bytes of one character. -/
def utf8Bytes (c : Char) : List Nat :=
  let v := c.toNat
  if v < 128 then [v]
  else if v < 2048 then [192 + v / 64, 128 + v % 64]
  else if v < 65536 then [224 + v / 4096, 128 + v / 64 % 64, 128 + v % 64]
  else [240 + v / 262144, 128 + v / 4096 % 64, 128 + v / 64 % 64, 128 + v % 64]

/-- The bytes of a text. -/
def goString (s : String) : GoString := s.data.flatMap utf8Bytes

/-- The scan of `strings.LastIndex`: `i` is the index of the first byte of
`s` in the whole text and `acc` the last index before `i` where `sep` starts. -/
def lastIndexFrom (sep : GoString) : GoString → Nat → Int → Int
  | [], i, acc => if sep.isPrefixOf [] then (i : Int) else acc
  | c :: cs, i, acc =>
      lastIndexFrom sep cs (i + 1) (if sep.isPrefixOf (c :: cs) then (i : Int) else acc)

/-- Go `strings.LastIndex(s, sep)`: the index of the last instance of `sep`
in `s`, or `-1` when there is none. -/
def lastIndex (s sep : GoString) : Int := lastIndexFrom sep s 0 (-1)

/-- Go `s[lo:hi]` on a string: the bytes from `lo` up to `hi`, or `none` when
the run-time check `0 <= lo <= hi <= len(s)` fails and the slice expression
panics. -/
def sliceBytes (s : GoString) (lo hi : Int) : Option GoString :=
  if 0 ≤ lo ∧ lo ≤ hi ∧ hi ≤ (s.length : Int) then some ((s.drop lo.toNat).take (hi - lo).toNat)
  else none

/-- The map `receiptStorage`, as the list of its assignments, most recent
first. -/
abbrev Store := List (GoString × Int)

/-- Go `receiptStorage[id]` with the presence flag: the most recent
assignment to `id`. -/
def Store.get (store : Store) (id : GoString) : Option Int := store.lookup id

/-- Go `receiptStorage[id] = points`. -/
def Store.put (store : Store) (id : GoString) (points : Int) : Store := (id, points) :: store

/-- Constant `ErrInvalidReceiptFormat` of `main.go`. -/
def ErrInvalidReceiptFormat : String := "Invalid receipt format"

/-- Constant `ErrInvalidReceiptData` of `main.go`. -/
def ErrInvalidReceiptData : String := "Invalid receipt data"

/-- Constant `ErrReceiptNotFound` of `main.go`. -/
def ErrReceiptNotFound : String := "Receipt not found"

/-- What a handler does with its request: an error written with
`http.Error`, the JSON body with the new identifier, the JSON body with the
points, or a run-time failure of the slice expression. -/
inductive Outcome where
  | httpError (message : String) (status : Nat) : Outcome
  | jsonId (id : GoString) : Outcome
  | jsonPoints (points : Int) : Outcome
  | sliceOutOfRange : Outcome
deriving DecidableEq

/-- Function `processReceiptHandler` of `main.go`.  `body` is the result of
decoding the request body (`none` when the decoder returns an error) and
`newId` the text that `uuid.New().String()` returns. -/
def processReceiptHandler (store : Store) (body : Option Receipt) (newId : GoString) :
    Store × Outcome :=
  match body with
  | none => (store, Outcome.httpError ErrInvalidReceiptFormat 400)
  | some receipt =>
      if !isValidReceipt receipt then (store, Outcome.httpError ErrInvalidReceiptData 400)
      else
        let points := calculatePoints receipt
        let id := newId
        (store.put id points, Outcome.jsonId id)

/-- Function `getPointsHandler` of `main.go`; `path` is `r.URL.Path`. -/
def getPointsHandler (store : Store) (path : GoString) : Store × Outcome :=
  match sliceBytes path ((goString "/receipts/").length : Int)
      (lastIndex path (goString "/points")) with
  | none => (store, Outcome.sliceOutOfRange)
  | some id =>
      match store.get id with
      | none => (store, Outcome.httpError ErrReceiptNotFound 404)
      | some points => (store, Outcome.jsonPoints points)

/-- The store after a run of `processReceiptHandler` calls on the empty map,
the most recent request first. -/
def storeAfter : List (Option Receipt × GoString) → Store
  | [] => []
  | (body, newId) :: earlier => (processReceiptHandler (storeAfter earlier) body newId).1

/-! ## Sample receipts -/

/-- A receipt from a store called Target, with five items. -/
def targetReceipt : Receipt :=
  ⟨"Target", "2022-01-01", "13:01",
    [⟨"Mountain Dew 12PK", "6.49"⟩, ⟨"Emils Cheese Pizza", "12.25"⟩,
      ⟨"Knorr Creamy Chicken", "1.26"⟩, ⟨"Doritos Nacho Cheese", "3.35"⟩,
      ⟨"   Klarbrunn 12-PK 12 FL OZ  ", "12.00"⟩], "35.35"⟩

/-- A receipt from a corner market, with four equal items and a round total. -/
def cornerMarketReceipt : Receipt :=
  ⟨"M&M Corner Market", "2022-03-20", "14:33",
    [⟨"Gatorade", "2.25"⟩, ⟨"Gatorade", "2.25"⟩, ⟨"Gatorade", "2.25"⟩, ⟨"Gatorade", "2.25"⟩],
    "9.00"⟩

/-- A receipt with two items priced at `5 * 2^62`. -/
def hugePriceReceipt : Receipt :=
  ⟨"Target", "2022-01-02", "13:01",
    [⟨"abc", "23058430092136939520"⟩, ⟨"abc", "23058430092136939520"⟩], "1.00"⟩

/-- A receipt that passes validation and scores three points below the
largest `int`: its first item is priced at `5 * (2^63 - 1024)`. -/
def edgeReceipt : Receipt :=
  ⟨"Target", "2022-01-02", "13:01",
    [⟨"abc", "46116860184273873920"⟩, ⟨"abc", "4670.00"⟩], "1.00"⟩

/-! ## The rules of `calculatePoints`, one contribution each -/

/-- Rule R1: what `points += alphaNumericCount` adds. -/
def pointsRetailer (receipt : Receipt) : Int :=
  ((findAllClass isAlnum receipt.Retailer.data).length : Int)

/-- Rule R2: what the first test on the parsed total adds. -/
def pointsRoundTotal (receipt : Receipt) : Int :=
  let (totalValue, err) := parseFloat receipt.Total
  if err = none ∧ F64.eq totalValue (F64.ofInt (F64.toInt totalValue)) = true then 50 else 0

/-- Rule R3: what the second test on the parsed total adds. -/
def pointsQuarterTotal (receipt : Receipt) : Int :=
  let (totalValue, err) := parseFloat receipt.Total
  if err = none ∧ Int.tmod (F64.toInt (F64.mul totalValue F64.hundred)) 25 = 0 then 25 else 0

/-- Rule R4: what `points += (len(receipt.Items) / 2) * 5` adds. -/
def pointsItemCount (receipt : Receipt) : Int :=
  ((receipt.Items.length / 2 : Nat) : Int) * 5

/-- Rule R5 for one item: what one round of the loop adds. -/
def itemPoints (item : Item) : Int :=
  let (itemPrice, err) := parseFloat item.Price
  if err ≠ none then 0
  else if byteLen (trimSpace item.ShortDescription.data) % 3 = 0 then
    F64.toInt (F64.ceil (F64.mul itemPrice F64.oneFifth))
  else 0

/-- Rule R5: what the loop over the items adds. -/
def pointsItems (receipt : Receipt) : Int := (receipt.Items.map itemPoints).sum

/-- Rule R6: what the test on the day of the parsed date adds. -/
def pointsDate (receipt : Receipt) : Int :=
  if (timeParseDate receipt.PurchaseDate).1.day % 2 = 1 then 6 else 0

/-- Rule R7: what the test on the hour of the parsed time adds. -/
def pointsTime (receipt : Receipt) : Int :=
  let parsedTime := (timeParseClock receipt.PurchaseTime).1
  if 14 ≤ parsedTime.hour ∧ parsedTime.hour < 16 then 10 else 0

/-- The sum of the seven contributions as a mathematical integer. -/
def exactPoints (receipt : Receipt) : Int :=
  pointsRetailer receipt + pointsRoundTotal receipt + pointsQuarterTotal receipt +
    pointsItemCount receipt + pointsItems receipt + pointsDate receipt + pointsTime receipt

/-! ## The numbers float64 values stand for -/

namespace F64

/-- Whether a float64 is a finite number. -/
def isFinite : F64 → Bool
  | fin _ _ _ => true
  | _ => false

/-- The rational number a finite float64 stands for (`0` for NaN and the
infinities, which stand for no number). -/
def toRat : F64 → ℚ
  | fin neg m e => (if neg then -1 else 1) * (m : ℚ) * (2 : ℚ) ^ e
  | _ => 0

/-- A float64 that is a whole number: finite, with an integer value. -/
def IsWhole (x : F64) : Prop := x.isFinite = true ∧ ∃ n : ℤ, x.toRat = (n : ℚ)

/-- Whether `int(x)` is defined by the language: `x` is finite and its
integer part lies in the range of `int`. -/
def fitsInt : F64 → Bool
  | fin neg m e => decide (minInt ≤ truncFin neg m e ∧ truncFin neg m e ≤ maxInt)
  | _ => false

end F64

/-- A number that a float64 can hold: at most 53 significant bits above the
smallest exponent. -/
def Representable (x : ℚ) : Prop :=
  ∃ a : ℕ, ∃ k : ℤ, a < 2 ^ 53 ∧ -1074 ≤ k ∧ x = (a : ℚ) * (2 : ℚ) ^ k

/-- The number that a text of decimal digits denotes. -/
def decimalValue (ds : List Char) : Nat := ds.foldl (fun a c => a * 10 + digitVal c) 0

/-! ## Arithmetic of `int` -/

theorem wrapInt_add_left (a b : Int) : wrapInt (wrapInt a + b) = wrapInt (a + b) := by
  unfold wrapInt
  omega

theorem wrapInt_add_right (a b : Int) : wrapInt (a + wrapInt b) = wrapInt (a + b) := by
  unfold wrapInt
  omega

theorem wrapInt_idem (a : Int) : wrapInt (wrapInt a) = wrapInt a := by
  unfold wrapInt
  omega

theorem wrapInt_of_range {a : Int} (h1 : minInt ≤ a) (h2 : a ≤ maxInt) : wrapInt a = a := by
  unfold minInt at h1
  unfold maxInt at h2
  unfold wrapInt
  omega

theorem wrapInt_range (a : Int) : minInt ≤ wrapInt a ∧ wrapInt a ≤ maxInt := by
  unfold minInt maxInt wrapInt
  omega

theorem addInt_wrapInt (a b : Int) : addInt (wrapInt a) b = wrapInt (a + b) := by
  unfold addInt
  exact wrapInt_add_left a b

/-! ## Patterns and trimming -/

theorem matchClassPlus_iff (cls : Char → Bool) (s : List Char) :
    matchClassPlus cls s = true ↔ s ≠ [] ∧ ∀ c ∈ s, cls c = true := by
  induction s with
  | nil => simp [matchClassPlus]
  | cons c cs ih =>
      cases cs with
      | nil => simp [matchClassPlus]
      | cons d ds =>
          rw [matchClassPlus]
          simp only [Bool.and_eq_true, Bool.or_eq_true, ih]
          simp

theorem string_eq_empty_iff (s : String) : s = "" ↔ s.data = [] := by
  constructor
  · intro h
    rw [h]
  · intro h
    cases s
    simp_all

theorem allItemsValid_iff (items : List Item) :
    allItemsValid items = true ↔ ∀ item ∈ items, isValidItem item = true := by
  induction items with
  | nil => simp [allItemsValid]
  | cons a l ih =>
      rw [allItemsValid]
      by_cases h : isValidItem a = true
      · simp [h, ih]
      · simp [h]

/-! ## `calculatePoints` as the wrapped sum of its rules -/

theorem step_if_wrapInt (c : Prop) [Decidable c] (a k : Int) :
    (if c then addInt (wrapInt a) k else wrapInt a) = wrapInt (a + if c then k else 0) := by
  by_cases h : c
  · simp [h, addInt_wrapInt]
  · simp [h]

theorem itemStep_wrapInt (a : Int) (item : Item) :
    itemStep (wrapInt a) item = wrapInt (a + itemPoints item) := by
  unfold itemStep itemPoints
  rcases parseFloat item.Price with ⟨v, err⟩
  by_cases h1 : err ≠ none
  · simp [h1]
  · by_cases h2 : byteLen (trimSpace item.ShortDescription.data) % 3 = 0
    · simp [h1, h2, addInt_wrapInt]
    · simp [h1, h2]

theorem foldl_itemStep (items : List Item) (a : Int) :
    items.foldl itemStep (wrapInt a) = wrapInt (a + (items.map itemPoints).sum) := by
  induction items generalizing a with
  | nil => simp
  | cons item rest ih =>
      rw [List.foldl_cons, itemStep_wrapInt, ih, List.map_cons, List.sum_cons, add_assoc]

theorem calculatePoints_eq_wrapInt (receipt : Receipt) :
    calculatePoints receipt = wrapInt (exactPoints receipt) := by
  unfold calculatePoints exactPoints pointsRetailer pointsRoundTotal pointsQuarterTotal
    pointsItemCount pointsItems pointsDate pointsTime
  rcases parseFloat receipt.Total with ⟨v, err⟩
  simp only []
  have h0 : addInt 0 ((findAllClass isAlnum receipt.Retailer.data).length : Int) =
      wrapInt ((findAllClass isAlnum receipt.Retailer.data).length : Int) := by
    simp [addInt]
  rw [h0]
  by_cases herr : err = none
  · simp only [herr, true_and, if_true]
    rw [step_if_wrapInt, step_if_wrapInt, addInt_wrapInt, wrapInt_add_right, foldl_itemStep,
      step_if_wrapInt, step_if_wrapInt]
  · simp only [herr, false_and, if_false]
    rw [addInt_wrapInt, wrapInt_add_right, foldl_itemStep, step_if_wrapInt, step_if_wrapInt]
    simp

/-! ## Binary logarithm and scaling -/

theorem bitLenAux_zero (fuel : Nat) : bitLenAux fuel 0 = 0 := by
  cases fuel <;> simp [bitLenAux]

theorem bitLenAux_spec (fuel : Nat) : ∀ n : Nat, n ≤ fuel → 0 < n →
    2 ^ (bitLenAux fuel n - 1) ≤ n ∧ n < 2 ^ bitLenAux fuel n := by
  induction fuel with
  | zero =>
      intro n h1 h2
      omega
  | succ fuel ih =>
      intro n h1 h2
      have hn : n ≠ 0 := by omega
      rw [bitLenAux, if_neg hn]
      by_cases h : n / 2 = 0
      · rw [h, bitLenAux_zero]
        have : n = 1 := by omega
        subst this
        simp
      · have ih2 := ih (n / 2) (by omega) (by omega)
        have hb : 0 < bitLenAux fuel (n / 2) := by
          by_contra hb
          have : bitLenAux fuel (n / 2) = 0 := by omega
          rw [this] at ih2
          simp at ih2
          omega
        obtain ⟨b, hb2⟩ : ∃ b, bitLenAux fuel (n / 2) = b + 1 := ⟨_, (Nat.succ_pred_eq_of_pos hb).symm⟩
        rw [hb2] at ih2 ⊢
        simp only [Nat.add_sub_cancel] at ih2 ⊢
        rw [pow_succ] at ih2 ⊢
        rw [pow_succ]
        omega

theorem bitLen_spec (n : Nat) (h : 0 < n) : 2 ^ (bitLen n - 1) ≤ n ∧ n < 2 ^ bitLen n :=
  bitLenAux_spec n n le_rfl h

theorem bitLen_pos (n : Nat) (h : 0 < n) : 0 < bitLen n := by
  by_contra hb
  have h0 : bitLen n = 0 := by omega
  have := (bitLen_spec n h).2
  rw [h0] at this
  omega

theorem scaleDen_pos (d : Nat) (q : Int) (hd : 0 < d) : 0 < scaleDen d q := by
  unfold scaleDen
  split_ifs
  · positivity
  · exact hd

theorem scale_div (n d : Nat) (q : Int) :
    ((scaleNum n q : ℚ) / (scaleDen d q : ℚ)) = (n : ℚ) / (d : ℚ) / (2 : ℚ) ^ q := by
  unfold scaleNum scaleDen
  by_cases h : 0 ≤ q
  · rw [if_pos h, if_pos h]
    have : ((2 : ℚ) ^ q) = (2 : ℚ) ^ q.toNat := by
      rw [← zpow_natCast, Int.toNat_of_nonneg h]
    rw [this]
    push_cast
    rw [div_div]
  · rw [if_neg h, if_neg h]
    have h2 : 0 ≤ -q := by omega
    have : ((2 : ℚ) ^ q) = ((2 : ℚ) ^ (-q).toNat)⁻¹ := by
      rw [← zpow_natCast, Int.toNat_of_nonneg h2, zpow_neg, inv_inv]
    rw [this]
    push_cast
    field_simp

theorem scale_le_iff (n d : Nat) (q : Int) (hd : 0 < d) :
    scaleDen d q ≤ scaleNum n q ↔ (2 : ℚ) ^ q ≤ (n : ℚ) / (d : ℚ) := by
  have hpos : (0 : ℚ) < scaleDen d q := by exact_mod_cast scaleDen_pos d q hd
  have h2 : (0 : ℚ) < (2 : ℚ) ^ q := by positivity
  rw [← Nat.cast_le (α := ℚ), ← one_le_div hpos, scale_div, one_le_div h2]

theorem floorLog2_spec (n d : Nat) (hn : 0 < n) (hd : 0 < d) :
    (2 : ℚ) ^ floorLog2 n d ≤ (n : ℚ) / d ∧ (n : ℚ) / d < (2 : ℚ) ^ (floorLog2 n d + 1) := by
  have hbn := bitLen_spec n hn
  have hbd := bitLen_spec d hd
  have pn := bitLen_pos n hn
  have pd := bitLen_pos d hd
  have hdq : (0 : ℚ) < d := by exact_mod_cast hd
  -- rational bounds
  have n_lo : (2 : ℚ) ^ ((bitLen n : ℤ) - 1) ≤ n := by
    have : ((bitLen n : ℤ) - 1) = ((bitLen n - 1 : ℕ) : ℤ) := by omega
    rw [this, zpow_natCast]
    exact_mod_cast hbn.1
  have n_hi : (n : ℚ) < (2 : ℚ) ^ (bitLen n : ℤ) := by
    rw [zpow_natCast]
    exact_mod_cast hbn.2
  have d_lo : (2 : ℚ) ^ ((bitLen d : ℤ) - 1) ≤ d := by
    have : ((bitLen d : ℤ) - 1) = ((bitLen d - 1 : ℕ) : ℤ) := by omega
    rw [this, zpow_natCast]
    exact_mod_cast hbd.1
  have d_hi : (d : ℚ) < (2 : ℚ) ^ (bitLen d : ℤ) := by
    rw [zpow_natCast]
    exact_mod_cast hbd.2
  have two_pos : ∀ k : ℤ, (0 : ℚ) < (2 : ℚ) ^ k := fun k => by positivity
  have upper : (n : ℚ) / d < (2 : ℚ) ^ ((bitLen n : ℤ) - (bitLen d : ℤ) + 1) := by
    rw [div_lt_iff₀ hdq]
    calc (n : ℚ) < (2 : ℚ) ^ (bitLen n : ℤ) := n_hi
      _ = (2 : ℚ) ^ ((bitLen n : ℤ) - (bitLen d : ℤ) + 1) * (2 : ℚ) ^ ((bitLen d : ℤ) - 1) := by
          rw [← zpow_add₀ (by norm_num : (2 : ℚ) ≠ 0)]
          congr 1
          ring
      _ ≤ (2 : ℚ) ^ ((bitLen n : ℤ) - (bitLen d : ℤ) + 1) * d :=
          mul_le_mul_of_nonneg_left d_lo (two_pos _).le
  have lower : (2 : ℚ) ^ ((bitLen n : ℤ) - (bitLen d : ℤ) - 1) ≤ (n : ℚ) / d := by
    rw [le_div_iff₀ hdq]
    calc (2 : ℚ) ^ ((bitLen n : ℤ) - (bitLen d : ℤ) - 1) * d
        ≤ (2 : ℚ) ^ ((bitLen n : ℤ) - (bitLen d : ℤ) - 1) * (2 : ℚ) ^ (bitLen d : ℤ) :=
          mul_le_mul_of_nonneg_left d_hi.le (two_pos _).le
      _ = (2 : ℚ) ^ ((bitLen n : ℤ) - 1) := by
          rw [← zpow_add₀ (by norm_num : (2 : ℚ) ≠ 0)]
          congr 1
          ring
      _ ≤ n := n_lo
  unfold floorLog2
  simp only []
  split_ifs with h
  · exact ⟨(scale_le_iff n d _ hd).mp h, upper⟩
  · refine ⟨lower, ?_⟩
    rw [scale_le_iff n d _ hd, not_le] at h
    simpa using h

/-! ## Rounding to float64 -/

theorem two_zpow_pos (k : ℤ) : (0 : ℚ) < (2 : ℚ) ^ k := by positivity

theorem round_quotient_lt (n d : Nat) (hn : 0 < n) (hd : 0 < d) (q : ℤ)
    (hq : floorLog2 n d - 52 ≤ q) : scaleNum n q / scaleDen d q < 2 ^ 53 := by
  have hs := floorLog2_spec n d hn hd
  have hden : (0 : ℚ) < scaleDen d q := by exact_mod_cast scaleDen_pos d q hd
  have h1 : ((scaleNum n q / scaleDen d q : ℕ) : ℚ) ≤ (scaleNum n q : ℚ) / (scaleDen d q : ℚ) :=
    Nat.cast_div_le
  rw [scale_div] at h1
  have h2 : (n : ℚ) / d / (2 : ℚ) ^ q < (2 : ℚ) ^ (53 : ℤ) := by
    rw [div_lt_iff₀ (two_zpow_pos q)]
    calc (n : ℚ) / d < (2 : ℚ) ^ (floorLog2 n d + 1) := hs.2
      _ ≤ (2 : ℚ) ^ (53 + q) := zpow_le_zpow_right₀ (by norm_num) (by omega)
      _ = (2 : ℚ) ^ (53 : ℤ) * (2 : ℚ) ^ q := zpow_add₀ (by norm_num) _ _
  have h3 : ((scaleNum n q / scaleDen d q : ℕ) : ℚ) < (2 : ℚ) ^ (53 : ℤ) := lt_of_le_of_lt h1 h2
  have h4 : ((2 : ℚ) ^ (53 : ℤ)) = ((2 ^ 53 : ℕ) : ℚ) := by norm_num
  rw [h4] at h3
  exact_mod_cast h3

theorem lastPlace_ge (n d : Nat) : floorLog2 n d - 52 ≤ lastPlace n d ∧ -1074 ≤ lastPlace n d := by
  unfold lastPlace
  omega

theorem roundedMant_le (n d : Nat) (hn : 0 < n) (hd : 0 < d) :
    roundedMant n d (lastPlace n d) ≤ 2 ^ 53 := by
  have h := round_quotient_lt n d hn hd _ (lastPlace_ge n d).1
  unfold roundedMant
  simp only []
  split_ifs <;> omega

theorem roundNearestEven_wf (neg : Bool) (n d : Nat) (hd : 0 < d) (s : Bool) (m : Nat) (q : ℤ)
    (h : roundNearestEven neg n d = F64.fin s m q) :
    s = neg ∧ m ≤ 2 ^ 53 ∧ (m = 0 ∨ -1074 ≤ q) ∧ (q = 971 → m < 2 ^ 53) := by
  unfold roundNearestEven at h
  by_cases hn : n = 0
  · rw [if_pos hn] at h
    injection h with h1 h2 h3
    subst h1 h2 h3
    simp
  · rw [if_neg hn] at h
    by_cases h1 : 1023 < floorLog2 n d
    · rw [if_pos h1] at h
      exact F64.noConfusion h
    · rw [if_neg h1] at h
      by_cases h2 : lastPlace n d = 971 ∧ 2 ^ 53 ≤ roundedMant n d (lastPlace n d)
      · rw [if_pos h2] at h
        exact F64.noConfusion h
      · rw [if_neg h2] at h
        injection h with ha hb hc
        have hle := roundedMant_le n d (Nat.pos_of_ne_zero hn) hd
        subst ha hb hc
        refine ⟨rfl, hle, Or.inr (lastPlace_ge n d).2, ?_⟩
        intro h971
        by_contra hcon
        exact h2 ⟨h971, by omega⟩

/-- Rounding a representable number below `2^1024` returns it unchanged. -/
theorem roundNearestEven_exact (neg : Bool) (n d : Nat) (hd : 0 < d)
    (hrep : Representable ((n : ℚ) / d)) (hlt : (n : ℚ) / d < (2 : ℚ) ^ (1024 : ℤ)) :
    ∃ m q, roundNearestEven neg n d = F64.fin neg m q ∧ (m : ℚ) * (2 : ℚ) ^ q = (n : ℚ) / d := by
  by_cases hn : n = 0
  · refine ⟨0, 0, ?_, ?_⟩
    · unfold roundNearestEven
      rw [if_pos hn]
    · simp [hn]
  · have hn0 : 0 < n := Nat.pos_of_ne_zero hn
    obtain ⟨a, k, ha, hk, hx⟩ := hrep
    have hs := floorLog2_spec n d hn0 hd
    have two1 : (1 : ℚ) < 2 := by norm_num
    have two0 : (2 : ℚ) ≠ 0 := by norm_num
    -- the exponent is in range
    have he : ¬ 1023 < floorLog2 n d := by
      intro hcon
      have := lt_of_le_of_lt hs.1 hlt
      rw [zpow_lt_zpow_iff_right₀ two1] at this
      omega
    -- the last place is not above the exponent of the representation
    have hek : floorLog2 n d < 53 + k := by
      have h1 : (2 : ℚ) ^ floorLog2 n d < (2 : ℚ) ^ (53 + k) := by
        calc (2 : ℚ) ^ floorLog2 n d ≤ (n : ℚ) / d := hs.1
          _ = (a : ℚ) * (2 : ℚ) ^ k := hx
          _ < ((2 ^ 53 : ℕ) : ℚ) * (2 : ℚ) ^ k := by
              apply mul_lt_mul_of_pos_right _ (two_zpow_pos k)
              exact_mod_cast ha
          _ = (2 : ℚ) ^ (53 + k) := by
              rw [zpow_add₀ two0]
              norm_num
      exact (zpow_lt_zpow_iff_right₀ two1).mp h1
    have hqk : lastPlace n d ≤ k := by
      unfold lastPlace
      omega
    set q := lastPlace n d with hq
    -- the scaled quotient is a natural number
    obtain ⟨j, hj⟩ : ∃ j : ℕ, k - q = (j : ℤ) := ⟨(k - q).toNat, by omega⟩
    have hden : 0 < scaleDen d q := scaleDen_pos d q hd
    have hdenq : (0 : ℚ) < scaleDen d q := by exact_mod_cast hden
    have hy : (scaleNum n q : ℚ) / (scaleDen d q : ℚ) = ((a * 2 ^ j : ℕ) : ℚ) := by
      rw [scale_div, hx]
      have : k = q + j := by omega
      rw [this, zpow_add₀ two0, zpow_natCast]
      push_cast
      field_simp
      ring
    have hnum : scaleNum n q = a * 2 ^ j * scaleDen d q := by
      rw [div_eq_iff hdenq.ne'] at hy
      exact_mod_cast hy
    have hdiv : scaleNum n q / scaleDen d q = a * 2 ^ j := by
      rw [hnum]
      exact Nat.mul_div_cancel _ hden
    have hmod : scaleNum n q % scaleDen d q = 0 := by
      rw [hnum]
      exact Nat.mul_mod_left _ _
    have hmant : roundedMant n d q = a * 2 ^ j := by
      unfold roundedMant
      simp only [hmod, hdiv]
      rw [if_neg]
      rintro (h | ⟨h, _⟩) <;> omega
    have hbound : a * 2 ^ j < 2 ^ 53 := by
      rw [← hdiv]
      exact round_quotient_lt n d hn0 hd q (lastPlace_ge n d).1
    refine ⟨a * 2 ^ j, q, ?_, ?_⟩
    · unfold roundNearestEven
      rw [if_neg hn, if_neg he, ← hq, hmant, if_neg]
      rintro ⟨_, h⟩
      omega
    · rw [hx]
      have : k = q + j := by omega
      rw [this, zpow_add₀ two0, zpow_natCast]
      push_cast
      ring

/-! ## Values of float64 operations -/

theorem toRat_fin (neg : Bool) (m : Nat) (e : ℤ) :
    F64.toRat (F64.fin neg m e) = (if neg then -1 else 1) * (m : ℚ) * (2 : ℚ) ^ e := rfl

theorem toRat_fin_split (neg : Bool) (m : Nat) (e t : ℤ) (h : t ≤ e) :
    F64.toRat (F64.fin neg m e) =
      (if neg then -1 else 1) * ((m * 2 ^ (e - t).toNat : ℕ) : ℚ) * (2 : ℚ) ^ t := by
  rw [toRat_fin]
  have : e = t + ((e - t).toNat : ℤ) := by omega
  conv_lhs => rw [this]
  rw [zpow_add₀ (by norm_num : (2 : ℚ) ≠ 0), zpow_natCast]
  push_cast
  ring

theorem signed_nat_eq_iff (a b : Bool) (M K : ℕ) :
    ((M == 0 && K == 0) || (a == b && M == K)) = true ↔
      (if a then -1 else 1) * (M : ℚ) = (if b then -1 else 1) * (K : ℚ) := by
  have hMq : (0 : ℚ) ≤ M := Nat.cast_nonneg M
  have hKq : (0 : ℚ) ≤ K := Nat.cast_nonneg K
  simp only [Bool.or_eq_true, Bool.and_eq_true, beq_iff_eq]
  cases a <;> cases b <;> simp
  · intro h1 h2
    rw [h1, h2]
  · constructor
    · rintro ⟨h1, h2⟩
      rw [h1, h2]
      simp
    · intro h
      have h1 : (M : ℚ) = 0 := by linarith
      have h2 : (K : ℚ) = 0 := by linarith
      exact ⟨by exact_mod_cast h1, by exact_mod_cast h2⟩
  · constructor
    · rintro ⟨h1, h2⟩
      rw [h1, h2]
      simp
    · intro h
      have h1 : (M : ℚ) = 0 := by linarith
      have h2 : (K : ℚ) = 0 := by linarith
      exact ⟨by exact_mod_cast h1, by exact_mod_cast h2⟩
  · intro h1 h2
    rw [h1, h2]

theorem F64.eq_fin_iff (a b : Bool) (m k : Nat) (e f : ℤ) :
    F64.eq (F64.fin a m e) (F64.fin b k f) = true ↔
      F64.toRat (F64.fin a m e) = F64.toRat (F64.fin b k f) := by
  rw [toRat_fin_split a m e (min e f) (min_le_left _ _),
    toRat_fin_split b k f (min e f) (min_le_right _ _)]
  have hpos : (2 : ℚ) ^ (min e f) ≠ 0 := (two_zpow_pos _).ne'
  rw [mul_left_inj' hpos, ← signed_nat_eq_iff]
  have h0 : ∀ (x i : ℕ), (x * 2 ^ i == 0) = (x == 0) := by
    intro x i
    rw [Bool.eq_iff_iff]
    simp
  rw [h0, h0]
  rfl

theorem truncFin_cast_of_nonneg (neg : Bool) (m : Nat) (e : ℤ) (h : 0 ≤ e) :
    ((F64.truncFin neg m e : ℤ) : ℚ) = F64.toRat (F64.fin neg m e) := by
  rw [toRat_fin]
  unfold F64.truncFin
  simp only [if_pos h]
  have : (2 : ℚ) ^ e = (2 : ℚ) ^ e.toNat := by
    rw [← zpow_natCast, Int.toNat_of_nonneg h]
  rw [this]
  cases neg <;> simp

theorem truncFin_of_whole (neg : Bool) (m : Nat) (e : ℤ) (z : ℤ)
    (h : F64.toRat (F64.fin neg m e) = (z : ℚ)) : F64.truncFin neg m e = z := by
  by_cases he : 0 ≤ e
  · have := truncFin_cast_of_nonneg neg m e he
    rw [h] at this
    exact_mod_cast this
  · rw [toRat_fin] at h
    have h2 : 0 ≤ -e := by omega
    have hp : ((2 : ℚ) ^ e) = ((2 : ℚ) ^ (-e).toNat)⁻¹ := by
      rw [← zpow_natCast, Int.toNat_of_nonneg h2, zpow_neg, inv_inv]
    rw [hp] at h
    set D := 2 ^ (-e).toNat with hD
    have hDpos : 0 < D := by positivity
    have hDq : ((2 : ℚ) ^ (-e).toNat) = (D : ℚ) := by
      rw [hD]
      push_cast
      rfl
    rw [hDq] at h
    have hDq0 : (D : ℚ) ≠ 0 := by exact_mod_cast hDpos.ne'
    unfold F64.truncFin
    simp only [if_neg he, ← hD]
    cases neg
    · simp only [Bool.false_eq_true, if_false, one_mul] at h ⊢
      have h3 : (m : ℚ) = (z : ℚ) * D := by
        field_simp at h
        exact h
      have h4 : (m : ℤ) = z * (D : ℤ) := by exact_mod_cast h3
      rw [Int.natCast_div, h4]
      exact Int.mul_ediv_cancel _ (by exact_mod_cast hDpos.ne')
    · simp only [if_true] at h ⊢
      have h3 : (m : ℚ) = (-z : ℚ) * D := by
        field_simp at h
        linarith
      have h4 : (m : ℤ) = (-z) * (D : ℤ) := by exact_mod_cast h3
      rw [Int.natCast_div, h4, Int.mul_ediv_cancel _ (by exact_mod_cast hDpos.ne')]
      ring

theorem scaleDen_one_of_neg (q : ℤ) (h : ¬ 0 ≤ q) : scaleDen 1 q = 1 := by
  unfold scaleDen
  rw [if_neg h]

theorem ofInt_whole (z : ℤ) (b : Bool) (k : Nat) (f : ℤ) (h : F64.ofInt z = F64.fin b k f) :
    ∃ w : ℤ, F64.toRat (F64.fin b k f) = (w : ℚ) := by
  by_cases hf : 0 ≤ f
  · exact ⟨F64.truncFin b k f, (truncFin_cast_of_nonneg b k f hf).symm⟩
  · unfold F64.ofInt roundNearestEven at h
    split_ifs at h with h1 h2 h3
    · injection h with _ _ hc
      omega
    · injection h with ha hb hc
      rw [hc] at hb
      have hk : k = z.natAbs * 2 ^ (-f).toNat := by
        rw [← hb]
        unfold roundedMant
        simp only [scaleDen_one_of_neg f hf, Nat.mod_one, Nat.div_one]
        rw [if_neg (by omega)]
        unfold scaleNum
        rw [if_neg hf]
      refine ⟨(if b then -1 else 1) * (z.natAbs : ℤ), ?_⟩
      rw [toRat_fin, hk]
      have h2 : 0 ≤ -f := by omega
      have hp : ((2 : ℚ) ^ f) = ((2 : ℚ) ^ (-f).toNat)⁻¹ := by
        rw [← zpow_natCast, Int.toNat_of_nonneg h2, zpow_neg, inv_inv]
      rw [hp]
      push_cast
      have : ((2 : ℚ) ^ (-f).toNat) ≠ 0 := by positivity
      cases b <;> field_simp <;> simp [Nat.cast_natAbs]

theorem ofInt_exact (z : ℤ) (hrep : Representable |(z : ℚ)|)
    (hlt : |(z : ℚ)| < (2 : ℚ) ^ (1024 : ℤ)) :
    ∃ m q, F64.ofInt z = F64.fin (decide (z < 0)) m q ∧
      F64.toRat (F64.fin (decide (z < 0)) m q) = (z : ℚ) := by
  have hcast : ((z.natAbs : ℕ) : ℚ) / ((1 : ℕ) : ℚ) = |(z : ℚ)| := by
    rw [Nat.cast_one, div_one, Nat.cast_natAbs, Int.cast_abs]
  obtain ⟨m, q, h1, h2⟩ := roundNearestEven_exact (decide (z < 0)) z.natAbs 1 one_pos
    (by rw [hcast]; exact hrep) (by rw [hcast]; exact hlt)
  refine ⟨m, q, h1, ?_⟩
  rw [toRat_fin, mul_assoc, h2, hcast]
  by_cases hz : z < 0
  · have : (z : ℚ) < 0 := by exact_mod_cast hz
    simp [hz, abs_of_neg this]
  · have : (0 : ℚ) ≤ z := by exact_mod_cast (not_lt.mp hz)
    simp [hz, abs_of_nonneg this]

theorem special_not_finite (s : List Char) (v : F64) (n : Nat) (h : special s = some (v, n)) :
    v.isFinite = false := by
  unfold special at h
  cases s with
  | nil => simp at h
  | cons c t =>
      simp only [] at h
      split_ifs at h <;> simp at h <;> (obtain ⟨h1, _⟩ := h; rw [← h1]; rfl)

theorem roundDyadic_wf (neg : Bool) (a : Nat) (k : ℤ) (s : Bool) (m : Nat) (q : ℤ)
    (h : roundDyadic neg a k = F64.fin s m q) :
    s = neg ∧ m ≤ 2 ^ 53 ∧ (m = 0 ∨ -1074 ≤ q) ∧ (q = 971 → m < 2 ^ 53) :=
  roundNearestEven_wf neg _ _ (by positivity) s m q h

theorem parseFloat_wf (t : String) (neg : Bool) (m : Nat) (e : ℤ) (err : Option NumError)
    (h : parseFloat t = (F64.fin neg m e, err)) : m ≤ 2 ^ 53 ∧ (m = 0 ∨ -1074 ≤ e) := by
  unfold parseFloat at h
  simp only [] at h
  cases hs : special t.data with
  | some p =>
      obtain ⟨v, n⟩ := p
      have hv := special_not_finite _ _ _ hs
      rw [hs] at h
      simp only [] at h
      split_ifs at h
      · injection h with h1 _
        rw [h1] at hv
        exact Bool.noConfusion hv
      · injection h with h1 _
        injection h1 with _ hm _
        rw [← hm]
        simp
  | none =>
      rw [hs] at h
      simp only [] at h
      cases hr : readFloat t.data with
      | none =>
          rw [hr] at h
          injection h with h1 _
          injection h1 with _ hm _
          rw [← hm]
          simp
      | some r =>
          rw [hr] at h
          simp only [] at h
          split_ifs at h with h1 h2
          · injection h with h1 _
            injection h1 with _ hm _
            rw [← hm]
            simp
          · cases hv : roundDyadic r.neg r.mant r.exp with
            | nan => rw [hv] at h; simp at h
            | inf b => rw [hv] at h; simp at h
            | fin s k f =>
                rw [hv] at h
                simp only [] at h
                injection h with h3 _
                injection h3 with _ hm he
                have := roundDyadic_wf _ _ _ _ _ _ hv
                rw [← hm, ← he]
                exact ⟨this.2.1, this.2.2.1⟩
          · cases hv : roundNearestEven r.neg (r.mant * 10 ^ r.exp.toNat) (10 ^ (-r.exp).toNat) with
            | nan => rw [hv] at h; simp at h
            | inf b => rw [hv] at h; simp at h
            | fin s k f =>
                rw [hv] at h
                simp only [] at h
                injection h with h3 _
                injection h3 with _ hm he
                have := roundNearestEven_wf _ _ _ (by positivity) _ _ _ hv
                rw [← hm, ← he]
                exact ⟨this.2.1, this.2.2.1⟩

theorem representable_of_wf (m : Nat) (e : ℤ) (h1 : m ≤ 2 ^ 53) (h2 : m = 0 ∨ -1074 ≤ e) :
    Representable ((m : ℚ) * (2 : ℚ) ^ e) := by
  by_cases h0 : m = 0
  · exact ⟨0, 0, by norm_num, by norm_num, by simp [h0]⟩
  · have he : -1074 ≤ e := by
      rcases h2 with h | h
      · exact absurd h h0
      · exact h
    by_cases h53 : m = 2 ^ 53
    · refine ⟨2 ^ 52, e + 1, by norm_num, by omega, ?_⟩
      rw [h53, zpow_add₀ (by norm_num : (2 : ℚ) ≠ 0)]
      push_cast
      ring
    · exact ⟨m, e, by omega, he, rfl⟩

theorem abs_toRat_fin (neg : Bool) (m : Nat) (e : ℤ) :
    |F64.toRat (F64.fin neg m e)| = (m : ℚ) * (2 : ℚ) ^ e := by
  rw [toRat_fin]
  have h : (0 : ℚ) ≤ (m : ℚ) * (2 : ℚ) ^ e := by positivity
  cases neg
  · simp only [Bool.false_eq_true, if_false, one_mul]
    exact abs_of_nonneg h
  · simp only [if_true]
    rw [mul_assoc, neg_one_mul, abs_neg]
    exact abs_of_nonneg h

/-! ## Conversions between float64 and `int` -/

theorem toInt_of_fits (neg : Bool) (m : Nat) (e : ℤ) (h : F64.fitsInt (F64.fin neg m e) = true) :
    F64.toInt (F64.fin neg m e) = F64.truncFin neg m e := by
  unfold F64.fitsInt at h
  unfold F64.toInt
  simp only [decide_eq_true_eq] at h
  simp only [] 
  rw [if_pos h]

theorem truncFin_range_of_fits (neg : Bool) (m : Nat) (e : ℤ)
    (h : F64.fitsInt (F64.fin neg m e) = true) :
    minInt ≤ F64.truncFin neg m e ∧ F64.truncFin neg m e ≤ maxInt := by
  unfold F64.fitsInt at h
  simpa using h

theorem oneFifth_eq : F64.oneFifth = F64.fin false 7205759403792794 (-55) := by decide

/-- The float64 ceiling of a finite value is finite, and its integer part is
the mathematical ceiling of the value. -/
theorem truncFin_ceil (neg : Bool) (m : Nat) (e : ℤ) :
    ∃ (a : Bool) (b : Nat) (c : ℤ), F64.ceil (F64.fin neg m e) = F64.fin a b c ∧
      F64.truncFin a b c = ⌈F64.toRat (F64.fin neg m e)⌉ := by
  by_cases he : 0 ≤ e
  · have hc : F64.ceil (F64.fin neg m e) = F64.fin neg m e := by
      simp only [F64.ceil, if_pos he]
    refine ⟨neg, m, e, hc, ?_⟩
    rw [← truncFin_cast_of_nonneg neg m e he, Int.ceil_intCast]
  · have h2 : 0 ≤ -e := by omega
    have hp : ((2 : ℚ) ^ e) = ((2 : ℚ) ^ (-e).toNat)⁻¹ := by
      rw [← zpow_natCast, Int.toNat_of_nonneg h2, zpow_neg, inv_inv]
    set D := 2 ^ (-e).toNat with hD
    have hDpos : 0 < D := by positivity
    have hDq : ((2 : ℚ) ^ (-e).toNat) = (D : ℚ) := by
      rw [hD]
      push_cast
      rfl
    have hDq0 : (0 : ℚ) < (D : ℚ) := by exact_mod_cast hDpos
    have hdm := Nat.div_add_mod m D
    have hmod := Nat.mod_lt m hDpos
    have hmq : (m : ℚ) = (D : ℚ) * ((m / D : ℕ) : ℚ) + ((m % D : ℕ) : ℚ) := by
      exact_mod_cast hdm.symm
    have hmodq : ((m % D : ℕ) : ℚ) < D := by exact_mod_cast hmod
    have hmodq0 : (0 : ℚ) ≤ ((m % D : ℕ) : ℚ) := Nat.cast_nonneg _
    generalize hQ : ((m / D : ℕ) : ℚ) = Q at hmq
    generalize hR : ((m % D : ℕ) : ℚ) = R at hmq hmodq hmodq0
    have hval : (m : ℚ) * (D : ℚ)⁻¹ = Q + R * (D : ℚ)⁻¹ := by
      rw [hmq]
      field_simp
      ring
    have hfrac0 : 0 ≤ R * (D : ℚ)⁻¹ := by positivity
    have hfrac1 : R * (D : ℚ)⁻¹ < 1 := by
      rw [mul_inv_lt_iff₀ hDq0]
      linarith
    rw [toRat_fin, hp, hDq]
    cases neg
    · have hc : F64.ceil (F64.fin false m e) =
          F64.fin false (if m % D = 0 then m / D else m / D + 1) 0 := by
        simp only [F64.ceil, if_neg he, ← hD]
        simp
      refine ⟨_, _, _, hc, ?_⟩
      unfold F64.truncFin
      simp only [le_refl, if_true, Int.toNat_zero, pow_zero, mul_one, Bool.false_eq_true, if_false,
        one_mul]
      symm
      rw [Int.ceil_eq_iff, hval]
      by_cases h0 : m % D = 0
      · rw [if_pos h0]
        have hr0 : R = 0 := by
          rw [← hR]
          exact_mod_cast h0
        simp only [Int.cast_natCast, hQ, hr0]
        constructor <;> linarith
      · rw [if_neg h0]
        have hpos : (0 : ℚ) < R := by
          rw [← hR]
          exact_mod_cast Nat.pos_of_ne_zero h0
        have hfpos : 0 < R * (D : ℚ)⁻¹ := by positivity
        simp only [Int.cast_add, Int.cast_one, Int.cast_natCast, Nat.cast_add, Nat.cast_one, hQ]
        constructor <;> linarith
    · have hc : F64.ceil (F64.fin true m e) = F64.fin true (m / D) 0 := by
        simp only [F64.ceil, if_neg he, ← hD]
        simp
      refine ⟨_, _, _, hc, ?_⟩
      unfold F64.truncFin
      simp only [le_refl, if_true, Int.toNat_zero, pow_zero, mul_one]
      symm
      have : (-1 : ℚ) * (m : ℚ) * (D : ℚ)⁻¹ = -((m : ℚ) * (D : ℚ)⁻¹) := by ring
      rw [Int.ceil_eq_iff, this, hval]
      simp only [Int.cast_neg, Int.cast_natCast, hQ]
      constructor <;> linarith

/-- The float64 ceiling followed by the conversion to `int` is the
mathematical ceiling of the value, whenever the conversion is defined. -/
theorem toInt_ceil (neg : Bool) (m : Nat) (e : ℤ)
    (h : (F64.ceil (F64.fin neg m e)).fitsInt = true) :
    F64.toInt (F64.ceil (F64.fin neg m e)) = ⌈F64.toRat (F64.fin neg m e)⌉ := by
  obtain ⟨a, b, c, hc, ht⟩ := truncFin_ceil neg m e
  rw [hc] at h ⊢
  rw [toInt_of_fits a b c h, ht]

/-- The conversion to `int` of a float64 ceiling is defined when the
mathematical ceiling of the value lies in the range of `int`. -/
theorem toInt_ceil_of_range (neg : Bool) (m : Nat) (e : ℤ)
    (h1 : minInt ≤ ⌈F64.toRat (F64.fin neg m e)⌉) (h2 : ⌈F64.toRat (F64.fin neg m e)⌉ ≤ maxInt) :
    (F64.ceil (F64.fin neg m e)).fitsInt = true ∧
      F64.toInt (F64.ceil (F64.fin neg m e)) = ⌈F64.toRat (F64.fin neg m e)⌉ := by
  obtain ⟨a, b, c, hc, ht⟩ := truncFin_ceil neg m e
  have hfit : (F64.ceil (F64.fin neg m e)).fitsInt = true := by
    rw [hc]
    simp only [F64.fitsInt, ht, decide_eq_true_eq]
    exact ⟨h1, h2⟩
  exact ⟨hfit, toInt_ceil neg m e hfit⟩

theorem ofInt_minInt : F64.ofInt minInt = F64.fin true 4503599627370496 11 := by decide

theorem eq_ofInt_toInt_whole (v : F64) (h : F64.eq v (F64.ofInt (F64.toInt v)) = true) :
    v.IsWhole := by
  cases v with
  | nan => simp [F64.eq] at h
  | inf b =>
      have : F64.toInt (F64.inf b) = minInt := rfl
      rw [this, ofInt_minInt] at h
      simp [F64.eq] at h
  | fin neg m e =>
      cases ho : F64.ofInt (F64.toInt (F64.fin neg m e)) with
      | nan => rw [ho] at h; simp [F64.eq] at h
      | inf c => rw [ho] at h; simp [F64.eq] at h
      | fin c k f =>
          rw [ho, F64.eq_fin_iff] at h
          obtain ⟨w, hw⟩ := ofInt_whole _ c k f ho
          exact ⟨rfl, w, h.trans hw⟩

theorem whole_eq_ofInt_toInt (neg : Bool) (m : Nat) (e : ℤ)
    (hwf : m ≤ 2 ^ 53 ∧ (m = 0 ∨ -1074 ≤ e))
    (hfit : F64.fitsInt (F64.fin neg m e) = true) (hw : (F64.fin neg m e).IsWhole) :
    F64.eq (F64.fin neg m e) (F64.ofInt (F64.toInt (F64.fin neg m e))) = true := by
  obtain ⟨_, z, hz⟩ := hw
  have ht := truncFin_of_whole neg m e z hz
  have hr := truncFin_range_of_fits neg m e hfit
  rw [toInt_of_fits neg m e hfit, ht]
  rw [ht] at hr
  have habs : |(z : ℚ)| = (m : ℚ) * (2 : ℚ) ^ e := by
    rw [← hz]
    exact abs_toRat_fin neg m e
  have hrep : Representable |(z : ℚ)| := by
    rw [habs]
    exact representable_of_wf m e hwf.1 hwf.2
  have hlt : |(z : ℚ)| < (2 : ℚ) ^ (1024 : ℤ) := by
    have h1 : |(z : ℚ)| ≤ (2 : ℚ) ^ (63 : ℤ) := by
      rw [abs_le]
      unfold minInt maxInt at hr
      have ha : (-(2 ^ 63 : ℤ) : ℤ) ≤ z := hr.1
      have hb : z ≤ (2 ^ 63 - 1 : ℤ) := hr.2
      have ha2 : ((-(2 ^ 63 : ℤ) : ℤ) : ℚ) ≤ (z : ℚ) := by exact_mod_cast ha
      have hb2 : (z : ℚ) ≤ ((2 ^ 63 - 1 : ℤ) : ℚ) := by exact_mod_cast hb
      constructor
      · calc -((2 : ℚ) ^ (63 : ℤ)) = ((-(2 ^ 63 : ℤ) : ℤ) : ℚ) := by norm_num
          _ ≤ z := ha2
      · calc (z : ℚ) ≤ ((2 ^ 63 - 1 : ℤ) : ℚ) := hb2
          _ ≤ (2 : ℚ) ^ (63 : ℤ) := by norm_num
    exact lt_of_le_of_lt h1 (zpow_lt_zpow_right₀ (by norm_num) (by norm_num))
  obtain ⟨m2, q2, h1, h2⟩ := ofInt_exact z hrep hlt
  rw [h1, F64.eq_fin_iff, h2, hz]

theorem dyadic_ratio (M : Nat) (E : ℤ) :
    ((M * 2 ^ E.toNat : ℕ) : ℚ) / ((2 ^ (-E).toNat : ℕ) : ℚ) = (M : ℚ) * (2 : ℚ) ^ E := by
  by_cases h : 0 ≤ E
  · have h1 : (-E).toNat = 0 := by omega
    have h2 : (2 : ℚ) ^ E = (2 : ℚ) ^ E.toNat := by
      rw [← zpow_natCast, Int.toNat_of_nonneg h]
    rw [h1, h2]
    push_cast
    simp
  · have h1 : E.toNat = 0 := by omega
    have h0 : 0 ≤ -E := by omega
    have h2 : (2 : ℚ) ^ E = ((2 : ℚ) ^ (-E).toNat)⁻¹ := by
      rw [← zpow_natCast, Int.toNat_of_nonneg h0, zpow_neg, inv_inv]
    rw [h1, h2]
    push_cast
    simp [div_eq_mul_inv]

/-- Rounding a dyadic number that is representable returns it unchanged. -/
theorem roundDyadic_exact (neg : Bool) (M : Nat) (E : ℤ)
    (hrep : Representable ((M : ℚ) * (2 : ℚ) ^ E))
    (hlt : (M : ℚ) * (2 : ℚ) ^ E < (2 : ℚ) ^ (1024 : ℤ)) :
    ∃ m q, roundDyadic neg M E = F64.fin neg m q ∧ (m : ℚ) * (2 : ℚ) ^ q = (M : ℚ) * (2 : ℚ) ^ E := by
  have h := roundNearestEven_exact neg (M * 2 ^ E.toNat) (2 ^ (-E).toNat) (by positivity)
    (by rw [dyadic_ratio]; exact hrep) (by rw [dyadic_ratio]; exact hlt)
  rw [dyadic_ratio] at h
  exact h

theorem hundred_times_whole (neg : Bool) (m : Nat) (e : ℤ) (z : ℤ)
    (hz : F64.toRat (F64.fin neg m e) = (z : ℚ)) (hsmall : |(z : ℚ)| ≤ 90071992547409) :
    F64.toInt (F64.mul (F64.fin neg m e) F64.hundred) = 100 * z := by
  have habs : (m : ℚ) * (2 : ℚ) ^ e = |(z : ℚ)| := by
    rw [← hz]
    exact (abs_toRat_fin neg m e).symm
  have hzabs : |(z : ℚ)| = ((z.natAbs : ℕ) : ℚ) := by
    rw [Nat.cast_natAbs, Int.cast_abs]
  have hnat : z.natAbs ≤ 90071992547409 := by
    rw [hzabs] at hsmall
    exact_mod_cast hsmall
  have hval : ((m * 100 : ℕ) : ℚ) * (2 : ℚ) ^ (e + 0) = ((100 * z.natAbs : ℕ) : ℚ) := by
    rw [add_zero]
    push_cast
    rw [← hzabs, ← habs]
    ring
  have hrep : Representable (((m * 100 : ℕ) : ℚ) * (2 : ℚ) ^ (e + 0)) := by
    rw [hval]
    exact ⟨100 * z.natAbs, 0, by omega, by norm_num, by simp⟩
  have hlt : ((m * 100 : ℕ) : ℚ) * (2 : ℚ) ^ (e + 0) < (2 : ℚ) ^ (1024 : ℤ) := by
    rw [hval]
    have h1 : ((100 * z.natAbs : ℕ) : ℚ) < ((2 ^ 53 : ℕ) : ℚ) := by
      exact_mod_cast (by omega : 100 * z.natAbs < 2 ^ 53)
    calc ((100 * z.natAbs : ℕ) : ℚ) < ((2 ^ 53 : ℕ) : ℚ) := h1
      _ = (2 : ℚ) ^ (53 : ℤ) := by norm_num
      _ < (2 : ℚ) ^ (1024 : ℤ) := zpow_lt_zpow_right₀ (by norm_num) (by norm_num)
  obtain ⟨m2, q2, h1, h2⟩ := roundDyadic_exact (neg != false) (m * 100) (e + 0) hrep hlt
  have hmul : F64.mul (F64.fin neg m e) F64.hundred = F64.fin (neg != false) m2 q2 := by
    unfold F64.hundred
    simp only [F64.mul]
    exact h1
  have hprod : F64.toRat (F64.fin (neg != false) m2 q2) = ((100 * z : ℤ) : ℚ) := by
    rw [toRat_fin, mul_assoc, h2, hval]
    have hsign : (if (neg != false) = true then (-1 : ℚ) else 1) * |(z : ℚ)| = (z : ℚ) := by
      rw [← hz, abs_toRat_fin, toRat_fin]
      cases neg <;> simp
    push_cast
    rw [← hzabs]
    calc (if (neg != false) = true then (-1 : ℚ) else 1) * (100 * |(z : ℚ)|)
        = 100 * ((if (neg != false) = true then (-1 : ℚ) else 1) * |(z : ℚ)|) := by ring
      _ = 100 * (z : ℚ) := by rw [hsign]
  have htr := truncFin_of_whole _ _ _ _ hprod
  rw [hmul]
  unfold F64.toInt
  simp only [htr]
  rw [if_pos]
  unfold minInt maxInt
  omega

/-! ## Validation and trimming -/

theorem char_eq_iff_toNat (c d : Char) : c = d ↔ c.toNat = d.toNat := by
  constructor
  · intro h
    rw [h]
  · intro h
    rw [← Char.ofNat_toNat c, ← Char.ofNat_toNat d, h]

theorem descriptionClass_not_space (c : Char) (h : descriptionClass c = true) :
    isUnicodeSpace c = false ↔ (isWordChar c = true ∨ c = '-') := by
  have h45 : c = '-' ↔ c.toNat = 45 := char_eq_iff_toNat c '-'
  have h95 : c = '_' ↔ c.toNat = 95 := char_eq_iff_toNat c '_'
  simp only [descriptionClass, isWordChar, isAlnum, isPerlSpace, isUnicodeSpace, Bool.or_eq_true,
    decide_eq_true_eq, beq_iff_eq, decide_eq_false_iff_not, h45, h95] at h ⊢
  omega

theorem dropWhile_all_iff (p : Char → Bool) (s : List Char) :
    (∀ c ∈ s.dropWhile p, p c = true) ↔ ∀ c ∈ s, p c = true := by
  induction s with
  | nil => simp
  | cons a l ih =>
      by_cases h : p a = true
      · rw [List.dropWhile_cons_of_pos h, ih]
        simp [h]
      · rw [List.dropWhile_cons_of_neg h]

theorem trimSpace_eq_nil_iff (s : List Char) :
    trimSpace s = [] ↔ ∀ c ∈ s, isUnicodeSpace c = true := by
  unfold trimSpace
  rw [List.reverse_eq_nil_iff, List.dropWhile_eq_nil_iff]
  simp only [List.mem_reverse]
  exact dropWhile_all_iff _ _

theorem byteLen_pos_iff (s : List Char) : 0 < byteLen s ↔ s ≠ [] := by
  cases s with
  | nil => simp [byteLen]
  | cons a l =>
      have := Char.utf8Size_pos a
      simp [byteLen]
      omega

theorem isValidItem_iff (item : Item) :
    isValidItem item = true ↔
      (item.ShortDescription ≠ "" ∧ ∀ c ∈ item.ShortDescription.data, descriptionClass c = true) ∧
        (parseFloat item.Price).2 = none ∧ F64.leZero (parseFloat item.Price).1 = false := by
  unfold isValidItem
  have hm := matchClassPlus_iff descriptionClass item.ShortDescription.data
  rcases parseFloat item.Price with ⟨v, err⟩
  simp only []
  split_ifs with h1 h2
  · simp only [Bool.false_eq_true, false_iff]
    rintro ⟨⟨ha, hb⟩, _⟩
    rcases h1 with h | h
    · exact ha h
    · exact h (hm.mpr ⟨fun hd => ha ((string_eq_empty_iff _).mpr hd), hb⟩)
  · simp only [Bool.false_eq_true, false_iff]
    rintro ⟨_, hb, hc⟩
    rcases h2 with h | h
    · exact h hb
    · rw [hc] at h
      exact Bool.false_ne_true h
  · have h3 : item.ShortDescription ≠ "" := fun h => h1 (Or.inl h)
    have h4 : matchClassPlus descriptionClass item.ShortDescription.data = true := by
      by_contra h
      exact h1 (Or.inr h)
    have h5 : err = none := by
      by_contra h
      exact h2 (Or.inl h)
    have h6 : F64.leZero v = false := by
      cases hv : F64.leZero v
      · rfl
      · exact absurd (Or.inr hv) h2
    simp only [true_iff]
    exact ⟨⟨h3, (hm.mp h4).2⟩, h5, h6⟩

theorem isValidReceipt_items (r : Receipt) (h : isValidReceipt r = true) :
    ∀ item ∈ r.Items, isValidItem item = true := by
  unfold isValidReceipt at h
  split_ifs at h
  exact (allItemsValid_iff _).mp h

theorem itemPoints_of_valid (item : Item) (h : isValidItem item = true) :
    itemPoints item =
      if byteLen (trimSpace item.ShortDescription.data) % 3 = 0 then
        F64.toInt (F64.ceil (F64.mul (parseFloat item.Price).1 F64.oneFifth))
      else 0 := by
  have herr := ((isValidItem_iff item).mp h).2.1
  unfold itemPoints
  rcases hp : parseFloat item.Price with ⟨v, err⟩
  rw [hp] at herr
  simp only [] at herr ⊢
  simp [herr]

theorem toRat_nonneg (m : Nat) (e : ℤ) : 0 ≤ F64.toRat (F64.fin false m e) := by
  rw [toRat_fin]
  simp only [Bool.false_eq_true, if_false, one_mul]
  positivity

theorem mul_positive_sign (v : F64) (hv : F64.leZero v = false) (s : Bool) (m : Nat) (e : ℤ)
    (h : F64.mul v F64.oneFifth = F64.fin s m e) : s = false := by
  rw [oneFifth_eq] at h
  cases v with
  | nan => simp [F64.mul] at h
  | inf b => simp [F64.mul] at h
  | fin neg k f =>
      have hneg : neg = false := by
        cases neg
        · rfl
        · simp [F64.leZero] at hv
      subst hneg
      simp only [F64.mul] at h
      have := roundDyadic_wf _ _ _ _ _ _ h
      rw [this.1]
      rfl

theorem itemPoints_nonneg (item : Item) (hv : isValidItem item = true)
    (hfit : byteLen (trimSpace item.ShortDescription.data) % 3 = 0 →
      (F64.ceil (F64.mul (parseFloat item.Price).1 F64.oneFifth)).fitsInt = true) :
    0 ≤ itemPoints item := by
  rw [itemPoints_of_valid item hv]
  split_ifs with h3
  · have hf := hfit h3
    have hle := ((isValidItem_iff item).mp hv).2.2
    cases hx : F64.mul (parseFloat item.Price).1 F64.oneFifth with
    | nan => rw [hx] at hf; simp [F64.ceil, F64.fitsInt] at hf
    | inf b => rw [hx] at hf; simp [F64.ceil, F64.fitsInt] at hf
    | fin s m e =>
        have hs := mul_positive_sign _ hle s m e hx
        subst hs
        rw [hx] at hf
        rw [toInt_ceil false m e hf]
        exact Int.ceil_nonneg (toRat_nonneg m e)
  · exact le_rfl

theorem exactPoints_total_split (r : Receipt) :
    exactPoints r = pointsRetailer r + pointsItemCount r + pointsItems r + pointsDate r +
      pointsTime r + (pointsRoundTotal r + pointsQuarterTotal r) := by
  unfold exactPoints
  ring

/-! ## The claims -/

/-- Claim C1: `isValidReceipt` accepts a receipt exactly when its retailer is
non-empty and made of word characters, white space, hyphens and ampersands
only, it has at least one item, and every item passes `isValidItem`; it
rejects every receipt with an empty retailer and every receipt without
items. -/
theorem isValidReceipt_iff_retailer_and_items (r : Receipt) :
    (isValidReceipt r = true ↔
      (r.Retailer ≠ "" ∧
        ∀ c ∈ r.Retailer.data, isWordChar c = true ∨ isPerlSpace c = true ∨ c = '-' ∨ c = '&') ∧
      r.Items ≠ [] ∧ ∀ item ∈ r.Items, isValidItem item = true) ∧
    (r.Retailer = "" → isValidReceipt r = false) ∧
    (r.Items = [] → isValidReceipt r = false) := by
  have key : isValidReceipt r = true ↔
      (r.Retailer ≠ "" ∧
        ∀ c ∈ r.Retailer.data, isWordChar c = true ∨ isPerlSpace c = true ∨ c = '-' ∨ c = '&') ∧
      r.Items ≠ [] ∧ ∀ item ∈ r.Items, isValidItem item = true := by
    have hc : (∀ c ∈ r.Retailer.data, retailerClass c = true) ↔
        ∀ c ∈ r.Retailer.data, isWordChar c = true ∨ isPerlSpace c = true ∨ c = '-' ∨ c = '&' := by
      simp [retailerClass, or_assoc]
    unfold isValidReceipt
    rw [← allItemsValid_iff, ← hc]
    have hm := matchClassPlus_iff retailerClass r.Retailer.data
    split_ifs with h1 h2
    · simp only [Bool.false_eq_true, false_iff]
      rintro ⟨⟨ha, hb⟩, _⟩
      rcases h1 with h | h
      · exact ha h
      · exact h (hm.mpr ⟨fun hd => ha ((string_eq_empty_iff _).mpr hd), hb⟩)
    · simp only [Bool.false_eq_true, false_iff]
      rintro ⟨_, hi, _⟩
      exact hi (List.length_eq_zero.mp h2)
    · have h3 : r.Retailer ≠ "" := fun h => h1 (Or.inl h)
      have h4 : matchClassPlus retailerClass r.Retailer.data = true := by
        by_contra h
        exact h1 (Or.inr h)
      have h5 : r.Items ≠ [] := fun h => h2 (List.length_eq_zero.mpr h)
      exact ⟨fun h => ⟨⟨h3, (hm.mp h4).2⟩, h5, h⟩, fun h => h.2.2⟩
  refine ⟨key, ?_, ?_⟩
  · intro h
    cases hv : isValidReceipt r
    · rfl
    · exact absurd h (key.mp hv).1.1
  · intro h
    cases hv : isValidReceipt r
    · rfl
    · exact absurd h (key.mp hv).2.1

/-- Claim C2, at the failing input: the price `NaN` parses without error to
the float64 NaN, the test `itemPrice <= 0` is false for NaN, and so
`isValidItem` accepts an item whose price is not a number. -/
theorem isValidItem_accepts_NaN :
    parseFloat "NaN" = (F64.nan, none) ∧ F64.leZero F64.nan = false ∧
      isValidItem ⟨"Milk", "NaN"⟩ = true := by
  decide

set_option maxRecDepth 100000 in
/-- Claim C3, at the failing input: `time.Parse` fails on `not-a-date`, on the
empty text and on `2022-02-30` and returns the zero time, whose day is 1; the
error is dropped, so the receipt with the unparsable date passes validation
and scores 6 points more than the same receipt dated `2022-01-02`. -/
theorem unparsable_date_scores_odd_day :
    (timeParseDate "not-a-date") = (Time.zero, true) ∧ (timeParseDate "").2 = true ∧
      (timeParseDate "2022-02-30").2 = true ∧ Time.zero.day = 1 ∧
      isValidReceipt { cornerMarketReceipt with PurchaseDate := "not-a-date" } = true ∧
      calculatePoints { cornerMarketReceipt with PurchaseDate := "not-a-date" } =
        calculatePoints { cornerMarketReceipt with PurchaseDate := "2022-01-02" } + 6 := by
  decide

/-- Claim C4, amended: for a receipt that passes `isValidReceipt`, when every
conversion `int(math.Ceil(price * 0.2))` that is performed is defined (the
rounded-up float64 is finite and within the range of `int`) and the sum of the
rule contributions does not exceed the largest `int`, `calculatePoints` is that
sum and is not negative. -/
theorem points_nonneg_without_overflow (r : Receipt) (hv : isValidReceipt r = true)
    (hfit : ∀ item ∈ r.Items, byteLen (trimSpace item.ShortDescription.data) % 3 = 0 →
      (F64.ceil (F64.mul (parseFloat item.Price).1 F64.oneFifth)).fitsInt = true)
    (hsum : exactPoints r ≤ maxInt) :
    0 ≤ calculatePoints r ∧ calculatePoints r = exactPoints r := by
  have h1 : 0 ≤ pointsRetailer r := by
    unfold pointsRetailer
    exact Int.natCast_nonneg _
  have h2 : 0 ≤ pointsRoundTotal r := by
    unfold pointsRoundTotal
    rcases parseFloat r.Total with ⟨v, err⟩
    simp only []
    split_ifs <;> norm_num
  have h3 : 0 ≤ pointsQuarterTotal r := by
    unfold pointsQuarterTotal
    rcases parseFloat r.Total with ⟨v, err⟩
    simp only []
    split_ifs <;> norm_num
  have h4 : 0 ≤ pointsItemCount r := by
    unfold pointsItemCount
    positivity
  have h5 : 0 ≤ pointsItems r := by
    unfold pointsItems
    apply List.sum_nonneg
    intro x hx
    obtain ⟨item, hi, rfl⟩ := List.mem_map.mp hx
    exact itemPoints_nonneg item (isValidReceipt_items r hv item hi) (hfit item hi)
  have h6 : 0 ≤ pointsDate r := by
    unfold pointsDate
    split_ifs <;> norm_num
  have h7 : 0 ≤ pointsTime r := by
    unfold pointsTime
    simp only []
    split_ifs <;> norm_num
  have hnn : 0 ≤ exactPoints r := by
    unfold exactPoints
    linarith
  have heq : calculatePoints r = exactPoints r := by
    rw [calculatePoints_eq_wrapInt]
    apply wrapInt_of_range _ hsum
    unfold minInt
    linarith
  exact ⟨heq ▸ hnn, heq⟩

set_option maxRecDepth 100000 in
/-- Claim C4, witness: the Target receipt is valid, its conversions are
defined and its points do not overflow. -/
theorem points_nonneg_without_overflow_witness :
    isValidReceipt targetReceipt = true ∧ exactPoints targetReceipt ≤ maxInt ∧
      (0 ≤ calculatePoints targetReceipt ∧
        calculatePoints targetReceipt = exactPoints targetReceipt) :=
  ⟨by decide, by decide,
    points_nonneg_without_overflow targetReceipt (by decide) (by decide) (by decide)⟩

set_option maxRecDepth 100000 in
/-- Claim C4, counterexample: a receipt with two items priced `5 * 2^62`
passes validation; each item adds `2^62` points, the sum overflows `int` and
the score is negative. -/
theorem huge_prices_score_negative :
    isValidReceipt hugePriceReceipt = true ∧
      itemPoints ⟨"abc", "23058430092136939520"⟩ = 2 ^ 62 ∧
      calculatePoints hugePriceReceipt = -9223372036854775722 ∧
      calculatePoints hugePriceReceipt < 0 := by
  decide

/-- Claim C5, amended: an item that passes `isValidItem` has a description of
length greater than 0, and the description trimmed of white space has length
greater than 0 exactly when it holds a word character or a hyphen. -/
theorem valid_item_description_length (item : Item) (h : isValidItem item = true) :
    0 < byteLen item.ShortDescription.data ∧
      (0 < byteLen (trimSpace item.ShortDescription.data) ↔
        ∃ c ∈ item.ShortDescription.data, isWordChar c = true ∨ c = '-') := by
  obtain ⟨⟨hne, hcls⟩, _, _⟩ := (isValidItem_iff item).mp h
  constructor
  · rw [byteLen_pos_iff]
    exact fun hd => hne ((string_eq_empty_iff _).mpr hd)
  · rw [byteLen_pos_iff, ne_eq, trimSpace_eq_nil_iff]
    constructor
    · intro hn
      by_contra hex
      apply hn
      intro c hc
      cases hs : isUnicodeSpace c
      · exact absurd ⟨c, hc, (descriptionClass_not_space c (hcls c hc)).mp hs⟩ hex
      · rfl
    · rintro ⟨c, hc, hw⟩ hall
      have := (descriptionClass_not_space c (hcls c hc)).mpr hw
      rw [hall c hc] at this
      exact Bool.noConfusion this

set_option maxRecDepth 100000 in
/-- Claim C5, witness: the item `Emils Cheese Pizza` at `12.25`. -/
theorem valid_item_description_length_witness :
    isValidItem ⟨"Emils Cheese Pizza", "12.25"⟩ = true ∧
      (0 < byteLen ("Emils Cheese Pizza" : String).data ∧
        (0 < byteLen (trimSpace ("Emils Cheese Pizza" : String).data) ↔
          ∃ c ∈ ("Emils Cheese Pizza" : String).data, isWordChar c = true ∨ c = '-')) :=
  ⟨by decide, valid_item_description_length ⟨"Emils Cheese Pizza", "12.25"⟩ (by decide)⟩

/-- Claim C5, counterexample: an item whose description is one space passes
`isValidItem`, and its trimmed description has length 0. -/
theorem blank_description_passes_validation :
    isValidItem ⟨" ", "1.00"⟩ = true ∧ byteLen (trimSpace (" " : String).data) = 0 := by
  decide

set_option maxRecDepth 100000 in
/-- Claim C6, at the failing input: the total `2.01` parses to a float64 just
below 2.01, its float64 product with 100 is just below 201 and truncates to
200, which is divisible by 25; rule R3 adds 25 points for a total of 2.01. -/
theorem quarter_rule_fires_on_2_01 :
    parseFloat "2.01" = (F64.fin false 4526117625507348 (-51), none) ∧
      F64.mul (F64.fin false 4526117625507348 (-51)) F64.hundred =
        F64.fin false 7072058789855231 (-45) ∧
      F64.toInt (F64.fin false 7072058789855231 (-45)) = 200 ∧
      pointsQuarterTotal { cornerMarketReceipt with Total := "2.01" } = 25 ∧
      calculatePoints { cornerMarketReceipt with Total := "2.01" } =
        calculatePoints { cornerMarketReceipt with Total := "not-a-number" } + 25 := by
  decide

/-- Claim C8, amended: for a receipt whose total parses without error to a
whole number of magnitude at most 90071992547409 (so that its product with
100 is exact in float64), rules R2 and R3 both fire, and the score is the score
of the same receipt with an unparsable total plus 75, in `int` arithmetic. -/
theorem small_whole_total_scores_75 (r : Receipt) (v : F64) (t : String)
    (hp : parseFloat r.Total = (v, none)) (hw : v.IsWhole)
    (hsmall : |v.toRat| ≤ 90071992547409) (ht : (parseFloat t).2 ≠ none) :
    pointsRoundTotal r = 50 ∧ pointsQuarterTotal r = 25 ∧
      calculatePoints r = addInt (calculatePoints { r with Total := t }) 75 := by
  obtain ⟨hfin, z, hz⟩ := hw
  cases v with
  | nan => exact absurd hfin (by simp [F64.isFinite])
  | inf b => exact absurd hfin (by simp [F64.isFinite])
  | fin neg m e =>
      rw [hz] at hsmall
      have hzr : (-90071992547409 : ℤ) ≤ z ∧ z ≤ 90071992547409 := by
        rw [abs_le] at hsmall
        constructor
        · exact_mod_cast hsmall.1
        · exact_mod_cast hsmall.2
      have htr := truncFin_of_whole neg m e z hz
      have hfit : F64.fitsInt (F64.fin neg m e) = true := by
        simp only [F64.fitsInt, htr, decide_eq_true_eq]
        unfold minInt maxInt
        omega
      have hR2 : pointsRoundTotal r = 50 := by
        unfold pointsRoundTotal
        rw [hp]
        simp only []
        rw [if_pos]
        exact ⟨trivial, whole_eq_ofInt_toInt neg m e (parseFloat_wf _ _ _ _ _ hp) hfit ⟨rfl, z, hz⟩⟩
      have hR3 : pointsQuarterTotal r = 25 := by
        unfold pointsQuarterTotal
        rw [hp]
        simp only []
        rw [if_pos]
        refine ⟨trivial, ?_⟩
        rw [hundred_times_whole neg m e z hz hsmall]
        have : (100 * z : ℤ) = 4 * z * 25 := by ring
        rw [this]
        exact Int.mul_tmod_left _ _
      refine ⟨hR2, hR3, ?_⟩
      have hR2t : pointsRoundTotal { r with Total := t } = 0 := by
        unfold pointsRoundTotal
        rcases hq : parseFloat t with ⟨w, err⟩
        rw [hq] at ht
        simp only [hq]
        simp [ht]
      have hR3t : pointsQuarterTotal { r with Total := t } = 0 := by
        unfold pointsQuarterTotal
        rcases hq : parseFloat t with ⟨w, err⟩
        rw [hq] at ht
        simp only [hq]
        simp [ht]
      rw [calculatePoints_eq_wrapInt, calculatePoints_eq_wrapInt, addInt_wrapInt,
        exactPoints_total_split r, exactPoints_total_split { r with Total := t }, hR2, hR3, hR2t,
        hR3t]
      simp [pointsRetailer, pointsItemCount, pointsItems, pointsDate, pointsTime]

set_option maxRecDepth 100000 in
/-- Claim C8, witness: the corner market receipt with the total `100.00`,
against the same receipt with the total `not-a-number`, which scores 34. -/
theorem small_whole_total_scores_75_witness :
    parseFloat "100.00" = (F64.fin false 7036874417766400 (-46), none) ∧
      calculatePoints { cornerMarketReceipt with Total := "not-a-number" } = 34 ∧
      (pointsRoundTotal { cornerMarketReceipt with Total := "100.00" } = 50 ∧
        pointsQuarterTotal { cornerMarketReceipt with Total := "100.00" } = 25 ∧
        calculatePoints { cornerMarketReceipt with Total := "100.00" } =
          addInt (calculatePoints { cornerMarketReceipt with Total := "not-a-number" }) 75) :=
  ⟨by decide, by decide,
    small_whole_total_scores_75 { cornerMarketReceipt with Total := "100.00" }
      (F64.fin false 7036874417766400 (-46)) "not-a-number" (by decide)
      ⟨rfl, 100, by norm_num [F64.toRat]⟩ (by norm_num [F64.toRat]) (by decide)⟩

set_option maxRecDepth 100000 in
/-- Claim C8, counterexample: the total `400000000000001` parses exactly to
that whole number; rule R2 adds 50, but the float64 product with 100 is
rounded to 40000000000000096, which is not divisible by 25, so rule R3 adds
nothing and the total-based rules contribute 50. -/
theorem large_whole_total_misses_quarter_rule :
    parseFloat "400000000000001" = (F64.fin false 6400000000000016 (-4), none) ∧
      (F64.fin false 6400000000000016 (-4)).toRat = 400000000000001 ∧
      F64.toInt (F64.mul (F64.fin false 6400000000000016 (-4)) F64.hundred) =
        40000000000000096 ∧
      pointsRoundTotal { cornerMarketReceipt with Total := "400000000000001" } = 50 ∧
      pointsQuarterTotal { cornerMarketReceipt with Total := "400000000000001" } = 0 ∧
      calculatePoints { cornerMarketReceipt with Total := "400000000000001" } =
        calculatePoints { cornerMarketReceipt with Total := "not-a-number" } + 50 :=
  ⟨by decide, by norm_num [F64.toRat], by decide, by decide, by decide, by decide⟩

/-! ## Differences between scores -/

theorem calculatePoints_of_exact_add (r1 r2 : Receipt) (k : Int)
    (h : exactPoints r1 = exactPoints r2 + k) :
    calculatePoints r1 = addInt (calculatePoints r2) k := by
  rw [calculatePoints_eq_wrapInt, calculatePoints_eq_wrapInt, addInt_wrapInt, h]

theorem findAllClass_length (cls : Char → Bool) (s : List Char) :
    (findAllClass cls s).length = s.countP cls := by
  induction s with
  | nil => rfl
  | cons c cs ih =>
      rw [findAllClass]
      by_cases h : cls c = true
      · rw [if_pos h, List.length_cons, ih, List.countP_cons_of_pos _ _ h]
      · rw [if_neg h, ih, List.countP_cons_of_neg _ _ h]

theorem isAlnum_excludes (c : Char)
    (h : isPerlSpace c = true ∨ c = '-' ∨ c = '&' ∨ c = '_') : isAlnum c = false := by
  have h45 : c = '-' ↔ c.toNat = 45 := char_eq_iff_toNat c '-'
  have h38 : c = '&' ↔ c.toNat = 38 := char_eq_iff_toNat c '&'
  have h95 : c = '_' ↔ c.toNat = 95 := char_eq_iff_toNat c '_'
  simp only [isAlnum, isPerlSpace, decide_eq_true_eq, decide_eq_false_iff_not, h45, h38, h95] at h ⊢
  omega

theorem isAlnum_iff (c : Char) : isAlnum c = true ↔ c.isAlpha = true ∨ c.isDigit = true := by
  simp only [isAlnum, Char.isAlpha, Char.isUpper, Char.isLower, Char.isDigit, Bool.or_eq_true,
    Bool.and_eq_true, decide_eq_true_eq, ge_iff_le, UInt32.le_def, Char.toNat, UInt32.toNat]
  simp [BitVec.le_def]
  omega

/-! ## `strings.LastIndex` and slicing -/

theorem isPrefixOf_of_length_lt (sep t : GoString) (h : t.length < sep.length) :
    sep.isPrefixOf t = false := by
  cases hb : sep.isPrefixOf t
  · rfl
  · have := (List.isPrefixOf_iff_prefix.mp hb).length_le
    omega

theorem lastIndexFrom_short (sep : GoString) (t : GoString) (i : Nat) (acc : Int)
    (h : t.length < sep.length) : lastIndexFrom sep t i acc = acc := by
  induction t generalizing i acc with
  | nil =>
      rw [lastIndexFrom, isPrefixOf_of_length_lt sep [] h]
      rfl
  | cons c cs ih =>
      rw [lastIndexFrom, isPrefixOf_of_length_lt sep (c :: cs) h]
      simp only [Bool.false_eq_true, if_false]
      exact ih (i + 1) acc (by simp at h ⊢; omega)

theorem lastIndexFrom_self (sep : GoString) (hne : sep ≠ []) (i : Nat) (acc : Int) :
    lastIndexFrom sep sep i acc = (i : Int) := by
  cases sep with
  | nil => exact absurd rfl hne
  | cons c cs =>
      rw [lastIndexFrom]
      have h : (c :: cs).isPrefixOf (c :: cs) = true :=
        List.isPrefixOf_iff_prefix.mpr (List.prefix_refl _)
      rw [h, if_pos rfl]
      exact lastIndexFrom_short (c :: cs) cs (i + 1) i (by simp)

theorem lastIndexFrom_append (sep : GoString) (hne : sep ≠ []) (p : GoString) (i : Nat)
    (acc : Int) : lastIndexFrom sep (p ++ sep) i acc = ((i + p.length : Nat) : Int) := by
  induction p generalizing i acc with
  | nil => simpa using lastIndexFrom_self sep hne i acc
  | cons c cs ih =>
      rw [List.cons_append, lastIndexFrom, ih]
      congr 1
      simp
      omega

theorem lastIndex_append (sep : GoString) (hne : sep ≠ []) (p : GoString) :
    lastIndex (p ++ sep) sep = (p.length : Int) := by
  unfold lastIndex
  rw [lastIndexFrom_append sep hne]
  simp

theorem lastIndexFrom_le (sep : GoString) (t : GoString) (i : Nat) (acc : Int)
    (h : acc ≤ ((i + t.length : Nat) : Int)) :
    lastIndexFrom sep t i acc ≤ ((i + t.length : Nat) : Int) := by
  induction t generalizing i acc with
  | nil =>
      rw [lastIndexFrom]
      split_ifs
      · simp
      · exact h
  | cons c cs ih =>
      rw [lastIndexFrom]
      have hl : ((i + (c :: cs).length : Nat) : Int) = ((i + 1 + cs.length : Nat) : Int) := by
        simp
        omega
      rw [hl]
      apply ih
      split_ifs
      · push_cast
        omega
      · rw [← hl]
        exact h

theorem lastIndex_le_length (s sep : GoString) : lastIndex s sep ≤ (s.length : Int) := by
  unfold lastIndex
  have := lastIndexFrom_le sep s 0 (-1) (by push_cast; omega)
  simpa using this

theorem sliceBytes_eq_none_iff (s : GoString) (lo hi : Int) :
    sliceBytes s lo hi = none ↔ ¬ (0 ≤ lo ∧ lo ≤ hi ∧ hi ≤ (s.length : Int)) := by
  unfold sliceBytes
  split_ifs with h <;> simp [h]

theorem receiptsPath_length : ((goString "/receipts/").length : Int) = 10 := by decide

theorem slice_of_points_path (id : GoString) :
    sliceBytes (goString "/receipts/" ++ id ++ goString "/points")
      ((goString "/receipts/").length : Int)
      (lastIndex (goString "/receipts/" ++ id ++ goString "/points") (goString "/points")) =
      some id := by
  rw [lastIndex_append _ (by decide)]
  unfold sliceBytes
  rw [if_pos]
  · congr 1
    have h1 : ((goString "/receipts/").length : Int).toNat = (goString "/receipts/").length := by
      simp
    have h2 : (((goString "/receipts/" ++ id).length : Int) -
        ((goString "/receipts/").length : Int)).toNat = id.length := by
      simp
    rw [h1, h2, List.append_assoc, List.drop_left, List.take_left]
  · refine ⟨by simp, by simp, by simp⟩

/-! ## The store -/

theorem Store.get_put (store : Store) (id : GoString) (points : Int) :
    (store.put id points).get id = some points := by
  simp [Store.get, Store.put, List.lookup]

theorem Store.get_eq_none (store : Store) (id : GoString) (h : ∀ p, (id, p) ∉ store) :
    store.get id = none := by
  unfold Store.get
  rw [List.lookup_eq_none_iff]
  intro q hq
  simp only [bne_iff_ne, ne_eq]
  intro hid
  apply h q.2
  rw [hid]
  exact hq

theorem getPointsHandler_store (store : Store) (path : GoString) :
    (getPointsHandler store path).1 = store := by
  unfold getPointsHandler
  cases sliceBytes path ((goString "/receipts/").length : Int)
      (lastIndex path (goString "/points")) with
  | none => rfl
  | some id =>
      simp only []
      cases store.get id <;> rfl

theorem storeAfter_keys (reqs : List (Option Receipt × GoString)) (id : GoString) (p : Int)
    (h : (id, p) ∈ storeAfter reqs) : id ∈ reqs.map Prod.snd := by
  induction reqs with
  | nil => simp [storeAfter] at h
  | cons q earlier ih =>
      obtain ⟨body, newId⟩ := q
      rw [storeAfter] at h
      unfold processReceiptHandler at h
      cases body with
      | none =>
          simp only [] at h
          exact List.mem_cons_of_mem _ (ih h)
      | some receipt =>
          simp only [] at h
          split_ifs at h
          · exact List.mem_cons_of_mem _ (ih h)
          · simp only [Store.put, List.mem_cons, Prod.mk.injEq] at h
            rcases h with ⟨h1, _⟩ | h
            · simp [h1]
            · exact List.mem_cons_of_mem _ (ih h)

/-! ## The claims on validation, the handlers and the order of the items -/

set_option maxRecDepth 100000 in
/-- Claim C15: `isValidReceipt` reads only the retailer and the items:
replacing `purchaseDate`, `purchaseTime` and `total` by any other texts does
not change its result, and the corner market receipt with an unparsable date,
time and total passes validation. -/
theorem validation_ignores_date_time_total (r : Receipt) (date time total : String) :
    isValidReceipt { r with PurchaseDate := date, PurchaseTime := time, Total := total } =
        isValidReceipt r ∧
      isValidReceipt { cornerMarketReceipt with
        PurchaseDate := "not-a-date", PurchaseTime := "noon", Total := "not-a-number" } = true :=
  ⟨rfl, by decide⟩

/-- Claim C16: for every store, every receipt that passes `isValidReceipt`
and every new identifier, `processReceiptHandler` answers with the identifier
and stores the score under it, and `getPointsHandler` on the path
`/receipts/{id}/points` then finds the record and answers with exactly
`calculatePoints` of the receipt, leaving the store as it is. -/
theorem store_round_trip (store : Store) (r : Receipt) (newId : GoString)
    (hv : isValidReceipt r = true) :
    processReceiptHandler store (some r) newId =
        (store.put newId (calculatePoints r), Outcome.jsonId newId) ∧
      (store.put newId (calculatePoints r)).get newId = some (calculatePoints r) ∧
      getPointsHandler (processReceiptHandler store (some r) newId).1
          (goString "/receipts/" ++ newId ++ goString "/points") =
        ((processReceiptHandler store (some r) newId).1,
          Outcome.jsonPoints (calculatePoints r)) := by
  have h1 : processReceiptHandler store (some r) newId =
      (store.put newId (calculatePoints r), Outcome.jsonId newId) := by
    unfold processReceiptHandler
    simp [hv]
  refine ⟨h1, Store.get_put _ _ _, ?_⟩
  rw [h1]
  unfold getPointsHandler
  rw [slice_of_points_path]
  simp only [Store.get_put]

set_option maxRecDepth 100000 in
/-- Claim C16, witness: the Target receipt stored under `abc` in the empty
store. -/
theorem store_round_trip_witness :
    isValidReceipt targetReceipt = true ∧
      (processReceiptHandler [] (some targetReceipt) (goString "abc") =
          (Store.put [] (goString "abc") (calculatePoints targetReceipt),
            Outcome.jsonId (goString "abc")) ∧
        (Store.put [] (goString "abc") (calculatePoints targetReceipt)).get (goString "abc") =
          some (calculatePoints targetReceipt) ∧
        getPointsHandler (processReceiptHandler [] (some targetReceipt) (goString "abc")).1
            (goString "/receipts/" ++ goString "abc" ++ goString "/points") =
          ((processReceiptHandler [] (some targetReceipt) (goString "abc")).1,
            Outcome.jsonPoints (calculatePoints targetReceipt))) :=
  ⟨by decide, store_round_trip [] targetReceipt (goString "abc") (by decide)⟩

/-- Claim C17: for every store and every decoded receipt that fails
`isValidReceipt`, `processReceiptHandler` answers with the error
`Invalid receipt data` (status 400) and returns the store as it was; no
identifier is returned and nothing is stored. -/
theorem invalid_receipt_rejected (store : Store) (r : Receipt) (newId : GoString)
    (h : isValidReceipt r = false) :
    processReceiptHandler store (some r) newId =
      (store, Outcome.httpError "Invalid receipt data" 400) := by
  unfold processReceiptHandler
  simp [h, ErrInvalidReceiptData]

set_option maxRecDepth 100000 in
/-- Claim C17, witness: the corner market receipt with an empty retailer,
against a store with one record. -/
theorem invalid_receipt_rejected_witness :
    isValidReceipt { cornerMarketReceipt with Retailer := "" } = false ∧
      processReceiptHandler [(goString "abc", 28)]
          (some { cornerMarketReceipt with Retailer := "" }) (goString "def") =
        ([(goString "abc", 28)], Outcome.httpError "Invalid receipt data" 400) :=
  ⟨by decide,
    invalid_receipt_rejected [(goString "abc", 28)] { cornerMarketReceipt with Retailer := "" }
      (goString "def") (by decide)⟩

/-- Claim C18: when the identifier that `getPointsHandler` reads from the
path was never stored (no assignment to it in the store; in particular it is
none of the identifiers given to earlier `processReceiptHandler` calls), the
handler answers `Receipt not found` (status 404) and not a points value; and
every call of `getPointsHandler` returns the store as it was. -/
theorem lookup_of_unknown_id (path id : GoString)
    (hid : sliceBytes path ((goString "/receipts/").length : Int)
      (lastIndex path (goString "/points")) = some id) :
    (∀ store : Store, (∀ p, (id, p) ∉ store) →
        getPointsHandler store path = (store, Outcome.httpError "Receipt not found" 404)) ∧
      (∀ reqs : List (Option Receipt × GoString), id ∉ reqs.map Prod.snd →
        getPointsHandler (storeAfter reqs) path =
          (storeAfter reqs, Outcome.httpError "Receipt not found" 404)) ∧
      (∀ (store : Store) (anyPath : GoString), (getPointsHandler store anyPath).1 = store) := by
  have key : ∀ store : Store, (∀ p, (id, p) ∉ store) →
      getPointsHandler store path = (store, Outcome.httpError "Receipt not found" 404) := by
    intro store hnew
    unfold getPointsHandler
    rw [hid]
    simp only [Store.get_eq_none store id hnew]
    rfl
  refine ⟨key, ?_, getPointsHandler_store⟩
  intro reqs hnot
  exact key _ (fun p hp => hnot (storeAfter_keys reqs id p hp))

set_option maxRecDepth 100000 in
/-- Claim C18, witness: the path `/receipts/abc/points`, whose identifier is
`abc`, against the store left by one request that stored under `def`. -/
theorem lookup_of_unknown_id_witness :
    getPointsHandler (storeAfter [(some targetReceipt, goString "def")])
        (goString "/receipts/abc/points") =
      (storeAfter [(some targetReceipt, goString "def")],
        Outcome.httpError "Receipt not found" 404) :=
  (lookup_of_unknown_id (goString "/receipts/abc/points") (goString "abc") (by decide)).2.1
    [(some targetReceipt, goString "def")] (by decide)

set_option maxRecDepth 100000 in
/-- Claim C19, at the failing inputs: `getPointsHandler` fails in its slice
expression exactly when the last `/points` of the path starts before index 10
or is absent; for `/receipts/abc` `strings.LastIndex` is -1, for
`/receipts/points` it is 9, and in both cases the slice bounds are out of
range and the handler produces neither a points nor a not-found response. -/
theorem getPointsHandler_slice_out_of_range (store : Store) (path : GoString) :
    ((getPointsHandler store path).2 = Outcome.sliceOutOfRange ↔
        lastIndex path (goString "/points") < 10) ∧
      lastIndex (goString "/receipts/abc") (goString "/points") = -1 ∧
      getPointsHandler [] (goString "/receipts/abc") = ([], Outcome.sliceOutOfRange) ∧
      lastIndex (goString "/receipts/points") (goString "/points") = 9 ∧
      getPointsHandler [] (goString "/receipts/points") = ([], Outcome.sliceOutOfRange) := by
  refine ⟨?_, by decide, by decide, by decide, by decide⟩
  have hle := lastIndex_le_length path (goString "/points")
  unfold getPointsHandler
  rw [receiptsPath_length]
  cases hs : sliceBytes path 10 (lastIndex path (goString "/points")) with
  | none =>
      simp only [true_iff]
      rw [sliceBytes_eq_none_iff] at hs
      omega
  | some id =>
      have hs2 : sliceBytes path 10 (lastIndex path (goString "/points")) ≠ none := by
        rw [hs]
        simp
      rw [ne_eq, sliceBytes_eq_none_iff, not_not] at hs2
      simp only []
      cases store.get id with
      | none =>
          simp only [false_iff, reduceCtorEq]
          omega
      | some p =>
          simp only [false_iff, reduceCtorEq]
          omega

/-- Claim C20: for every receipt and every reordering of its items, the
receipt with the reordered items has the same `calculatePoints` value and the
same `isValidReceipt` result. -/
theorem items_order_irrelevant (r : Receipt) (items : List Item) (h : r.Items.Perm items) :
    calculatePoints { r with Items := items } = calculatePoints r ∧
      isValidReceipt { r with Items := items } = isValidReceipt r := by
  constructor
  · rw [calculatePoints_eq_wrapInt, calculatePoints_eq_wrapInt]
    congr 1
    have h1 : pointsItemCount { r with Items := items } = pointsItemCount r := by
      simp only [pointsItemCount]
      rw [h.length_eq]
    have h2 : pointsItems { r with Items := items } = pointsItems r := by
      simp only [pointsItems]
      exact ((h.map itemPoints).sum_eq).symm
    unfold exactPoints
    rw [h1, h2]
    rfl
  · have hall : allItemsValid items = allItemsValid r.Items := by
      rw [Bool.eq_iff_iff, allItemsValid_iff, allItemsValid_iff]
      exact ⟨fun hq item hi => hq item (h.mem_iff.mp hi),
        fun hq item hi => hq item (h.mem_iff.mpr hi)⟩
    unfold isValidReceipt
    simp only [hall, h.length_eq]

set_option maxRecDepth 100000 in
/-- Claim C20, witness: the Target receipt with its items in reverse order. -/
theorem items_order_irrelevant_witness :
    calculatePoints { targetReceipt with Items := targetReceipt.Items.reverse } =
        calculatePoints targetReceipt ∧
      isValidReceipt { targetReceipt with Items := targetReceipt.Items.reverse } =
        isValidReceipt targetReceipt :=
  items_order_irrelevant targetReceipt targetReceipt.Items.reverse
    (List.reverse_perm targetReceipt.Items).symm

/-! ## The error of rounding to float64 -/

/-- The rounded mantissa is within one half of the scaled quotient. -/
theorem roundedMant_near (n d : Nat) (q : ℤ) (hd : 0 < d) :
    |(roundedMant n d q : ℚ) - (n : ℚ) / d / (2 : ℚ) ^ q| ≤ 1 / 2 := by
  rw [← scale_div]
  have hden : 0 < scaleDen d q := scaleDen_pos d q hd
  have hdenq : (0 : ℚ) < (scaleDen d q : ℚ) := by exact_mod_cast hden
  have hdm := Nat.div_add_mod (scaleNum n q) (scaleDen d q)
  have hmod := Nat.mod_lt (scaleNum n q) hden
  have hnum : (scaleNum n q : ℚ) =
      (scaleDen d q : ℚ) * ((scaleNum n q / scaleDen d q : ℕ) : ℚ) +
        ((scaleNum n q % scaleDen d q : ℕ) : ℚ) := by
    exact_mod_cast hdm.symm
  unfold roundedMant
  simp only []
  generalize hQ : scaleNum n q / scaleDen d q = Q at hnum
  generalize hR : scaleNum n q % scaleDen d q = R at hnum hmod
  generalize hD : scaleDen d q = D at hnum hmod hden hdenq
  have hy : (scaleNum n q : ℚ) / (D : ℚ) = (Q : ℚ) + (R : ℚ) / (D : ℚ) := by
    rw [hnum]
    field_simp
    ring
  rw [hy]
  have hRq : (0 : ℚ) ≤ (R : ℚ) := Nat.cast_nonneg R
  have hRD : (R : ℚ) < (D : ℚ) := by exact_mod_cast hmod
  have hf0 : (0 : ℚ) ≤ (R : ℚ) / (D : ℚ) := by positivity
  split_ifs with h
  · have h2 : (D : ℚ) ≤ 2 * (R : ℚ) := by
      rcases h with h | ⟨h, _⟩
      · exact_mod_cast h.le
      · exact_mod_cast h.ge
    have hhalf : (1 : ℚ) / 2 ≤ (R : ℚ) / (D : ℚ) := by
      rw [le_div_iff₀ hdenq]
      linarith
    have hlt1 : (R : ℚ) / (D : ℚ) < 1 := by
      rw [div_lt_one hdenq]
      exact hRD
    push_cast
    rw [abs_le]
    constructor <;> linarith
  · have h2 : 2 * (R : ℚ) ≤ (D : ℚ) := by
      have : ¬ D < 2 * R := fun hc => h (Or.inl hc)
      exact_mod_cast (not_lt.mp this)
    have hhalf : (R : ℚ) / (D : ℚ) ≤ 1 / 2 := by
      rw [div_le_iff₀ hdenq]
      linarith
    rw [abs_le]
    constructor <;> linarith

/-- The exponent of a quotient in the normal range. -/
theorem floorLog2_bounds (n d : Nat) (hn : 0 < n) (hd : 0 < d) (lo hi : ℤ)
    (hlo : (2 : ℚ) ^ lo ≤ (n : ℚ) / d) (hhi : (n : ℚ) / d < (2 : ℚ) ^ hi) :
    lo ≤ floorLog2 n d ∧ floorLog2 n d < hi := by
  have hs := floorLog2_spec n d hn hd
  have two1 : (1 : ℚ) < 2 := by norm_num
  constructor
  · have h : (2 : ℚ) ^ lo < (2 : ℚ) ^ (floorLog2 n d + 1) := lt_of_le_of_lt hlo hs.2
    have := (zpow_lt_zpow_iff_right₀ two1).mp h
    omega
  · have h : (2 : ℚ) ^ floorLog2 n d < (2 : ℚ) ^ hi := lt_of_le_of_lt hs.1 hhi
    exact (zpow_lt_zpow_iff_right₀ two1).mp h

/-- Rounding a quotient in the normal range: the result is finite, its last
place is 52 below the binary exponent `e` of the quotient, its mantissa is
within one half of the scaled quotient, and its value differs from the
quotient by at most the fraction `2^-53` of it. -/
theorem roundNearestEven_normal (neg : Bool) (n d : Nat) (hn : 0 < n) (hd : 0 < d)
    (hlo : (2 : ℚ) ^ (-1022 : ℤ) ≤ (n : ℚ) / d) (hhi : (n : ℚ) / d < (2 : ℚ) ^ (1023 : ℤ)) :
    ∃ (m : ℕ) (e : ℤ), roundNearestEven neg n d = F64.fin neg m (e - 52) ∧
      (2 : ℚ) ^ e ≤ (n : ℚ) / d ∧ (n : ℚ) / d < (2 : ℚ) ^ (e + 1) ∧
      |(m : ℚ) - (n : ℚ) / d / (2 : ℚ) ^ (e - 52)| ≤ 1 / 2 ∧
      |(m : ℚ) * (2 : ℚ) ^ (e - 52) - (n : ℚ) / d| ≤ (n : ℚ) / d * (2 : ℚ) ^ (-53 : ℤ) := by
  have hb := floorLog2_bounds n d hn hd (-1022) 1023 hlo hhi
  have hs := floorLog2_spec n d hn hd
  have hq : lastPlace n d = floorLog2 n d - 52 := by
    unfold lastPlace
    omega
  have h2 := roundedMant_near n d (floorLog2 n d - 52) hd
  refine ⟨roundedMant n d (floorLog2 n d - 52), floorLog2 n d, ?_, hs.1, hs.2, h2, ?_⟩
  · unfold roundNearestEven
    rw [if_neg (by omega), if_neg (by omega), hq, if_neg]
    rintro ⟨h, _⟩
    omega
  · generalize roundedMant n d (floorLog2 n d - 52) = m at h2
    set q := floorLog2 n d - 52 with hq2
    have hqpos := two_zpow_pos q
    have two0 : (2 : ℚ) ≠ 0 := by norm_num
    have hsplit : (m : ℚ) * (2 : ℚ) ^ q - (n : ℚ) / d =
        ((m : ℚ) - (n : ℚ) / d / (2 : ℚ) ^ q) * (2 : ℚ) ^ q := by
      field_simp
      ring
    rw [hsplit, abs_mul, abs_of_pos hqpos]
    have hpow : (2 : ℚ) ^ q = (2 : ℚ) ^ floorLog2 n d * (2 : ℚ) ^ (-52 : ℤ) := by
      rw [hq2, sub_eq_add_neg, zpow_add₀ two0]
    calc |(m : ℚ) - (n : ℚ) / d / (2 : ℚ) ^ q| * (2 : ℚ) ^ q
        ≤ 1 / 2 * (2 : ℚ) ^ q := mul_le_mul_of_nonneg_right h2 hqpos.le
      _ = (2 : ℚ) ^ floorLog2 n d * (2 : ℚ) ^ (-53 : ℤ) := by
          rw [hpow]
          norm_num
          ring
      _ ≤ (n : ℚ) / d * (2 : ℚ) ^ (-53 : ℤ) :=
          mul_le_mul_of_nonneg_right hs.1 (two_zpow_pos _).le

/-! ## One fifth of a price in cents -/

/-- Numbers between `2^-10` and `2^64` are in the normal range of float64. -/
theorem normal_of_bounds (x : ℚ) (h1 : 1 / 1024 ≤ x) (h2 : x ≤ 18446744073709551616) :
    (2 : ℚ) ^ (-1022 : ℤ) ≤ x ∧ x < (2 : ℚ) ^ (1023 : ℤ) := by
  have a : (2 : ℚ) ^ (-1022 : ℤ) ≤ (2 : ℚ) ^ (-10 : ℤ) :=
    zpow_le_zpow_right₀ (by norm_num) (by norm_num)
  have b : (2 : ℚ) ^ (65 : ℤ) ≤ (2 : ℚ) ^ (1023 : ℤ) :=
    zpow_le_zpow_right₀ (by norm_num) (by norm_num)
  have a2 : (2 : ℚ) ^ (-10 : ℤ) = 1 / 1024 := by norm_num
  have b2 : (2 : ℚ) ^ (65 : ℤ) = 36893488147419103232 := by norm_num
  constructor
  · exact (a.trans a2.le).trans h1
  · refine lt_of_lt_of_le (lt_of_le_of_lt h2 ?_) b
    rw [b2]
    norm_num

/-- A natural number within less than one of another is that number. -/
theorem nat_eq_of_abs_lt_one (a b : ℕ) (h : |(a : ℚ) - (b : ℚ)| < 1) : a = b := by
  have h2 : |((a : ℤ) - (b : ℤ) : ℤ)| < 1 := by
    have : (((|((a : ℤ) - (b : ℤ))| : ℤ)) : ℚ) < ((1 : ℤ) : ℚ) := by
      push_cast
      exact h
    exact_mod_cast this
  have := Int.abs_lt_one_iff.mp h2
  omega

/-- The value of the float64 constant `0.2`. -/
theorem oneFifth_value :
    ((7205759403792794 : ℕ) : ℚ) * (2 : ℚ) ^ (-55 : ℤ) = 18014398509481985 / 90071992547409920 := by
  norm_num

/-- The product of a positive finite float64 and `0.2`, as a rounding. -/
theorem mul_oneFifth (m : Nat) (q : ℤ) :
    F64.mul (F64.fin false m q) F64.oneFifth =
      roundNearestEven false (m * 7205759403792794 * 2 ^ (q + -55).toNat)
        (2 ^ (-(q + -55)).toNat) := by
  rw [oneFifth_eq]
  rfl

theorem mul_oneFifth_ratio (m : Nat) (q : ℤ) :
    ((m * 7205759403792794 * 2 ^ (q + -55).toNat : ℕ) : ℚ) /
        ((2 ^ (-(q + -55)).toNat : ℕ) : ℚ) =
      (m : ℚ) * (2 : ℚ) ^ q * (18014398509481985 / 90071992547409920) := by
  rw [dyadic_ratio, ← oneFifth_value, zpow_add₀ (by norm_num : (2 : ℚ) ≠ 0)]
  push_cast
  ring

/-- Rational bounds: a price of `k` cents that is not a whole multiple of
five units, rounded twice with relative error `2^-53`, stays strictly between
the two integers around its fifth. -/
theorem fifth_between (k n s : ℕ) (V W : ℚ) (hk : k ≤ 10 ^ 15) (hns : k = 500 * n + s)
    (hs1 : 1 ≤ s) (hs2 : s ≤ 499)
    (hV : |V - (k : ℚ) / 100| ≤ (k : ℚ) / 100 * (2 : ℚ) ^ (-53 : ℤ))
    (hW : |W - V * (18014398509481985 / 90071992547409920)| ≤
      V * (18014398509481985 / 90071992547409920) * (2 : ℚ) ^ (-53 : ℤ)) :
    (n : ℚ) < W ∧ W ≤ (n : ℚ) + 1 ∧ (n : ℚ) < V * (1 / 5) ∧ V * (1 / 5) ≤ (n : ℚ) + 1 ∧
      (n : ℚ) < (k : ℚ) / 100 * (1 / 5) ∧ (k : ℚ) / 100 * (1 / 5) ≤ (n : ℚ) + 1 := by
  have hkq : (k : ℚ) = 500 * (n : ℚ) + (s : ℚ) := by exact_mod_cast hns
  have hk2 : (k : ℚ) ≤ 10 ^ 15 := by exact_mod_cast hk
  have hs1q : (1 : ℚ) ≤ (s : ℚ) := by exact_mod_cast hs1
  have hs2q : (s : ℚ) ≤ 499 := by exact_mod_cast hs2
  have hn0 : (0 : ℚ) ≤ (n : ℚ) := Nat.cast_nonneg n
  have hu : (2 : ℚ) ^ (-53 : ℤ) = 1 / 9007199254740992 := by norm_num
  rw [hu] at hV hW
  rw [abs_le] at hV hW
  obtain ⟨hV1, hV2⟩ := hV
  obtain ⟨hW1, hW2⟩ := hW
  refine ⟨?_, ?_, ?_, ?_, ?_, ?_⟩ <;> linarith

/-- The float64 nearest to a price of `k` cents, for `k` up to `10^15`. -/
theorem cents_rounded (k : ℕ) (hk0 : 0 < k) (hk : k ≤ 10 ^ 15) :
    ∃ (m : ℕ) (q : ℤ), roundNearestEven false k 100 = F64.fin false m q ∧
      |(m : ℚ) * (2 : ℚ) ^ q - (k : ℚ) / 100| ≤ (k : ℚ) / 100 * (2 : ℚ) ^ (-53 : ℤ) := by
  have hk1 : (1 : ℚ) ≤ k := by exact_mod_cast hk0
  have hk2 : (k : ℚ) ≤ 10 ^ 15 := by exact_mod_cast hk
  have hn := normal_of_bounds ((k : ℚ) / 100) (by linarith) (by linarith)
  obtain ⟨m, e, h1, _, _, _, h5⟩ := roundNearestEven_normal false k 100 hk0 (by norm_num)
    (by simpa using hn.1) (by simpa using hn.2)
  exact ⟨m, e - 52, h1, by simpa using h5⟩

/-- The float64 product of a positive float64 of moderate size and `0.2`. -/
theorem mul_oneFifth_normal (m : ℕ) (q : ℤ) (hm : 0 < m) (x : ℚ)
    (hx : x = (m : ℚ) * (2 : ℚ) ^ q * (18014398509481985 / 90071992547409920))
    (h1 : 1 / 1024 ≤ x) (h2 : x ≤ 18446744073709551616) :
    ∃ (m2 : ℕ) (e : ℤ), F64.mul (F64.fin false m q) F64.oneFifth = F64.fin false m2 (e - 52) ∧
      (2 : ℚ) ^ e ≤ x ∧ x < (2 : ℚ) ^ (e + 1) ∧
      |(m2 : ℚ) - x / (2 : ℚ) ^ (e - 52)| ≤ 1 / 2 ∧
      |(m2 : ℚ) * (2 : ℚ) ^ (e - 52) - x| ≤ x * (2 : ℚ) ^ (-53 : ℤ) := by
  have hn := normal_of_bounds x h1 h2
  have hr := mul_oneFifth_ratio m q
  rw [← hx] at hr
  have hN : 0 < m * 7205759403792794 * 2 ^ (q + -55).toNat := by positivity
  have hD : 0 < 2 ^ (-(q + -55)).toNat := by positivity
  have h := roundNearestEven_normal false _ _ hN hD (by rw [hr]; exact hn.1)
    (by rw [hr]; exact hn.2)
  rw [hr] at h
  rw [mul_oneFifth]
  exact h

/-- A price of five times `j` units: the float64 product with `0.2` is
rounded to `j` exactly. -/
theorem fifth_of_multiple (j m : ℕ) (q : ℤ) (hj0 : 0 < j) (hj : j ≤ 2 * 10 ^ 12)
    (hV : (m : ℚ) * (2 : ℚ) ^ q = 5 * (j : ℚ)) :
    ∃ (m2 : ℕ) (q2 : ℤ), F64.mul (F64.fin false m q) F64.oneFifth = F64.fin false m2 q2 ∧
      (m2 : ℚ) * (2 : ℚ) ^ q2 = (j : ℚ) := by
  have hj1 : (1 : ℚ) ≤ j := by exact_mod_cast hj0
  have hj2 : (j : ℚ) ≤ 2 * 10 ^ 12 := by exact_mod_cast hj
  have two0 : (2 : ℚ) ≠ 0 := by norm_num
  have hm : 0 < m := by
    rcases Nat.eq_zero_or_pos m with h | h
    · rw [h] at hV
      simp at hV
      omega
    · exact h
  obtain ⟨x, hx⟩ : ∃ x : ℚ, x = (m : ℚ) * (2 : ℚ) ^ q *
      (18014398509481985 / 90071992547409920) := ⟨_, rfl⟩
  have hxj : x = (j : ℚ) * (18014398509481985 / 18014398509481984) := by
    rw [hx, hV]
    ring
  obtain ⟨m2, e, h1, hlo, hhi, hhalf, _⟩ := mul_oneFifth_normal m q hm x hx
    (by rw [hxj]; linarith) (by rw [hxj]; linarith)
  refine ⟨m2, e - 52, h1, ?_⟩
  have he : e < 42 := by
    have h42 : (2 : ℚ) ^ (42 : ℤ) = 4398046511104 := by norm_num
    have : (2 : ℚ) ^ e < (2 : ℚ) ^ (42 : ℤ) := by
      rw [h42]
      refine lt_of_le_of_lt hlo ?_
      rw [hxj]
      linarith
    exact (zpow_lt_zpow_iff_right₀ (by norm_num)).mp this
  obtain ⟨t, ht⟩ : ∃ t : ℕ, (t : ℤ) = 52 - e := ⟨(52 - e).toNat, by omega⟩
  have hpow : (2 : ℚ) ^ (e - 52) = ((2 : ℚ) ^ t)⁻¹ := by
    rw [← zpow_natCast, ht, ← zpow_neg]
    congr 1
    ring
  have htpos : (0 : ℚ) < (2 : ℚ) ^ t := by positivity
  have hA : m2 = j * 2 ^ t := by
    apply nat_eq_of_abs_lt_one
    have hx2 : x / (2 : ℚ) ^ (e - 52) = x * (2 : ℚ) ^ t := by
      rw [hpow, div_inv_eq_mul]
    have hjlt : (j : ℚ) < (2 : ℚ) ^ (e + 1) := by
      refine lt_of_le_of_lt ?_ hhi
      rw [hxj]
      linarith
    have h53 : (j : ℚ) * (2 : ℚ) ^ t < 9007199254740992 := by
      have hh : (2 : ℚ) ^ (e + 1) * (2 : ℚ) ^ t = 9007199254740992 := by
        rw [← zpow_natCast (2 : ℚ) t, ht, ← zpow_add₀ two0]
        have : e + 1 + (52 - e) = 53 := by ring
        rw [this]
        norm_num
      calc (j : ℚ) * (2 : ℚ) ^ t < (2 : ℚ) ^ (e + 1) * (2 : ℚ) ^ t :=
            mul_lt_mul_of_pos_right hjlt htpos
        _ = 9007199254740992 := hh
    have hdiff : x * (2 : ℚ) ^ t =
        (j : ℚ) * (2 : ℚ) ^ t + (j : ℚ) * (2 : ℚ) ^ t / 18014398509481984 := by
      rw [hxj]
      ring
    have hjt : (0 : ℚ) < (j : ℚ) * (2 : ℚ) ^ t := by positivity
    rw [hx2, hdiff, abs_le] at hhalf
    push_cast
    rw [abs_lt]
    constructor <;> linarith
  rw [hA, hpow]
  push_cast
  field_simp

/-- The points of a price of `k` cents, `k` up to `10^15`: the float64
computation `int(math.Ceil(price * 0.2))` yields the exact ceiling of a fifth
of the price. -/
theorem fifth_of_cents (k : ℕ) (hk0 : 0 < k) (hk : k ≤ 10 ^ 15) :
    ∃ (m : ℕ) (q : ℤ), roundNearestEven false k 100 = F64.fin false m q ∧
      (F64.ceil (F64.mul (F64.fin false m q) F64.oneFifth)).fitsInt = true ∧
      F64.toInt (F64.ceil (F64.mul (F64.fin false m q) F64.oneFifth)) =
        ⌈(k : ℚ) / 100 * (1 / 5)⌉ ∧
      ⌈F64.toRat (F64.fin false m q) * (1 / 5)⌉ = ⌈(k : ℚ) / 100 * (1 / 5)⌉ := by
  have hk1 : (1 : ℚ) ≤ k := by exact_mod_cast hk0
  have hk2 : (k : ℚ) ≤ 10 ^ 15 := by exact_mod_cast hk
  have hu : (2 : ℚ) ^ (-53 : ℤ) = 1 / 9007199254740992 := by norm_num
  obtain ⟨m, q, h1, hV⟩ := cents_rounded k hk0 hk
  refine ⟨m, q, h1, ?_⟩
  have htr : ∀ (a : ℕ) (b : ℤ), F64.toRat (F64.fin false a b) = (a : ℚ) * (2 : ℚ) ^ b := by
    intro a b
    rw [toRat_fin]
    simp
  by_cases hmod : k % 500 = 0
  · -- a whole multiple of five units
    obtain ⟨j, hj⟩ : ∃ j, k = 500 * j := ⟨k / 500, by omega⟩
    have hj0 : 0 < j := by omega
    have hjle : j ≤ 2 * 10 ^ 12 := by
      have : 500 * j ≤ 10 ^ 15 := hj ▸ hk
      norm_num at this ⊢
      omega
    have hkq : (k : ℚ) / 100 = 5 * (j : ℚ) := by
      rw [hj]
      push_cast
      ring
    have hj2 : (j : ℚ) ≤ 2 * 10 ^ 12 := by exact_mod_cast hjle
    have hrep : Representable (((k : ℕ) : ℚ) / ((100 : ℕ) : ℚ)) := by
      refine ⟨5 * j, 0, ?_, by norm_num, ?_⟩
      · norm_num at hjle ⊢
        omega
      · push_cast
        rw [hkq]
        simp
    obtain ⟨m', q', h1', hV'⟩ := roundNearestEven_exact false k 100 (by norm_num) hrep (by
      push_cast
      rw [hkq]
      have : (2 : ℚ) ^ (64 : ℤ) ≤ (2 : ℚ) ^ (1024 : ℤ) :=
        zpow_le_zpow_right₀ (by norm_num) (by norm_num)
      have h64 : (2 : ℚ) ^ (64 : ℤ) = 18446744073709551616 := by norm_num
      rw [h64] at this
      linarith)
    rw [h1] at h1'
    injection h1' with _ hm hq
    subst hm
    subst hq
    have hVj : (m : ℚ) * (2 : ℚ) ^ q = 5 * (j : ℚ) := by
      rw [hV']
      push_cast
      exact hkq
    obtain ⟨m2, q2, hmul, hW⟩ := fifth_of_multiple j m q hj0 hjle hVj
    have hc1 : ⌈F64.toRat (F64.fin false m2 q2)⌉ = (j : ℤ) := by
      rw [htr, hW]
      exact_mod_cast Int.ceil_intCast (j : ℤ)
    have hc2 : ⌈(k : ℚ) / 100 * (1 / 5)⌉ = (j : ℤ) := by
      rw [hkq]
      have : 5 * (j : ℚ) * (1 / 5) = ((j : ℤ) : ℚ) := by
        push_cast
        ring
      rw [this, Int.ceil_intCast]
    have hjz : (j : ℤ) ≤ 2 * 10 ^ 12 := by exact_mod_cast hjle
    have hr := toInt_ceil_of_range false m2 q2
      (by rw [hc1]; unfold minInt; omega) (by rw [hc1]; unfold maxInt; norm_num at hjz ⊢; omega)
    rw [hmul, hc2]
    refine ⟨hr.1, hr.2.trans hc1, ?_⟩
    rw [htr, hVj]
    have : 5 * (j : ℚ) * (1 / 5) = ((j : ℤ) : ℚ) := by
      push_cast
      ring
    rw [this, Int.ceil_intCast]
  · -- strictly between two multiples
    have hns : k = 500 * (k / 500) + k % 500 := by omega
    have hs1 : 1 ≤ k % 500 := by omega
    have hs2 : k % 500 ≤ 499 := by omega
    generalize k / 500 = n at hns
    generalize k % 500 = s at hns hs1 hs2
    have hnle : n ≤ 2 * 10 ^ 12 := by
      have : 500 * n + s ≤ 10 ^ 15 := hns ▸ hk
      norm_num at this ⊢
      omega
    have hnq : (n : ℚ) ≤ 2 * 10 ^ 12 := by exact_mod_cast hnle
    have hm : 0 < m := by
      rcases Nat.eq_zero_or_pos m with h | h
      · rw [h, hu, abs_le] at hV
        simp only [Nat.cast_zero, zero_mul] at hV
        linarith [hV.1]
      · exact h
    obtain ⟨x, hx⟩ : ∃ x : ℚ, x = (m : ℚ) * (2 : ℚ) ^ q *
        (18014398509481985 / 90071992547409920) := ⟨_, rfl⟩
    have hVb := hV
    rw [hu, abs_le] at hVb
    obtain ⟨m2, e, hmul, _, _, _, hW⟩ := mul_oneFifth_normal m q hm x hx
      (by rw [hx]; linarith [hVb.1, hVb.2]) (by rw [hx]; linarith [hVb.1, hVb.2])
    rw [hx] at hW
    obtain ⟨b1, b2, b3, b4, b5, b6⟩ :=
      fifth_between k n s _ _ hk hns hs1 hs2 hV hW
    have hc1 : ⌈F64.toRat (F64.fin false m2 (e - 52))⌉ = (n : ℤ) + 1 := by
      rw [htr, Int.ceil_eq_iff]
      push_cast
      constructor <;> linarith
    have hc2 : ⌈(k : ℚ) / 100 * (1 / 5)⌉ = (n : ℤ) + 1 := by
      rw [Int.ceil_eq_iff]
      push_cast
      constructor <;> linarith
    have hc3 : ⌈F64.toRat (F64.fin false m q) * (1 / 5)⌉ = (n : ℤ) + 1 := by
      rw [htr, Int.ceil_eq_iff]
      push_cast
      constructor <;> linarith
    have hnz : (n : ℤ) ≤ 2 * 10 ^ 12 := by exact_mod_cast hnle
    have hr := toInt_ceil_of_range false m2 (e - 52)
      (by rw [hc1]; unfold minInt; omega) (by rw [hc1]; unfold maxInt; norm_num at hnz ⊢; omega)
    rw [hmul, hc2]
    exact ⟨hr.1, hr.2.trans hc1, hc3⟩

/-! ## Prices written with two decimals -/

theorem isDigit_ne (c d : Char) (hc : isDigit c = true) (hd : isDigit d = false) : c ≠ d := by
  intro h
  rw [h, hd] at hc
  exact Bool.false_ne_true hc

theorem lowerAscii_digit (c : Char) (hc : isDigit c = true) : lowerAscii c = c := by
  unfold lowerAscii
  unfold isDigit at hc
  simp only [decide_eq_true_eq] at hc
  rw [if_neg]
  omega

/-- One digit read by the digit loop of `readFloat`. -/
theorem readMant_digit (c : Char) (cs : List Char) (st : MantState) (hc : isDigit c = true)
    (hinv : st.nd = 0 → st.mant = 0) :
    ∃ st2 : MantState, readMant 10 (c :: cs) st = readMant 10 cs st2 ∧
      st2.sawdot = st.sawdot ∧ st2.underscores = st.underscores ∧ st2.sawdigits = true ∧
      st2.mant = st.mant * 10 + digitVal c ∧ st2.dp - st2.nd = st.dp - st.nd - 1 ∧
      (st2.nd = 0 → st2.mant = 0) := by
  have h1 : c ≠ '_' := isDigit_ne c '_' hc (by decide)
  have h2 : c ≠ '.' := isDigit_ne c '.' hc (by decide)
  by_cases h0 : c = '0' ∧ st.nd = 0
  · refine ⟨{ st with sawdigits := true, dp := st.dp - 1 }, ?_, rfl, rfl, rfl, ?_, ?_, hinv⟩
    · rw [readMant, if_neg h1, if_neg h2, if_pos hc, if_pos h0]
    · simp only []
      rw [hinv h0.2, h0.1]
      decide
    · simp only []
      ring
  · refine ⟨{ st with sawdigits := true, nd := st.nd + 1, mant := st.mant * 10 + digitVal c },
      ?_, rfl, rfl, rfl, rfl, ?_, ?_⟩
    · rw [readMant, if_neg h1, if_neg h2, if_pos hc, if_neg h0]
    · simp only []
      push_cast
      ring
    · simp only []
      intro h
      omega

/-- A run of digits read by the digit loop of `readFloat`. -/
theorem readMant_digits (ds : List Char) (hds : ∀ c ∈ ds, isDigit c = true) :
    ∀ (rest : List Char) (st : MantState), (st.nd = 0 → st.mant = 0) →
    ∃ st2 : MantState, readMant 10 (ds ++ rest) st = readMant 10 rest st2 ∧
      st2.sawdot = st.sawdot ∧ st2.underscores = st.underscores ∧
      st2.sawdigits = (st.sawdigits || !ds.isEmpty) ∧
      st2.mant = ds.foldl (fun a c => a * 10 + digitVal c) st.mant ∧
      st2.dp - st2.nd = st.dp - st.nd - ds.length ∧
      (st2.nd = 0 → st2.mant = 0) := by
  induction ds with
  | nil =>
      intro rest st hinv
      exact ⟨st, rfl, rfl, rfl, by simp, rfl, by simp, hinv⟩
  | cons c cs ih =>
      intro rest st hinv
      obtain ⟨st1, e1, a1, a2, a3, a4, a5, a6⟩ :=
        readMant_digit c (cs ++ rest) st (hds c (List.mem_cons_self _ _)) hinv
      obtain ⟨st2, e2, b1, b2, b3, b4, b5, b6⟩ :=
        ih (fun x hx => hds x (List.mem_cons_of_mem _ hx)) rest st1 a6
      refine ⟨st2, ?_, b1.trans a1, b2.trans a2, ?_, ?_, ?_, b6⟩
      · rw [List.cons_append, e1, e2]
      · rw [b3, a3]
        simp
      · rw [b4, a4]
        rfl
      · rw [b5, a5]
        simp only [List.length_cons]
        push_cast
        ring

/-- The digit loop of `readFloat` on digits, a point and two digits. -/
theorem readMant_two_decimals (ds : List Char) (c1 c2 : Char)
    (hds : ∀ c ∈ ds, isDigit c = true) (h1 : isDigit c1 = true) (h2 : isDigit c2 = true) :
    ∃ st : MantState, readMant 10 (ds ++ ['.', c1, c2]) ⟨false, false, 0, 0, 0, false⟩ = (st, []) ∧
      st.sawdot = true ∧ st.underscores = false ∧ st.sawdigits = true ∧
      st.mant = decimalValue (ds ++ [c1, c2]) ∧ st.dp - st.nd = -2 := by
  obtain ⟨st1, e1, a1, a2, _, a4, _, a6⟩ :=
    readMant_digits ds hds ['.', c1, c2] ⟨false, false, 0, 0, 0, false⟩ (fun _ => rfl)
  have hdot : readMant 10 ('.' :: [c1, c2]) st1 =
      readMant 10 [c1, c2] { st1 with sawdot := true, dp := st1.nd } := by
    rw [readMant, if_neg (by decide), if_pos rfl, if_neg]
    rw [a1]
    exact Bool.false_ne_true
  obtain ⟨st2, e2, b1, b2, b3, b4, b5, b6⟩ :=
    readMant_digits [c1, c2] (by
      intro c hc
      simp only [List.mem_cons, List.mem_singleton, List.not_mem_nil, or_false] at hc
      rcases hc with rfl | rfl
      · exact h1
      · exact h2) [] { st1 with sawdot := true, dp := st1.nd } a6
  refine ⟨st2, ?_, b1, b2.trans a2, ?_, ?_, ?_⟩
  · rw [e1, hdot]
    rw [List.append_nil] at e2
    rw [e2, readMant]
  · rw [b3]
    simp
  · rw [b4]
    simp only []
    rw [a4]
    unfold decimalValue
    rw [List.foldl_append]
  · rw [b5]
    simp

theorem readFloat_of_readMant (a b c : Char) (t : List Char) (st : MantState)
    (ha : a ≠ '+') (ha2 : a ≠ '-') (hb : lowerAscii b ≠ 'x')
    (hst : readMant 10 (a :: b :: c :: t) ⟨false, false, 0, 0, 0, false⟩ = (st, []))
    (hd : st.sawdigits = true) (hu : st.underscores = false) (hdot : st.sawdot = true) :
    readFloat (a :: b :: c :: t) = some ⟨st.mant, st.dp - st.nd, false, false, []⟩ := by
  unfold readFloat
  simp [ha, ha2, hb, hst, hd, hu, hdot]

theorem special_of_plain (a : Char) (t : List Char) (h1 : a ≠ '+') (h2 : a ≠ '-')
    (h3 : a ≠ 'i') (h4 : a ≠ 'I') (h5 : a ≠ 'n') (h6 : a ≠ 'N') : special (a :: t) = none := by
  unfold special
  simp [h1, h2, h3, h4, h5, h6]

/-- A digit or a point is no sign, begins no infinity or NaN spelling and is
no hexadecimal mark. -/
theorem plain_char (x : Char) (h : isDigit x = true ∨ x = '.') :
    x ≠ '+' ∧ x ≠ '-' ∧ x ≠ 'i' ∧ x ≠ 'I' ∧ x ≠ 'n' ∧ x ≠ 'N' ∧ lowerAscii x ≠ 'x' := by
  rcases h with h | h
  · refine ⟨isDigit_ne x _ h (by decide), isDigit_ne x _ h (by decide),
      isDigit_ne x _ h (by decide), isDigit_ne x _ h (by decide), isDigit_ne x _ h (by decide),
      isDigit_ne x _ h (by decide), ?_⟩
    rw [lowerAscii_digit x h]
    exact isDigit_ne x _ h (by decide)
  · rw [h]
    decide

/-- The first characters of digits, a point and two digits. -/
theorem two_decimals_shape (ds : List Char) (c1 c2 : Char)
    (hds : ∀ c ∈ ds, isDigit c = true) (h1 : isDigit c1 = true) :
    ∃ (a b c : Char) (t : List Char), ds ++ ['.', c1, c2] = a :: b :: c :: t ∧
      (isDigit a = true ∨ a = '.') ∧ (isDigit b = true ∨ b = '.') := by
  match ds, hds with
  | [], _ => exact ⟨'.', c1, c2, [], rfl, Or.inr rfl, Or.inl h1⟩
  | [d], hd => exact ⟨d, '.', c1, [c2], rfl, Or.inl (hd d (by simp)), Or.inr rfl⟩
  | [d, e], hd =>
      exact ⟨d, e, '.', [c1, c2], rfl, Or.inl (hd d (by simp)), Or.inl (hd e (by simp))⟩
  | d :: e :: f :: r, hd =>
      exact ⟨d, e, f, r ++ ['.', c1, c2], rfl, Or.inl (hd d (by simp)), Or.inl (hd e (by simp))⟩

/-- What `strconv.ParseFloat` returns for a price written with digits, a
point and two digits, of at most `10^15` cents: the float64 nearest to the
price, and no error. -/
theorem parseFloat_two_decimals (s : String) (ds : List Char) (c1 c2 : Char)
    (hs : s.data = ds ++ ['.', c1, c2]) (hds : ∀ c ∈ ds, isDigit c = true)
    (h1 : isDigit c1 = true) (h2 : isDigit c2 = true)
    (hk : decimalValue (ds ++ [c1, c2]) ≤ 10 ^ 15) :
    parseFloat s = (roundNearestEven false (decimalValue (ds ++ [c1, c2])) 100, none) := by
  obtain ⟨st, e1, a1, a2, a3, a4, a5⟩ := readMant_two_decimals ds c1 c2 hds h1 h2
  obtain ⟨a, b, c, t, hshape, ha, hb⟩ := two_decimals_shape ds c1 c2 hds h1
  obtain ⟨p1, p2, p3, p4, p5, p6, _⟩ := plain_char a ha
  have hx := (plain_char b hb).2.2.2.2.2.2
  rw [hshape] at e1
  have hr := readFloat_of_readMant a b c t st p1 p2 hx e1 a3 a2 a1
  rw [a4, a5] at hr
  have hsp := special_of_plain a (b :: c :: t) p1 p2 p3 p4 p5 p6
  have hfin : ∃ m q, roundNearestEven false (decimalValue (ds ++ [c1, c2])) 100 =
      F64.fin false m q := by
    rcases Nat.eq_zero_or_pos (decimalValue (ds ++ [c1, c2])) with h0 | h0
    · refine ⟨0, 0, ?_⟩
      rw [h0]
      rfl
    · obtain ⟨m, q, h, _⟩ := cents_rounded _ h0 hk
      exact ⟨m, q, h⟩
  obtain ⟨m, q, hmq⟩ := hfin
  unfold parseFloat
  rw [hs, hshape, hsp, hr]
  simp [hmq]

set_option maxRecDepth 100000 in
theorem fifth_of_zero :
    F64.toInt (F64.ceil (F64.mul (F64.fin false 0 0) F64.oneFifth)) = 0 := by decide

/-- Rule R5 for an item whose price is written with digits, a point and two
digits and is at most `10^15` cents: the item adds the exact ceiling of a fifth
of its price, which is also the ceiling of a fifth of the parsed float64. -/
theorem itemPoints_two_decimals (item : Item) (ds : List Char) (c1 c2 : Char)
    (hs : item.Price.data = ds ++ ['.', c1, c2]) (hds : ∀ c ∈ ds, isDigit c = true)
    (h1 : isDigit c1 = true) (h2 : isDigit c2 = true)
    (hk : decimalValue (ds ++ [c1, c2]) ≤ 10 ^ 15)
    (h3 : byteLen (trimSpace item.ShortDescription.data) % 3 = 0) :
    itemPoints item = ⌈(decimalValue (ds ++ [c1, c2]) : ℚ) / 100 * (1 / 5)⌉ ∧
      itemPoints item = ⌈F64.toRat (parseFloat item.Price).1 * (1 / 5)⌉ := by
  have hp := parseFloat_two_decimals item.Price ds c1 c2 hs hds h1 h2 hk
  have hdef : itemPoints item =
      F64.toInt (F64.ceil (F64.mul (parseFloat item.Price).1 F64.oneFifth)) := by
    unfold itemPoints
    rw [hp]
    simp [h3]
  rw [hdef, hp]
  simp only []
  rcases Nat.eq_zero_or_pos (decimalValue (ds ++ [c1, c2])) with h0 | h0
  · rw [h0]
    have hz : roundNearestEven false 0 100 = F64.fin false 0 0 := rfl
    rw [hz, fifth_of_zero]
    simp [F64.toRat]
  · obtain ⟨m, q, e1, _, e3, e4⟩ := fifth_of_cents _ h0 hk
    rw [e1, e3, e4]
    exact ⟨rfl, rfl⟩

/-! ## Scores without overflow -/

theorem wrapInt_of_above {a : Int} (h1 : maxInt < a) (h2 : a ≤ maxInt + 2 ^ 64) :
    wrapInt a = a - 2 ^ 64 := by
  unfold maxInt at h1 h2
  unfold wrapInt
  omega

theorem calculatePoints_range (r : Receipt) :
    minInt ≤ calculatePoints r ∧ calculatePoints r ≤ maxInt := by
  rw [calculatePoints_eq_wrapInt]
  exact wrapInt_range _

theorem calculatePoints_of_range (r : Receipt) (h1 : minInt ≤ exactPoints r)
    (h2 : exactPoints r ≤ maxInt) : calculatePoints r = exactPoints r := by
  rw [calculatePoints_eq_wrapInt]
  exact wrapInt_of_range h1 h2

/-- Two receipts whose rule contributions differ by `k` in sum: the scores
differ by `k` when that fits in `int`, and by `k - 2^64` when it exceeds the
largest `int`. -/
theorem calculatePoints_shift (r1 r2 : Receipt) (k : Int)
    (h : exactPoints r1 = exactPoints r2 + k) :
    (minInt ≤ calculatePoints r2 + k → calculatePoints r2 + k ≤ maxInt →
        calculatePoints r1 = calculatePoints r2 + k) ∧
      (maxInt < calculatePoints r2 + k → calculatePoints r2 + k ≤ maxInt + 2 ^ 64 →
        calculatePoints r1 = calculatePoints r2 + k - 2 ^ 64) := by
  have e : calculatePoints r1 = wrapInt (calculatePoints r2 + k) :=
    calculatePoints_of_exact_add r1 r2 k h
  constructor
  · intro h1 h2
    rw [e]
    exact wrapInt_of_range h1 h2
  · intro h1 h2
    rw [e]
    exact wrapInt_of_above h1 h2

/-- A shift by a non-negative amount that is at most `2^64`. -/
theorem calculatePoints_shift_up (r1 r2 : Receipt) (k : Int) (hk : 0 ≤ k) (hk2 : k ≤ 2 ^ 64)
    (h : exactPoints r1 = exactPoints r2 + k) :
    (calculatePoints r2 + k ≤ maxInt → calculatePoints r1 = calculatePoints r2 + k) ∧
      (maxInt < calculatePoints r2 + k → calculatePoints r1 = calculatePoints r2 + k - 2 ^ 64) := by
  have hs := calculatePoints_shift r1 r2 k h
  have hr := calculatePoints_range r2
  constructor
  · intro h2
    exact hs.1 (by linarith [hr.1]) h2
  · intro h1
    exact hs.2 h1 (by linarith [hr.2])

theorem pointsRoundTotal_of_error (r : Receipt) (t : String) (ht : (parseFloat t).2 ≠ none) :
    pointsRoundTotal { r with Total := t } = 0 := by
  unfold pointsRoundTotal
  rcases hp : parseFloat t with ⟨v, err⟩
  rw [hp] at ht
  simp only [hp]
  simp [ht]

theorem pointsQuarterTotal_of_error (r : Receipt) (t : String) (ht : (parseFloat t).2 ≠ none) :
    pointsQuarterTotal { r with Total := t } = 0 := by
  unfold pointsQuarterTotal
  rcases hp : parseFloat t with ⟨v, err⟩
  rw [hp] at ht
  simp only [hp]
  simp [ht]

theorem pointsQuarterTotal_values (r : Receipt) :
    pointsQuarterTotal r = 0 ∨ pointsQuarterTotal r = 25 := by
  unfold pointsQuarterTotal
  rcases parseFloat r.Total with ⟨v, err⟩
  simp only []
  split_ifs
  · exact Or.inr rfl
  · exact Or.inl rfl

/-- The score against the score of the same receipt with an unparsable
total. -/
theorem exactPoints_total (r : Receipt) (t : String) (ht : (parseFloat t).2 ≠ none) :
    exactPoints r =
      exactPoints { r with Total := t } + (pointsRoundTotal r + pointsQuarterTotal r) := by
  unfold exactPoints
  rw [pointsRoundTotal_of_error r t ht, pointsQuarterTotal_of_error r t ht]
  simp only [pointsRetailer, pointsItemCount, pointsItems, pointsDate, pointsTime]
  ring

theorem pointsTime_iff (r : Receipt) :
    pointsTime r = 10 ↔
      ∃ t, parseClockFields r.PurchaseTime.data = some t ∧ 14 ≤ t.hour ∧ t.hour < 16 := by
  have hdef : pointsTime r =
      if 14 ≤ (timeParseClock r.PurchaseTime).1.hour ∧ (timeParseClock r.PurchaseTime).1.hour < 16
      then 10 else 0 := rfl
  have hiff : (14 ≤ (timeParseClock r.PurchaseTime).1.hour ∧
      (timeParseClock r.PurchaseTime).1.hour < 16) ↔
      ∃ t, parseClockFields r.PurchaseTime.data = some t ∧ 14 ≤ t.hour ∧ t.hour < 16 := by
    unfold timeParseClock
    cases hp : parseClockFields r.PurchaseTime.data with
    | none => simp [Time.zero]
    | some t => simp
  rw [hdef, ← hiff]
  split_ifs with h <;> simp [h]

theorem pointsTime_values (r : Receipt) : pointsTime r = 0 ∨ pointsTime r = 10 := by
  unfold pointsTime
  simp only []
  split_ifs
  · exact Or.inr rfl
  · exact Or.inl rfl

theorem exactPoints_time (r : Receipt) :
    exactPoints r = exactPoints { r with PurchaseTime := "" } + pointsTime r := by
  have hempty : pointsTime { r with PurchaseTime := "" } = 0 := by
    have h0 : (timeParseClock "").1.hour = 0 := by decide
    simp [pointsTime, h0]
  unfold exactPoints
  rw [hempty]
  simp only [pointsRetailer, pointsRoundTotal, pointsQuarterTotal, pointsItemCount, pointsItems,
    pointsDate]
  ring

theorem pointsRetailer_eq_count (r : Receipt) :
    pointsRetailer r = (r.Retailer.data.countP isAlnum : Int) := by
  unfold pointsRetailer
  rw [findAllClass_length]

theorem exactPoints_retailer (r : Receipt) (a b : String) :
    exactPoints { r with Retailer := a } = exactPoints { r with Retailer := b } +
      ((a.data.countP isAlnum : Int) - (b.data.countP isAlnum : Int)) := by
  unfold exactPoints
  rw [pointsRetailer_eq_count, pointsRetailer_eq_count]
  simp only [pointsRoundTotal, pointsQuarterTotal, pointsItemCount, pointsItems, pointsDate,
    pointsTime]
  ring

theorem exactPoints_append (r : Receipt) (extra : List Item)
    (hextra : ∀ item ∈ extra, itemPoints item = 0) :
    exactPoints { r with Items := r.Items ++ extra } = exactPoints r +
      (5 * (((r.Items.length + extra.length) / 2 : Nat) : Int) -
        5 * ((r.Items.length / 2 : Nat) : Int)) := by
  have hz : (extra.map itemPoints).sum = 0 := by
    apply List.sum_eq_zero
    intro x hx
    obtain ⟨item, hi, rfl⟩ := List.mem_map.mp hx
    exact hextra item hi
  unfold exactPoints
  simp only [pointsRetailer, pointsRoundTotal, pointsQuarterTotal, pointsItemCount, pointsItems,
    pointsDate, pointsTime, List.map_append, List.sum_append, List.length_append, hz]
  ring

/-- The float64 of an `int` is finite and of magnitude below `10^19`. -/
theorem ofInt_abs_lt (n : ℤ) (h1 : minInt ≤ n) (h2 : n ≤ maxInt) :
    ∃ (b : Bool) (k : Nat) (f : ℤ), F64.ofInt n = F64.fin b k f ∧
      (k : ℚ) * (2 : ℚ) ^ f < 10 ^ 19 := by
  unfold F64.ofInt
  rcases Nat.eq_zero_or_pos n.natAbs with h0 | h0
  · refine ⟨decide (n < 0), 0, 0, ?_, by norm_num⟩
    rw [h0]
    rfl
  · have hN : (n.natAbs : ℤ) ≤ 2 ^ 63 := by
      unfold minInt at h1
      unfold maxInt at h2
      omega
    have hNq : ((n.natAbs : ℕ) : ℚ) ≤ 2 ^ 63 := by exact_mod_cast hN
    have hN1 : (1 : ℚ) ≤ ((n.natAbs : ℕ) : ℚ) := by exact_mod_cast h0
    have hu : (2 : ℚ) ^ (-53 : ℤ) = 1 / 9007199254740992 := by norm_num
    have hr : ((n.natAbs : ℕ) : ℚ) / ((1 : ℕ) : ℚ) = ((n.natAbs : ℕ) : ℚ) := by simp
    have hn := normal_of_bounds ((n.natAbs : ℕ) : ℚ) (by linarith) (by linarith)
    obtain ⟨m, e, e1, _, _, _, e5⟩ := roundNearestEven_normal (decide (n < 0)) n.natAbs 1 h0
      one_pos (by rw [hr]; exact hn.1) (by rw [hr]; exact hn.2)
    rw [hr, hu, abs_le] at e5
    refine ⟨decide (n < 0), m, e - 52, e1, ?_⟩
    linarith [e5.2]

/-! ## The claims on the score as an integer -/

/-- Claim C7, amended: for a receipt whose total parses without error to a
value whose conversion to `int` is defined whenever it is finite, rule R2
contributes 50 exactly when the parsed value is a whole number and 0
otherwise; and when the score of the same receipt with an unparsable total
plus 75 does not exceed the largest `int`, the score is that score plus the
contribution of rule R3 plus 50 exactly when the parsed value is a whole
number, and that score plus the contribution of rule R3 exactly when it is
not. -/
theorem round_total_adds_fifty (r : Receipt) (v : F64) (t : String)
    (hp : parseFloat r.Total = (v, none)) (hfit : v.isFinite = true → v.fitsInt = true)
    (ht : (parseFloat t).2 ≠ none) :
    (pointsRoundTotal r = 50 ↔ v.IsWhole) ∧ (pointsRoundTotal r = 0 ↔ ¬ v.IsWhole) ∧
      (pointsQuarterTotal r = 0 ∨ pointsQuarterTotal r = 25) ∧
      (calculatePoints { r with Total := t } + 75 ≤ maxInt →
        (calculatePoints r = calculatePoints { r with Total := t } + pointsQuarterTotal r + 50 ↔
          v.IsWhole) ∧
        (calculatePoints r = calculatePoints { r with Total := t } + pointsQuarterTotal r ↔
          ¬ v.IsWhole)) := by
  have key : F64.eq v (F64.ofInt (F64.toInt v)) = true ↔ v.IsWhole := by
    constructor
    · exact eq_ofInt_toInt_whole v
    · intro hw
      cases v with
      | nan => exact absurd hw.1 (by simp [F64.isFinite])
      | inf b => exact absurd hw.1 (by simp [F64.isFinite])
      | fin neg m e =>
          exact whole_eq_ofInt_toInt neg m e (parseFloat_wf _ _ _ _ _ hp) (hfit rfl) hw
  have hdef : pointsRoundTotal r =
      if F64.eq v (F64.ofInt (F64.toInt v)) = true then 50 else 0 := by
    unfold pointsRoundTotal
    rw [hp]
    simp
  have h50 : pointsRoundTotal r = 50 ↔ v.IsWhole := by
    rw [hdef, ← key]
    by_cases h : F64.eq v (F64.ofInt (F64.toInt v)) = true <;> simp [h]
  have h0 : pointsRoundTotal r = 0 ↔ ¬ v.IsWhole := by
    rw [hdef, ← key]
    by_cases h : F64.eq v (F64.ofInt (F64.toInt v)) = true <;> simp [h]
  have hR2 : pointsRoundTotal r = 0 ∨ pointsRoundTotal r = 50 := by
    rw [hdef]
    split_ifs
    · exact Or.inr rfl
    · exact Or.inl rfl
  have hR3 := pointsQuarterTotal_values r
  refine ⟨h50, h0, hR3, ?_⟩
  intro hsum
  have hsh := (calculatePoints_shift_up r { r with Total := t }
    (pointsRoundTotal r + pointsQuarterTotal r)
    (by rcases hR2 with a | a <;> rcases hR3 with b | b <;> rw [a, b] <;> norm_num)
    (by rcases hR2 with a | a <;> rcases hR3 with b | b <;> rw [a, b] <;> norm_num)
    (exactPoints_total r t ht)).1
    (by rcases hR2 with a | a <;> rcases hR3 with b | b <;> rw [a, b] <;> linarith)
  constructor
  · rw [← h50]
    constructor
    · intro h
      linarith
    · intro h
      rw [hsh, h]
      ring
  · rw [← h0]
    constructor
    · intro h
      linarith
    · intro h
      rw [hsh, h]
      ring

set_option maxRecDepth 100000 in
/-- Claim C7, witness: the corner market receipt, whose total `9.00` parses
to the float64 9, scores 109, which is the 34 of the same receipt with the
total `not-a-number` plus 25 for rule R3 plus 50; with the total `9.25` it
scores 59, which is 34 plus 25. -/
theorem round_total_adds_fifty_witness :
    parseFloat cornerMarketReceipt.Total = (F64.fin false 5066549580791808 (-49), none) ∧
      (F64.fin false 5066549580791808 (-49)).IsWhole ∧
      calculatePoints { cornerMarketReceipt with Total := "not-a-number" } = 34 ∧
      pointsQuarterTotal cornerMarketReceipt = 25 ∧
      calculatePoints cornerMarketReceipt = 109 ∧
      calculatePoints { cornerMarketReceipt with Total := "9.25" } = 59 ∧
      calculatePoints cornerMarketReceipt =
        calculatePoints { cornerMarketReceipt with Total := "not-a-number" } +
          pointsQuarterTotal cornerMarketReceipt + 50 :=
  ⟨by decide, ⟨rfl, 9, by norm_num [F64.toRat]⟩, by decide, by decide, by decide, by decide,
    ((round_total_adds_fifty cornerMarketReceipt (F64.fin false 5066549580791808 (-49))
      "not-a-number" (by decide) (fun _ => by decide) (by decide)).2.2.2 (by decide)).1.mpr
      ⟨rfl, 9, by norm_num [F64.toRat]⟩⟩

set_option maxRecDepth 100000 in
/-- Claim C7, counterexample: the total `1e19` parses without error to the
whole number `10^19`; no `int` converts back to it, and rule R2 adds nothing.
And on a valid receipt whose score with an unparsable total is 74 below the
largest `int`, the whole total `9.00` earns 50 and 25 from rules R2 and R3,
but the score is the smallest `int`, not 75 more. -/
theorem whole_total_without_fifty :
    parseFloat "1e19" = (F64.fin false 4882812500000000 11, none) ∧
      (F64.fin false 4882812500000000 11).toRat = 10 ^ 19 ∧
      (F64.fin false 4882812500000000 11).IsWhole ∧
      (∀ n : ℤ, minInt ≤ n → n ≤ maxInt →
        F64.eq (F64.fin false 4882812500000000 11) (F64.ofInt n) = false) ∧
      pointsRoundTotal { cornerMarketReceipt with Total := "1e19" } = 0 ∧
      calculatePoints { cornerMarketReceipt with Total := "1e19" } =
        calculatePoints { cornerMarketReceipt with Total := "not-a-number" } ∧
      isValidReceipt { edgeReceipt with
        Items := [⟨"abc", "46116860184273873920"⟩, ⟨"abc", "4690.00"⟩], Total := "9.00" } = true ∧
      pointsRoundTotal { edgeReceipt with
        Items := [⟨"abc", "46116860184273873920"⟩, ⟨"abc", "4690.00"⟩], Total := "9.00" } = 50 ∧
      pointsQuarterTotal { edgeReceipt with
        Items := [⟨"abc", "46116860184273873920"⟩, ⟨"abc", "4690.00"⟩], Total := "9.00" } = 25 ∧
      calculatePoints { edgeReceipt with
        Items := [⟨"abc", "46116860184273873920"⟩, ⟨"abc", "4690.00"⟩], Total := "x" } =
          9223372036854775733 ∧
      calculatePoints { edgeReceipt with
        Items := [⟨"abc", "46116860184273873920"⟩, ⟨"abc", "4690.00"⟩], Total := "9.00" } =
          -9223372036854775808 := by
  have hv : (F64.fin false 4882812500000000 11).toRat = 10 ^ 19 := by norm_num [F64.toRat]
  refine ⟨by decide, hv, ⟨rfl, 10 ^ 19, by norm_num [F64.toRat]⟩, ?_, by decide, by decide,
    by decide, by decide, by decide, by decide, by decide⟩
  intro n h1 h2
  obtain ⟨b, k, f, e1, e2⟩ := ofInt_abs_lt n h1 h2
  rw [e1]
  by_contra hne
  have heq : F64.eq (F64.fin false 4882812500000000 11) (F64.fin b k f) = true := by
    simpa using hne
  have h3 := (F64.eq_fin_iff _ _ _ _ _ _).mp heq
  have h4 := congrArg abs h3
  rw [abs_toRat_fin, abs_toRat_fin] at h4
  have h5 : ((4882812500000000 : ℕ) : ℚ) * (2 : ℚ) ^ (11 : ℤ) = 10 ^ 19 := by norm_num
  rw [h5] at h4
  linarith

/-- Claim C9, amended: when the total does not parse (`strconv.ParseFloat`
returns an error), rules R2 and R3 add nothing and no error is raised: two
receipts that differ only in their unparsable totals score the same, and that
score is the sum of rules R1, R4, R5, R6 and R7 alone whenever this sum lies
within the range of `int`. -/
theorem unparsable_total_scores_rest (r : Receipt) (t1 t2 : String)
    (h1 : (parseFloat t1).2 ≠ none) (h2 : (parseFloat t2).2 ≠ none) :
    calculatePoints { r with Total := t1 } = calculatePoints { r with Total := t2 } ∧
      pointsRoundTotal { r with Total := t1 } = 0 ∧
      pointsQuarterTotal { r with Total := t1 } = 0 ∧
      (minInt ≤ pointsRetailer r + pointsItemCount r + pointsItems r + pointsDate r +
          pointsTime r →
        pointsRetailer r + pointsItemCount r + pointsItems r + pointsDate r + pointsTime r ≤
          maxInt →
        calculatePoints { r with Total := t1 } =
          pointsRetailer r + pointsItemCount r + pointsItems r + pointsDate r +
            pointsTime r) := by
  have key : ∀ t : String, (parseFloat t).2 ≠ none →
      exactPoints { r with Total := t } =
        pointsRetailer r + pointsItemCount r + pointsItems r + pointsDate r + pointsTime r := by
    intro t ht
    rw [exactPoints, pointsRoundTotal_of_error r t ht, pointsQuarterTotal_of_error r t ht]
    simp [pointsRetailer, pointsItemCount, pointsItems, pointsDate, pointsTime]
  refine ⟨?_, pointsRoundTotal_of_error r t1 h1, pointsQuarterTotal_of_error r t1 h1, ?_⟩
  · rw [calculatePoints_eq_wrapInt, calculatePoints_eq_wrapInt, key t1 h1, key t2 h2]
  · intro hlo hhi
    rw [← key t1 h1] at hlo hhi ⊢
    exact calculatePoints_of_range _ hlo hhi

set_option maxRecDepth 100000 in
/-- Claim C9, witness: the corner market receipt with the totals
`not-a-number` and `abc` scores 34 both times, the sum of 14, 10, 0, 0 and 10
from rules R1, R4, R5, R6 and R7. -/
theorem unparsable_total_scores_rest_witness :
    (parseFloat "not-a-number").2 ≠ none ∧ (parseFloat "abc").2 ≠ none ∧
      pointsRetailer cornerMarketReceipt + pointsItemCount cornerMarketReceipt +
        pointsItems cornerMarketReceipt + pointsDate cornerMarketReceipt +
        pointsTime cornerMarketReceipt = 34 ∧
      calculatePoints { cornerMarketReceipt with Total := "abc" } = 34 ∧
      calculatePoints { cornerMarketReceipt with Total := "not-a-number" } =
        calculatePoints { cornerMarketReceipt with Total := "abc" } ∧
      calculatePoints { cornerMarketReceipt with Total := "not-a-number" } =
        pointsRetailer cornerMarketReceipt + pointsItemCount cornerMarketReceipt +
          pointsItems cornerMarketReceipt + pointsDate cornerMarketReceipt +
          pointsTime cornerMarketReceipt :=
  ⟨by decide, by decide, by decide, by decide,
    (unparsable_total_scores_rest cornerMarketReceipt "not-a-number" "abc" (by decide)
      (by decide)).1,
    (unparsable_total_scores_rest cornerMarketReceipt "not-a-number" "abc" (by decide)
      (by decide)).2.2.2 (by decide) (by decide)⟩

set_option maxRecDepth 100000 in
/-- Claim C9, counterexample: the receipt with two items priced `5 * 2^62`
and the unparsable total `x` passes validation; rules R1, R4, R5, R6 and R7
sum to 9223372036854775819, which is beyond the largest `int`, and the score
is -9223372036854775797. -/
theorem unparsable_total_sum_overflows :
    isValidReceipt { hugePriceReceipt with Total := "x" } = true ∧
      (parseFloat "x").2 ≠ none ∧
      pointsRetailer hugePriceReceipt + pointsItemCount hugePriceReceipt +
        pointsItems hugePriceReceipt + pointsDate hugePriceReceipt +
        pointsTime hugePriceReceipt = 9223372036854775819 ∧
      calculatePoints { hugePriceReceipt with Total := "x" } = -9223372036854775797 := by
  decide

/-- Claim C10, amended: for a receipt that passes `isValidReceipt`, an item
whose trimmed description has a length not divisible by 3 adds 0; an item
whose trimmed description has a length divisible by 3 and whose price is
written with digits, a point and two digits and is at most `10^15` cents adds
exactly the ceiling of a fifth of its price (rounded upward, not to nearest and
not truncated), which is also the ceiling of a fifth of the parsed float64;
for any other price it adds the ceiling of the float64 product of the parsed
price and 0.2 whenever that ceiling is within the range of `int`; and the score
is the sum of the rule contributions, with one such term per item, whenever
that sum lies within the range of `int`. -/
theorem item_rule_is_exact_ceiling (r : Receipt) (hv : isValidReceipt r = true) :
    (∀ item ∈ r.Items,
        (byteLen (trimSpace item.ShortDescription.data) % 3 ≠ 0 → itemPoints item = 0) ∧
        (byteLen (trimSpace item.ShortDescription.data) % 3 = 0 →
          (∀ (ds : List Char) (c1 c2 : Char), item.Price.data = ds ++ ['.', c1, c2] →
            (∀ c ∈ ds, isDigit c = true) → isDigit c1 = true → isDigit c2 = true →
            decimalValue (ds ++ [c1, c2]) ≤ 10 ^ 15 →
            itemPoints item = ⌈(decimalValue (ds ++ [c1, c2]) : ℚ) / 100 * (1 / 5)⌉ ∧
              itemPoints item = ⌈F64.toRat (parseFloat item.Price).1 * (1 / 5)⌉) ∧
          ((F64.ceil (F64.mul (parseFloat item.Price).1 F64.oneFifth)).fitsInt = true →
            itemPoints item = ⌈(F64.mul (parseFloat item.Price).1 F64.oneFifth).toRat⌉))) ∧
      (minInt ≤ exactPoints r → exactPoints r ≤ maxInt →
        calculatePoints r =
          pointsRetailer r + pointsRoundTotal r + pointsQuarterTotal r + pointsItemCount r +
            (r.Items.map itemPoints).sum + pointsDate r + pointsTime r) := by
  refine ⟨?_, fun hlo hhi => calculatePoints_of_range r hlo hhi⟩
  intro item hi
  have hvi := isValidReceipt_items r hv item hi
  have hpts := itemPoints_of_valid item hvi
  refine ⟨?_, ?_⟩
  · intro h3
    rw [hpts, if_neg h3]
  · intro h3
    refine ⟨?_, ?_⟩
    · intro ds c1 c2 hs hds h1 h2 hk
      exact itemPoints_two_decimals item ds c1 c2 hs hds h1 h2 hk h3
    · intro hfit
      rw [hpts, if_pos h3]
      cases hx : F64.mul (parseFloat item.Price).1 F64.oneFifth with
      | nan => rw [hx] at hfit; simp [F64.ceil, F64.fitsInt] at hfit
      | inf b => rw [hx] at hfit; simp [F64.ceil, F64.fitsInt] at hfit
      | fin neg m e =>
          rw [hx] at hfit
          exact toInt_ceil neg m e hfit

set_option maxRecDepth 100000 in
/-- Claim C10, witness: the Target receipt is valid and scores 28, the sum
of its rule contributions; its item `Emils Cheese Pizza` at `12.25`, that is
1225 cents, adds the ceiling of 2.45, which is 3. -/
theorem item_rule_is_exact_ceiling_witness :
    isValidReceipt targetReceipt = true ∧
      decimalValue ("12".data ++ ['2', '5']) = 1225 ∧
      (⟨"Emils Cheese Pizza", "12.25"⟩ : Item) ∈ targetReceipt.Items ∧
      itemPoints ⟨"Emils Cheese Pizza", "12.25"⟩ =
        ⌈(decimalValue ("12".data ++ ['2', '5']) : ℚ) / 100 * (1 / 5)⌉ ∧
      itemPoints ⟨"Emils Cheese Pizza", "12.25"⟩ = 3 ∧
      itemPoints ⟨"Mountain Dew 12PK", "6.49"⟩ = 0 ∧
      calculatePoints targetReceipt = 28 ∧
      calculatePoints targetReceipt =
        pointsRetailer targetReceipt + pointsRoundTotal targetReceipt +
          pointsQuarterTotal targetReceipt + pointsItemCount targetReceipt +
          (targetReceipt.Items.map itemPoints).sum + pointsDate targetReceipt +
          pointsTime targetReceipt :=
  ⟨by decide, by decide, by decide,
    ((((item_rule_is_exact_ceiling targetReceipt (by decide)).1
      ⟨"Emils Cheese Pizza", "12.25"⟩ (by decide)).2 (by decide)).1 "12".data '2' '5' rfl
      (by decide) (by decide) (by decide) (by decide)).1,
    by decide, by decide, by decide,
    (item_rule_is_exact_ceiling targetReceipt (by decide)).2 (by decide) (by decide)⟩

set_option maxRecDepth 100000 in
/-- Claim C10, counterexample: the price `22517998136852496` parses exactly;
a fifth of it is `4503599627370499.2`, whose ceiling is `4503599627370500`,
but the float64 product with 0.2 is rounded to `4503599627370499` and the item
adds that many points.  The price `140737488355330.01` is rounded to
`140737488355330` when parsed, and the item adds `28147497671066` points,
while the ceiling of a fifth of the price is `28147497671067`. -/
theorem large_price_misses_exact_ceiling :
    isValidItem ⟨"abc", "22517998136852496"⟩ = true ∧
      parseFloat "22517998136852496" = (F64.fin false 5629499534213124 2, none) ∧
      (F64.fin false 5629499534213124 2).toRat = 22517998136852496 ∧
      byteLen (trimSpace ("abc" : String).data) % 3 = 0 ∧
      itemPoints ⟨"abc", "22517998136852496"⟩ = 4503599627370499 ∧
      ⌈(22517998136852496 : ℚ) * (1 / 5)⌉ = 4503599627370500 ∧
      isValidItem ⟨"abc", "140737488355330.01"⟩ = true ∧
      parseFloat "140737488355330.01" = (F64.fin false 4503599627370560 (-5), none) ∧
      (F64.fin false 4503599627370560 (-5)).toRat = 140737488355330 ∧
      itemPoints ⟨"abc", "140737488355330.01"⟩ = 28147497671066 ∧
      ⌈(14073748835533001 : ℚ) / 100 * (1 / 5)⌉ = 28147497671067 :=
  ⟨by decide, by decide, by norm_num [F64.toRat], by decide, by decide, by
    rw [Int.ceil_eq_iff]
    norm_num, by decide, by decide, by norm_num [F64.toRat], by decide, by
    rw [Int.ceil_eq_iff]
    norm_num⟩

/-- Claim C11, amended: for two receipts that differ only in `purchaseDate`,
one with a date that parses under `2006-01-02` to an odd day and one with a
date that parses to an even day, rule R6 contributes 6 for the first and 0 for
the second; the first score is exactly 6 more than the second whenever the
second plus 6 does not exceed the largest `int`, and otherwise it is the second
plus 6 minus `2^64`. -/
theorem odd_day_scores_six_more (r : Receipt) (dOdd dEven : String) (tOdd tEven : Time)
    (h1 : parseDateFields dOdd.data = some tOdd) (h2 : tOdd.day % 2 = 1)
    (h3 : parseDateFields dEven.data = some tEven) (h4 : tEven.day % 2 = 0) :
    pointsDate { r with PurchaseDate := dOdd } = 6 ∧
      pointsDate { r with PurchaseDate := dEven } = 0 ∧
      (calculatePoints { r with PurchaseDate := dEven } + 6 ≤ maxInt →
        calculatePoints { r with PurchaseDate := dOdd } =
          calculatePoints { r with PurchaseDate := dEven } + 6) ∧
      (maxInt < calculatePoints { r with PurchaseDate := dEven } + 6 →
        calculatePoints { r with PurchaseDate := dOdd } =
          calculatePoints { r with PurchaseDate := dEven } + 6 - 2 ^ 64) := by
  have hodd : pointsDate { r with PurchaseDate := dOdd } = 6 := by
    simp [pointsDate, timeParseDate, h1, h2]
  have heven : pointsDate { r with PurchaseDate := dEven } = 0 := by
    simp [pointsDate, timeParseDate, h3, h4]
  have hex : exactPoints { r with PurchaseDate := dOdd } =
      exactPoints { r with PurchaseDate := dEven } + 6 := by
    unfold exactPoints
    rw [hodd, heven]
    simp only [pointsRetailer, pointsRoundTotal, pointsQuarterTotal, pointsItemCount, pointsItems,
      pointsTime]
    ring
  have hs := calculatePoints_shift_up _ _ 6 (by norm_num) (by norm_num) hex
  exact ⟨hodd, heven, hs.1, hs.2⟩

set_option maxRecDepth 100000 in
/-- Claim C11, witness: the corner market receipt dated `2022-01-02` scores
109 and dated `2022-01-01` scores 115. -/
theorem odd_day_scores_six_more_witness :
    parseDateFields ("2022-01-01" : String).data = some ⟨2022, 1, 1, 0, 0⟩ ∧
      parseDateFields ("2022-01-02" : String).data = some ⟨2022, 1, 2, 0, 0⟩ ∧
      calculatePoints { cornerMarketReceipt with PurchaseDate := "2022-01-02" } = 109 ∧
      calculatePoints { cornerMarketReceipt with PurchaseDate := "2022-01-01" } = 115 ∧
      calculatePoints { cornerMarketReceipt with PurchaseDate := "2022-01-01" } =
        calculatePoints { cornerMarketReceipt with PurchaseDate := "2022-01-02" } + 6 :=
  ⟨by decide, by decide, by decide, by decide,
    (odd_day_scores_six_more cornerMarketReceipt "2022-01-01" "2022-01-02" ⟨2022, 1, 1, 0, 0⟩
      ⟨2022, 1, 2, 0, 0⟩ (by decide) (by decide) (by decide) (by decide)).2.2.1 (by decide)⟩

set_option maxRecDepth 100000 in
/-- Claim C11, counterexample: a valid receipt that scores 9223372036854775804
with the even-day date `2022-01-02` scores -9223372036854775806 with the
odd-day date `2022-01-01`, not 6 more. -/
theorem odd_day_score_wraps :
    isValidReceipt edgeReceipt = true ∧
      parseDateFields ("2022-01-02" : String).data = some ⟨2022, 1, 2, 0, 0⟩ ∧
      parseDateFields ("2022-01-01" : String).data = some ⟨2022, 1, 1, 0, 0⟩ ∧
      calculatePoints { edgeReceipt with PurchaseDate := "2022-01-02" } = 9223372036854775804 ∧
      calculatePoints { edgeReceipt with PurchaseDate := "2022-01-01" } =
        -9223372036854775806 := by
  decide

set_option maxRecDepth 100000 in
/-- Claim C12, amended: rule R7 contributes 10 exactly when `purchaseTime`
parses under `15:04` and the parsed hour is 14 or 15, and 0 otherwise, in
particular when `purchaseTime` does not parse; whenever the score of the same
receipt with an empty `purchaseTime` plus 10 does not exceed the largest
`int`, the score is exactly 10 more than that score in the first case and
equal to it in the second; on the corner market receipt `14:00` and `15:59`
score 109, `13:59` and `16:00` score 99. -/
theorem afternoon_scores_ten_more (r : Receipt) :
    (pointsTime r = 10 ↔
        ∃ t, parseClockFields r.PurchaseTime.data = some t ∧ 14 ≤ t.hour ∧ t.hour < 16) ∧
      (pointsTime r = 0 ↔
        ¬ ∃ t, parseClockFields r.PurchaseTime.data = some t ∧ 14 ≤ t.hour ∧ t.hour < 16) ∧
      (parseClockFields r.PurchaseTime.data = none → pointsTime r = 0) ∧
      (calculatePoints { r with PurchaseTime := "" } + 10 ≤ maxInt →
        (calculatePoints r = calculatePoints { r with PurchaseTime := "" } + 10 ↔
          ∃ t, parseClockFields r.PurchaseTime.data = some t ∧ 14 ≤ t.hour ∧ t.hour < 16) ∧
        (calculatePoints r = calculatePoints { r with PurchaseTime := "" } ↔
          ¬ ∃ t, parseClockFields r.PurchaseTime.data = some t ∧ 14 ≤ t.hour ∧ t.hour < 16) ∧
        (parseClockFields r.PurchaseTime.data = none →
          calculatePoints r = calculatePoints { r with PurchaseTime := "" })) ∧
      calculatePoints { cornerMarketReceipt with PurchaseTime := "14:00" } = 109 ∧
      calculatePoints { cornerMarketReceipt with PurchaseTime := "15:59" } = 109 ∧
      calculatePoints { cornerMarketReceipt with PurchaseTime := "13:59" } = 99 ∧
      calculatePoints { cornerMarketReceipt with PurchaseTime := "16:00" } = 99 ∧
      calculatePoints { cornerMarketReceipt with PurchaseTime := "" } = 99 := by
  have h10 := pointsTime_iff r
  have hv := pointsTime_values r
  have h0 : pointsTime r = 0 ↔
      ¬ ∃ t, parseClockFields r.PurchaseTime.data = some t ∧ 14 ≤ t.hour ∧ t.hour < 16 := by
    rw [← h10]
    rcases hv with a | a <;> (rw [a]; norm_num)
  have hnone : parseClockFields r.PurchaseTime.data = none → pointsTime r = 0 := by
    intro h
    rw [h0]
    rintro ⟨t, ht, _⟩
    rw [h] at ht
    exact Option.noConfusion ht
  refine ⟨h10, h0, hnone, ?_, by decide, by decide, by decide, by decide, by decide⟩
  intro hsum
  have hsh := (calculatePoints_shift_up r { r with PurchaseTime := "" } (pointsTime r)
    (by rcases hv with a | a <;> linarith)
    (by rcases hv with a | a <;> linarith) (exactPoints_time r)).1
    (by rcases hv with a | a <;> linarith)
  refine ⟨?_, ?_, ?_⟩
  · rw [← h10]
    constructor
    · intro h
      linarith
    · intro h
      rw [hsh, h]
  · rw [← h0]
    constructor
    · intro h
      linarith
    · intro h
      rw [hsh, h]
      ring
  · intro h
    rw [hsh, hnone h]
    ring

set_option maxRecDepth 100000 in
/-- Claim C12, witness: the corner market receipt with the time `14:33`
scores 109, which is 10 more than the 99 it scores with an empty time. -/
theorem afternoon_scores_ten_more_witness :
    parseClockFields cornerMarketReceipt.PurchaseTime.data = some ⟨0, 1, 1, 14, 33⟩ ∧
      calculatePoints { cornerMarketReceipt with PurchaseTime := "" } = 99 ∧
      calculatePoints cornerMarketReceipt = 109 ∧
      calculatePoints cornerMarketReceipt =
        calculatePoints { cornerMarketReceipt with PurchaseTime := "" } + 10 :=
  ⟨by decide, by decide, by decide,
    ((afternoon_scores_ten_more cornerMarketReceipt).2.2.2.1 (by decide)).1.mpr
      ⟨⟨0, 1, 1, 14, 33⟩, by decide, by decide, by decide⟩⟩

set_option maxRecDepth 100000 in
/-- Claim C12, counterexample: a valid receipt that scores 9223372036854775804
with an empty `purchaseTime` scores -9223372036854775802 with the time
`14:00`, not 10 more. -/
theorem afternoon_score_wraps :
    isValidReceipt edgeReceipt = true ∧
      pointsTime { edgeReceipt with PurchaseTime := "14:00" } = 10 ∧
      calculatePoints { edgeReceipt with PurchaseTime := "" } = 9223372036854775804 ∧
      calculatePoints { edgeReceipt with PurchaseTime := "14:00" } =
        -9223372036854775802 := by
  decide

set_option maxRecDepth 100000 in
/-- Claim C13, amended: rule R1 contributes the number of characters of
`retailer` that are ASCII letters or digits; white space, hyphens, ampersands
and underscores are not counted; two receipts that differ only in `retailer`
differ in score by exactly the difference of these counts whenever the one
score plus that difference lies within the range of `int`; the retailer
`Target` contributes 6. -/
theorem retailer_count_difference (r : Receipt) (a b : String) :
    pointsRetailer r = (r.Retailer.data.countP isAlnum : Int) ∧
      (∀ c, isAlnum c = true ↔ c.isAlpha = true ∨ c.isDigit = true) ∧
      (∀ c, isPerlSpace c = true ∨ c = '-' ∨ c = '&' ∨ c = '_' → isAlnum c = false) ∧
      (minInt ≤ calculatePoints { r with Retailer := b } +
          ((a.data.countP isAlnum : Int) - (b.data.countP isAlnum : Int)) →
        calculatePoints { r with Retailer := b } +
          ((a.data.countP isAlnum : Int) - (b.data.countP isAlnum : Int)) ≤ maxInt →
        calculatePoints { r with Retailer := a } - calculatePoints { r with Retailer := b } =
          (a.data.countP isAlnum : Int) - (b.data.countP isAlnum : Int)) ∧
      pointsRetailer targetReceipt = 6 := by
  refine ⟨pointsRetailer_eq_count r, isAlnum_iff, isAlnum_excludes, ?_, by decide⟩
  intro hlo hhi
  rw [(calculatePoints_shift _ _ _ (exactPoints_retailer r a b)).1 hlo hhi]
  ring

set_option maxRecDepth 100000 in
/-- Claim C13, witness: the Target receipt scores 28; with the retailer
`M&M Corner Market`, which has 14 letters and digits against the 6 of
`Target`, it scores 36, and with the retailer `T - & _` it scores 23. -/
theorem retailer_count_difference_witness :
    (("M&M Corner Market" : String).data.countP isAlnum : Int) = 14 ∧
      (("Target" : String).data.countP isAlnum : Int) = 6 ∧
      calculatePoints { targetReceipt with Retailer := "Target" } = 28 ∧
      calculatePoints { targetReceipt with Retailer := "M&M Corner Market" } = 36 ∧
      calculatePoints { targetReceipt with Retailer := "T - & _" } = 23 ∧
      calculatePoints { targetReceipt with Retailer := "M&M Corner Market" } -
          calculatePoints { targetReceipt with Retailer := "Target" } =
        (("M&M Corner Market" : String).data.countP isAlnum : Int) -
          (("Target" : String).data.countP isAlnum : Int) :=
  ⟨by decide, by decide, by decide, by decide, by decide,
    (retailer_count_difference targetReceipt "M&M Corner Market" "Target").2.2.2.1 (by decide)
      (by decide)⟩

set_option maxRecDepth 100000 in
/-- Claim C13, counterexample: a valid receipt scores 9223372036854775799
with the retailer `T` and -9223372036854775806 with the retailer
`TargetTarget`, which has 11 more letters. -/
theorem retailer_score_wraps :
    isValidReceipt { edgeReceipt with Retailer := "T" } = true ∧
      isValidReceipt { edgeReceipt with Retailer := "TargetTarget" } = true ∧
      pointsRetailer { edgeReceipt with Retailer := "T" } = 1 ∧
      pointsRetailer { edgeReceipt with Retailer := "TargetTarget" } = 12 ∧
      calculatePoints { edgeReceipt with Retailer := "T" } = 9223372036854775799 ∧
      calculatePoints { edgeReceipt with Retailer := "TargetTarget" } =
        -9223372036854775806 := by
  decide

/-- Claim C14, amended: rule R4 contributes 5 times the number of items
halved and rounded down, whatever the items are (4 items give 10, 5 items give
10 and 1 item gives 0); the score is the sum of the seven rule contributions
with that term whenever this sum lies within the range of `int`; and
appending items that earn nothing from rule R5 raises the score by exactly the
increase of that term whenever the raised score does not exceed the largest
`int`. -/
theorem item_count_term (r : Receipt) (extra : List Item)
    (hextra : ∀ item ∈ extra, itemPoints item = 0) :
    pointsItemCount r = 5 * ((r.Items.length / 2 : Nat) : Int) ∧
      (∀ r2 : Receipt, r2.Items.length = r.Items.length →
        pointsItemCount r2 = pointsItemCount r) ∧
      (minInt ≤ exactPoints r → exactPoints r ≤ maxInt →
        calculatePoints r =
          pointsRetailer r + pointsRoundTotal r + pointsQuarterTotal r +
            5 * ((r.Items.length / 2 : Nat) : Int) + pointsItems r + pointsDate r +
            pointsTime r) ∧
      (calculatePoints r + (5 * (((r.Items.length + extra.length) / 2 : Nat) : Int) -
          5 * ((r.Items.length / 2 : Nat) : Int)) ≤ maxInt →
        calculatePoints { r with Items := r.Items ++ extra } =
          calculatePoints r + (5 * (((r.Items.length + extra.length) / 2 : Nat) : Int) -
            5 * ((r.Items.length / 2 : Nat) : Int))) ∧
      (r.Items.length = 4 → pointsItemCount r = 10) ∧
      (r.Items.length = 5 → pointsItemCount r = 10) ∧
      (r.Items.length = 1 → pointsItemCount r = 0) := by
  have hdef : ∀ x : Receipt, pointsItemCount x = 5 * ((x.Items.length / 2 : Nat) : Int) := by
    intro x
    unfold pointsItemCount
    ring
  have hmono : (0 : Int) ≤ 5 * (((r.Items.length + extra.length) / 2 : Nat) : Int) -
      5 * ((r.Items.length / 2 : Nat) : Int) := by
    have : r.Items.length / 2 ≤ (r.Items.length + extra.length) / 2 :=
      Nat.div_le_div_right (Nat.le_add_right _ _)
    omega
  refine ⟨hdef r, ?_, ?_, ?_, ?_, ?_, ?_⟩
  · intro r2 h
    rw [hdef, hdef, h]
  · intro hlo hhi
    rw [calculatePoints_of_range r hlo hhi, exactPoints, hdef]
  · intro hhi
    have hr := calculatePoints_range r
    exact (calculatePoints_shift _ r _ (exactPoints_append r extra hextra)).1
      (by linarith [hr.1]) hhi
  · intro h
    rw [hdef, h]
    rfl
  · intro h
    rw [hdef, h]
    rfl
  · intro h
    rw [hdef, h]
    rfl

set_option maxRecDepth 100000 in
/-- Claim C14, witness: the corner market receipt has 4 items and scores
109; with a fifth item `ab` at `1.00`, which earns nothing from rule R5, it
still scores 109, and with two such items it scores 114. -/
theorem item_count_term_witness :
    itemPoints ⟨"ab", "1.00"⟩ = 0 ∧
      calculatePoints cornerMarketReceipt = 109 ∧
      calculatePoints { cornerMarketReceipt with
        Items := cornerMarketReceipt.Items ++ [⟨"ab", "1.00"⟩] } = 109 ∧
      calculatePoints { cornerMarketReceipt with
        Items := cornerMarketReceipt.Items ++ [⟨"ab", "1.00"⟩, ⟨"ab", "1.00"⟩] } = 114 ∧
      calculatePoints { cornerMarketReceipt with
          Items := cornerMarketReceipt.Items ++ [⟨"ab", "1.00"⟩, ⟨"ab", "1.00"⟩] } =
        calculatePoints cornerMarketReceipt +
          (5 * (((cornerMarketReceipt.Items.length +
              [(⟨"ab", "1.00"⟩ : Item), ⟨"ab", "1.00"⟩].length) / 2 : Nat) : Int) -
            5 * ((cornerMarketReceipt.Items.length / 2 : Nat) : Int)) :=
  ⟨by decide, by decide, by decide, by decide,
    (item_count_term cornerMarketReceipt [⟨"ab", "1.00"⟩, ⟨"ab", "1.00"⟩]
      (by decide)).2.2.2.1 (by decide)⟩

set_option maxRecDepth 100000 in
/-- Claim C14, counterexample: a valid receipt with 2 items scores
9223372036854775804; with two more items that earn nothing from rule R5 it
has 4 items and scores -9223372036854775807, not 5 more. -/
theorem item_count_score_wraps :
    isValidReceipt edgeReceipt = true ∧
      isValidReceipt { edgeReceipt with
        Items := edgeReceipt.Items ++ [⟨"ab", "1.00"⟩, ⟨"ab", "1.00"⟩] } = true ∧
      itemPoints ⟨"ab", "1.00"⟩ = 0 ∧
      pointsItemCount edgeReceipt = 5 ∧
      pointsItemCount { edgeReceipt with
        Items := edgeReceipt.Items ++ [⟨"ab", "1.00"⟩, ⟨"ab", "1.00"⟩] } = 10 ∧
      calculatePoints edgeReceipt = 9223372036854775804 ∧
      calculatePoints { edgeReceipt with
        Items := edgeReceipt.Items ++ [⟨"ab", "1.00"⟩, ⟨"ab", "1.00"⟩] } =
          -9223372036854775807 := by
  decide

end ReceiptProcessor
